import Mathlib

/-
  Verification model of the CUDA fusion IR core of this repository:
  the Fusion container (torch/csrc/jit/codegen/cuda/fusion.cpp), the
  iterative topological traversal engine (iter_visitor.cpp) and the
  kernel-header printing logic (ir_iostream.cpp).

  Heap-allocated Val and Expr nodes are modelled by natural-number
  identifiers; a Heap assigns to each identifier the payload fields of
  the C++ object that the code under study reads.  A Fusion holds the
  registries and maps of the C++ Fusion class (val_set_, val_deque_,
  expr_set_, origin_, uses_, inputs_, outputs_).  Unordered containers
  are modelled as lists with set semantics; TORCH_CHECK and
  TORCH_INTERNAL_ASSERT failures are modelled by returning none.
-/

namespace FuserModel

/-- Reference to an IR Statement: either a Val node or an Expr node.
Val and Expr live in separate identifier spaces, as in the C++ code
they are distinct heap objects. -/
inductive StmtRef
  | val (v : Nat)
  | expr (e : Nat)
deriving DecidableEq

/-- ValType of a Val (type.h): TensorView, Scalar, NamedScalar or the
lowering-only TensorIndex. -/
inductive ValTy
  | tensorView
  | scalar
  | namedScalar
  | tensorIndex
deriving DecidableEq

/-- DataType of a Val (abridged to the constructors the modelled code
distinguishes). -/
inductive DataTy
  | float
  | half
  | int
  | bool
deriving DecidableEq

/-- Kind tag of one IterDomain axis. -/
inductive IterKind
  | iteration
  | reduction
  | broadcast
deriving DecidableEq

/-- Parallel binding tag of one IterDomain axis. -/
inductive ParallelTy
  | serial
  | bidx
  | bidy
  | bidz
  | tidx
  | tidy
  | tidz
  | unroll
  | vectorize
deriving DecidableEq

/-- One IterDomain axis: its kind, its parallel binding, the Val ids
of its start and extent scalars, and its rFactor-product flag — the
fields IRPrinter::handle(IterDomain) prints (ir_iostream.cpp lines
131..161). -/
structure IterDomainData where
  kind : IterKind
  parallel : ParallelTy
  start : Nat
  extent : Nat
  rfactor : Bool
deriving DecidableEq

/-- One Split or Merge transform record of a TensorView's domain
history, as the Split/Merge printers read it (ir_iostream.cpp lines
569..587): Split maps one axis to an outer and an inner axis by a
factor scalar, Merge maps an outer and an inner axis to one axis. -/
inductive TransformRec
  | split (inAxis : IterDomainData) (factor : Nat) (outer inner : IterDomainData)
  | merge (outer inner : IterDomainData) (outAxis : IterDomainData)
deriving DecidableEq

/-- Unary operator tag (abridged: the modelled code only distinguishes
RandLike and Cast from the rest; the tag stands for the full
UnaryOpType enum, which determines the printed operator text). -/
inductive UnaryOpTy
  | neg
  | cast
  | randLike
deriving DecidableEq

/-- Binary operator tag (abridged; the tag stands for the full
BinaryOpType enum, which determines the printed operator text). -/
inductive BinaryOpTy
  | add
  | sub
  | mul
  | div
  | mod
  | lt
  | ceilDiv
  | andOp
deriving DecidableEq

/-- Ternary operator tag (abridged; the tag stands for the full
TernaryOpType enum, which determines the printed operator text). -/
inductive TernaryOpTy
  | clamp
  | threshold
  | whereOp
deriving DecidableEq

/-- Expression kind tag, carrying the operator sub-tag the printer
emits. -/
inductive ExprTy
  | unaryOp (op : UnaryOpTy)
  | binaryOp (op : BinaryOpTy)
  | ternaryOp (op : TernaryOpTy)
  | reductionOp (op : BinaryOpTy)
  | broadcastOp
deriving DecidableEq

/-- Payload of a Val node: the fields read by the modelled code.  The
TensorView-specific fields (root domain, current domain, compute-at
back-reference and relative compute-at axis) are meaningful only when
`vty` is `tensorView`. -/
structure ValNode where
  vty : ValTy
  vname : Nat
  dtype : DataTy
  value : Option Int
  rootDomain : List IterDomainData
  domain : List IterDomainData
  transforms : List TransformRec
  computeAtView : Option Nat
  relComputeAtAxis : Nat
deriving DecidableEq

/-- Payload of an Expr node: its kind tag, its display name, its
ordered input and output Val ids and, for a ReductionOp, the Val id
of its initial value. `value` on a Val is the constant payload of a
scalar, coded as an integer at name level (the code stores a
c10::optional of the scalar type; Val::isSymbolic is its absence),
and `transforms` is the Split/Merge history of a TensorView's
domain. -/
structure ExprNode where
  ety : ExprTy
  ename : Nat
  inputs : List Nat
  outputs : List Nat
  einit : Option Nat
deriving DecidableEq

/-- The node heap: payloads of all Val and Expr nodes, plus the
structural-equality predicate `sameAs`.  Val::sameAs is not part of the
sources under src/; it is modelled from the spec as an abstract
pointer-identity-independent structural-equality predicate on Vals. -/
structure Heap where
  hval : Nat → ValNode
  hexpr : Nat → ExprNode
  sameAs : Nat → Nat → Bool

/-- The Fusion container state: node registries, the origin and uses
maps, and the ordered input/output lists (fusion.h data members). -/
structure Fusion where
  valSet : List Nat
  valDeque : List Nat
  exprSet : List Nat
  origin : Nat → Option Nat
  uses : Nat → List Nat
  inputs : List Nat
  outputs : List Nat

/- ----------------------------------------------------------------
   Stable sort used by IterVisitor::next(Expr*, bool).
   std::stable_sort sorts by a strict weak order on keys and keeps the
   relative order of equivalent elements; this is exactly insertion
   sort of the index-annotated list under the lexicographic order
   (key, original index).
   ---------------------------------------------------------------- -/

/-- Lexicographic order on (original index, element) pairs used to
model std::stable_sort under an integer key. -/
abbrev keyLE (key : StmtRef → Int) (p q : Nat × StmtRef) : Prop :=
  key p.2 < key q.2 ∨ (key p.2 = key q.2 ∧ p.1 ≤ q.1)

instance (key : StmtRef → Int) : IsTotal (Nat × StmtRef) (keyLE key) := by
  constructor
  intro a b
  rcases lt_trichotomy (key a.2) (key b.2) with h | h | h
  · exact Or.inl (Or.inl h)
  · rcases Nat.le_total a.1 b.1 with h2 | h2
    · exact Or.inl (Or.inr ⟨h, h2⟩)
    · exact Or.inr (Or.inr ⟨h.symm, h2⟩)
  · exact Or.inr (Or.inl h)

instance (key : StmtRef → Int) : IsTrans (Nat × StmtRef) (keyLE key) := by
  constructor
  intro a b c hab hbc
  rcases hab with hab | ⟨hab, hab2⟩
  · rcases hbc with hbc | ⟨hbc, _⟩
    · exact Or.inl (hab.trans hbc)
    · exact Or.inl (hbc ▸ hab)
  · rcases hbc with hbc | ⟨hbc, hbc2⟩
    · exact Or.inl (hab ▸ hbc)
    · exact Or.inr ⟨hab.trans hbc, hab2.trans hbc2⟩

/-- Model of std::stable_sort by an integer key: annotate each element
with its original index, sort by (key, index) lexicographically, drop
the indices. -/
def stableSortByKey (key : StmtRef → Int) (l : List StmtRef) : List StmtRef :=
  (List.insertionSort (keyLE key) l.enum).map Prod.snd

/- ----------------------------------------------------------------
   IterVisitor::next (iter_visitor.cpp, lines 12..64)
   ---------------------------------------------------------------- -/

/-- Compute-at sort key from the comparator in IterVisitor::next
(iter_visitor.cpp lines 45..60): an input that is a TensorView
computed at the single output `out` is keyed by its relative
compute-at axis, every other statement by -1. -/
def caKey (h : Heap) (out : Nat) (s : StmtRef) : Int :=
  match s with
  | StmtRef.val v =>
    if (h.hval v).vty = ValTy.tensorView ∧ (h.hval v).computeAtView = some out then
      ((h.hval v).relComputeAtAxis : Int)
    else -1
  | StmtRef.expr _ => -1

/-- IterVisitor::next(Val*): asserts the Val is in the fusion, then
returns its origin expression, if any. -/
def nextVal (f : Fusion) (v : Nat) : Option (List StmtRef) :=
  if v ∈ f.valSet then
    match f.origin v with
    | some e => some [StmtRef.expr e]
    | none => some []
  else none

/-- IterVisitor::next(Expr*, bool): asserts the Expr is in the fusion
and returns its inputs; with respect_compute_at set it additionally
asserts a single output and, when that output is a TensorView,
stable-sorts the inputs by their compute-at key. -/
def nextExpr (h : Heap) (f : Fusion) (respectComputeAt : Bool) (e : Nat) :
    Option (List StmtRef) :=
  if e ∈ f.exprSet then
    let ins := ((h.hexpr e).inputs).map StmtRef.val
    if respectComputeAt then
      match (h.hexpr e).outputs with
      | [o] =>
        if (h.hval o).vty = ValTy.tensorView then
          some (stableSortByKey (caKey h o) ins)
        else some ins
      | _ => none
    else some ins
  else none

/-- IterVisitor::next(Statement*): dispatch on the node kind. -/
def nextStmt (h : Heap) (f : Fusion) (respectComputeAt : Bool) :
    StmtRef → Option (List StmtRef)
  | StmtRef.val v => nextVal f v
  | StmtRef.expr e => nextExpr h f respectComputeAt e

/- ----------------------------------------------------------------
   IterVisitor::traverseFrom (iter_visitor.cpp, lines 86..132).

   The C++ routine is an iterative stack machine: a stack of frames,
   each frame the not-yet-handled elements of one next(...) list; an
   element is handled (post-order) after its own next-list, filtered
   against the visited set at expansion time, has been fully handled.
   The recursion below is that machine written structurally: visiting
   the head of a frame expands it once (filtering its next-list
   against the current visited set), recursively processes the
   filtered list, then handles the head and continues with the rest
   of the frame.  A fuel parameter bounds the recursion depth; a run
   that returns some corresponds to a terminating C++ execution.
   ---------------------------------------------------------------- -/

/-- Traversal state: the visited set and the handle order. -/
structure TravState where
  visited : List StmtRef
  order : List StmtRef
deriving DecidableEq

/-- One traversal of the stack machine of IterVisitor::traverseFrom
with traverseAllPaths = false (the only mode the modelled callers
use): post-order depth-first handling, pruning next-elements already
visited at expansion time. -/
def visit (nx : StmtRef → Option (List StmtRef)) :
    Nat → List StmtRef → TravState → Option TravState
  | _, [], st => some st
  | 0, _ :: _, _ => none
  | Nat.succ fuel, s :: rest, st =>
    match nx s with
    | none => none
    | some ns =>
      match visit nx fuel (ns.filter (fun t => decide (t ∉ st.visited))) st with
      | none => none
      | some st1 =>
        visit nx fuel rest
          { visited := s :: st1.visited, order := st1.order ++ [s] }

/-- IterVisitor::traverseFrom: run the machine from the given start
list with empty state and return the handle order. -/
def traverseFromModel (nx : StmtRef → Option (List StmtRef))
    (srcs : List StmtRef) (fuel : Nat) : Option (List StmtRef) :=
  (visit nx fuel srcs { visited := [], order := [] }).map TravState.order

/-- Keep only Expr references: the ExprSort handler
(fusion.cpp lines 33..35) collects exactly the handled Exprs. -/
def exprOf : StmtRef → Option Nat
  | StmtRef.val _ => none
  | StmtRef.expr e => some e

/-- ExprSort::getExprs restricted to an explicit start list, as used
by the helper class Exprs (iter_visitor.cpp lines 184..200):
traverseFrom over the Vals in `srcs` collecting handled Exprs. -/
def exprsFrom (h : Heap) (f : Fusion) (respectComputeAt : Bool)
    (srcs : List Nat) (fuel : Nat) : Option (List Nat) :=
  (traverseFromModel (nextStmt h f respectComputeAt) (srcs.map StmtRef.val) fuel).map
    (List.filterMap exprOf)

/-- IterVisitor::getTerminatingOutputs (iter_visitor.cpp lines
225..246): collect every Val used as an input by some expression
reachable from the registered outputs, and return the outputs not in
that used set. -/
def getTerminatingOutputs (h : Heap) (f : Fusion) (fuel : Nat) :
    Option (List Nat) :=
  match exprsFrom h f false f.outputs fuel with
  | none => none
  | some es =>
    let used := es.flatMap (fun e => (h.hexpr e).inputs)
    some (f.outputs.filter (fun o => decide (o ∉ used)))

/-- Fusion::exprs / IterVisitor::traverse_ (fusion.cpp lines 305..313,
iter_visitor.cpp lines 134..161) with breadth_first = false (the true
case is an unconditional assertion failure): from the terminating
outputs when from_outputs_only is set, otherwise from the
deterministic Vals without uses; an empty start list skips the
traversal and yields no expressions. -/
def exprsModel (h : Heap) (f : Fusion) (fromOutputsOnly respectComputeAt : Bool)
    (fuel : Nat) : Option (List Nat) :=
  if fromOutputsOnly then
    match getTerminatingOutputs h f fuel with
    | none => none
    | some touts =>
      if touts.isEmpty then some []
      else exprsFrom h f respectComputeAt touts fuel
  else
    if f.valDeque.all (fun v => decide (v ∈ f.valSet)) then
      let leaves := f.valDeque.filter (fun v => (f.uses v).isEmpty)
      if leaves.isEmpty then some []
      else exprsFrom h f respectComputeAt leaves fuel
    else none

/-- InputsOf::output / Fusion::inputsOf (fusion.cpp lines 47..61 and
315..317): checked failure when the Val is not a registered output;
otherwise traverse backward from it and collect the handled Vals that
have no origin expression. -/
def inputCollect (f : Fusion) : StmtRef → Option Nat
  | StmtRef.val w => if f.origin w = none then some w else none
  | StmtRef.expr _ => none

def inputsOfModel (h : Heap) (f : Fusion) (v : Nat) (fuel : Nat) :
    Option (List Nat) :=
  if v ∈ f.outputs then
    (traverseFromModel (nextStmt h f false) [StmtRef.val v] fuel).map
      (List.filterMap (inputCollect f))
  else none

/- ----------------------------------------------------------------
   TensorView / TensorDomain helper predicates.  Their definitions
   (tensor.cpp / tensor_view.cpp) are not part of the sources under
   src/; they are modelled from the spec: an axis has a kind tag in
   Iteration/Reduction/Broadcast and a parallel binding tag, a
   reduction axis bound to a TID (resp. BID) dimension makes the
   reduction a block (resp. grid) reduction.
   ---------------------------------------------------------------- -/

/-- Parallel tag is one of the thread-index dimensions. -/
def isTID : ParallelTy → Bool
  | ParallelTy.tidx => true
  | ParallelTy.tidy => true
  | ParallelTy.tidz => true
  | _ => false

/-- Parallel tag is one of the block-index dimensions. -/
def isBID : ParallelTy → Bool
  | ParallelTy.bidx => true
  | ParallelTy.bidy => true
  | ParallelTy.bidz => true
  | _ => false

/-- Modelled from the spec: TensorView::hasReduction, true when the
current domain carries a Reduction axis. -/
def tvHasReduction (n : ValNode) : Bool :=
  n.domain.any (fun d => decide (d.kind = IterKind.reduction))

/-- Modelled from the spec: TensorView::hasBlockReduction, true when a
Reduction axis is bound to a thread dimension. -/
def tvHasBlockReduction (n : ValNode) : Bool :=
  n.domain.any (fun d => decide (d.kind = IterKind.reduction) && isTID d.parallel)

/-- Modelled from the spec: TensorView::hasGridReduction, true when a
Reduction axis is bound to a block dimension. -/
def tvHasGridReduction (n : ValNode) : Bool :=
  n.domain.any (fun d => decide (d.kind = IterKind.reduction) && isBID d.parallel)

/-- Modelled from the spec: TensorDomain::hasBroadcast on an axis
list, true when some axis is a Broadcast axis. -/
def hasBroadcastDom (dom : List IterDomainData) : Bool :=
  dom.any (fun d => decide (d.kind = IterKind.broadcast))

/-- Modelled from the spec: TensorDomain::noReductions, the axis list
without its Reduction axes. -/
def noReductions (dom : List IterDomainData) : List IterDomainData :=
  dom.filter (fun d => decide (d.kind ≠ IterKind.reduction))

/- ----------------------------------------------------------------
   Fusion mutators (fusion.cpp).
   ---------------------------------------------------------------- -/

/-- Fusion::addInput (fusion.cpp lines 247..267).  Val::getOrigin
reads the origin map of the owning fusion.  Returns the new fusion
state and whether the reduction-axis warning fired; none models the
checked failure (Val not in the fusion, or Val already produced by an
expression). -/
def addInputM (h : Heap) (f : Fusion) (v : Nat) : Option (Fusion × Bool) :=
  if v ∈ f.valSet then
    let warn := decide ((h.hval v).vty = ValTy.tensorView) && tvHasReduction (h.hval v)
    if f.origin v = none then
      some ({ f with inputs := f.inputs ++ [v] }, warn)
    else none
  else none

/-- Fusion::addOutput (fusion.cpp lines 269..282): checked failure
when the Val is not in the fusion or is a TensorView whose root
domain has a broadcast axis; otherwise append to the output list. -/
def addOutputM (h : Heap) (f : Fusion) (v : Nat) : Option Fusion :=
  if v ∈ f.valSet then
    if decide ((h.hval v).vty = ValTy.tensorView) && hasBroadcastDom (h.hval v).rootDomain then
      none
    else some { f with outputs := f.outputs ++ [v] }
  else none

/-- Origin-map cleanup of Fusion::removeExpr (lines 200..203): erase
the origin entry of every output of the removed expression that still
points at it. -/
def eraseOriginFor (f : Fusion) (e : Nat) (outs : List Nat) : Fusion :=
  { f with origin := fun w =>
      if w ∈ outs ∧ f.origin w = some e then none else f.origin w }

/-- Uses-map cleanup of Fusion::removeExpr (lines 205..211): erase the
removed expression from the uses-set of each of its inputs. -/
def eraseUsesFor (f : Fusion) (e : Nat) (inps : List Nat) : Fusion :=
  { f with uses := fun w =>
      if w ∈ inps then (f.uses w).erase e else f.uses w }

/-- Fusion::removeExpr (fusion.cpp lines 194..216): checked failure
when the expression is not in the fusion; otherwise fix up the origin
and uses maps and erase the expression from the registry. -/
def removeExprM (h : Heap) (f : Fusion) (e : Nat) : Option Fusion :=
  if e ∈ f.exprSet then
    let f1 := eraseOriginFor f e (h.hexpr e).outputs
    let f2 := eraseUsesFor f1 e (h.hexpr e).inputs
    some { f2 with exprSet := f2.exprSet.erase e }
  else none

/-- Fusion::removeVal (fusion.cpp lines 218..245): checked failure
when the Val is not in the fusion or sameAs-matches a registered
input or output; otherwise remove its origin expression (if any),
then every remaining use, then erase it from the registry and the
deterministic sequence. -/
def removeValM (h : Heap) (f : Fusion) (v : Nat) : Option Fusion :=
  if v ∈ f.valSet then
    if f.inputs.any (fun inp => h.sameAs v inp) then none
    else if f.outputs.any (fun out => h.sameAs v out) then none
    else
      match (match f.origin v with
             | some e => removeExprM h f e
             | none => some f) with
      | none => none
      | some f1 =>
        match (f1.uses v).foldlM (fun acc e => removeExprM h acc e) f1 with
        | none => none
        | some f2 =>
          some { f2 with valSet := f2.valSet.erase v, valDeque := f2.valDeque.erase v }
  else none

/-- Uses-map update of Fusion::registerExpr (lines 402..409): record
the expression as a user of one input (set-semantics insert). -/
def addUse (f : Fusion) (e : Nat) (inp : Nat) : Fusion :=
  { f with uses := fun w =>
      if w = inp then (if e ∈ f.uses inp then f.uses inp else f.uses inp ++ [e])
      else f.uses w }

/-- Input loop of Fusion::registerExpr: assert each input is in the
fusion and add the expression to its uses-set. -/
def registerInputs (f : Fusion) (e : Nat) : List Nat → Option Fusion
  | [] => some f
  | inp :: rest =>
    if inp ∈ f.valSet then registerInputs (addUse f e inp) e rest else none

/-- Origin-map update of Fusion::registerExpr (line 418). -/
def setOrigin (f : Fusion) (out e : Nat) : Fusion :=
  { f with origin := fun w => if w = out then some e else f.origin w }

/-- Output loop of Fusion::registerExpr (lines 411..419): assert each
output is in the fusion, remove any prior origin expression of that
output, then install the new origin. -/
def registerOutputs (h : Heap) (f : Fusion) (e : Nat) : List Nat → Option Fusion
  | [] => some f
  | out :: rest =>
    if out ∈ f.valSet then
      match f.origin out with
      | some prior =>
        match removeExprM h f prior with
        | none => none
        | some f1 => registerOutputs h (setOrigin f1 out e) e rest
      | none => registerOutputs h (setOrigin f out e) e rest
    else none

/-- Fusion::registerExpr (fusion.cpp lines 392..423): early return
when the expression is already registered; otherwise link the uses
and origin maps (replacing prior origins) and add the expression to
the registry.  The name-counter side effect is not modelled. -/
def registerExprM (h : Heap) (f : Fusion) (e : Nat) : Option Fusion :=
  if e ∈ f.exprSet then some f
  else
    match registerInputs f e (h.hexpr e).inputs with
    | none => none
    | some f1 =>
      match registerOutputs h f1 e (h.hexpr e).outputs with
      | none => none
      | some f2 => some { f2 with exprSet := e :: f2.exprSet }

/- ----------------------------------------------------------------
   Queries used by the header printer (fusion.cpp lines 513..551)
   and IRPrinter::printHeader (ir_iostream.cpp lines 43..98).
   ---------------------------------------------------------------- -/

/-- The expression is a UnaryOp with operator RandLike. -/
def isRandLike (h : Heap) (e : Nat) : Bool :=
  match (h.hexpr e).ety with
  | ExprTy.unaryOp UnaryOpTy.randLike => true
  | _ => false

/-- Some output of the expression is a TensorView with a grid
reduction. -/
def outHasGridReduction (h : Heap) (e : Nat) : Bool :=
  (h.hexpr e).outputs.any (fun o =>
    decide ((h.hval o).vty = ValTy.tensorView) && tvHasGridReduction (h.hval o))

/-- Fusion::hasRNG (fusion.cpp lines 513..520): scan exprs(true) for
a RandLike unary op. -/
def hasRNGModel (h : Heap) (f : Fusion) (fuel : Nat) : Option Bool :=
  (exprsModel h f true false fuel).map (fun es => es.any (isRandLike h))

/-- Fusion::hasGridReduction (fusion.cpp lines 543..551): scan
exprs(true) for a TensorView output with a grid reduction. -/
def hasGridReductionModel (h : Heap) (f : Fusion) (fuel : Nat) : Option Bool :=
  (exprsModel h f true false fuel).map (fun es => es.any (outHasGridReduction h))

/-- One parameter of the printed kernel header. -/
inductive KernelParam
  | tensor (dt : DataTy) (rank : Nat) (nm : Nat)
  | scalar (dt : DataTy) (nm : Nat)
  | rngSeed
  | rngOffset
  | workBuf
  | syncFlags
deriving DecidableEq

/-- Parameter declaration emitted for one Val by IRPrinter::printHeader
(ir_iostream.cpp lines 55..75): a Tensor parameter (data type, rank of
the root domain without reductions, name) for a TensorView, a typed
scalar parameter for a Scalar, a checked failure otherwise. -/
def declOf (h : Heap) (v : Nat) : Option KernelParam :=
  match (h.hval v).vty with
  | ValTy.tensorView =>
    some (KernelParam.tensor (h.hval v).dtype
      (noReductions (h.hval v).rootDomain).length (h.hval v).vname)
  | ValTy.scalar => some (KernelParam.scalar (h.hval v).dtype (h.hval v).vname)
  | _ => none

/-- Parameter list of IRPrinter::printHeader (ir_iostream.cpp lines
43..84): declarations for the registered inputs followed by the
registered outputs, then seed and offset when the fusion has RNG,
then the workspace and synchronization-flag pointers when it has a
grid reduction. -/
def declsOf (h : Heap) : List Nat → Option (List KernelParam)
  | [] => some []
  | v :: rest =>
    match declOf h v, declsOf h rest with
    | some d, some ds => some (d :: ds)
    | _, _ => none

def printHeaderParams (h : Heap) (f : Fusion) (fuel : Nat) :
    Option (List KernelParam) :=
  match declsOf h (f.inputs ++ f.outputs) with
  | none => none
  | some ds =>
    match hasRNGModel h f fuel, hasGridReductionModel h f fuel with
    | some rng, some grid =>
      some (ds ++ (if rng then [KernelParam.rngSeed, KernelParam.rngOffset] else [])
               ++ (if grid then [KernelParam.workBuf, KernelParam.syncFlags] else []))
    | _, _ => none

/- ----------------------------------------------------------------
   Fusion copy construction (fusion.cpp lines 99..141).  The IrCloner
   allocates one fresh node per original node and rewrites every
   internal reference through the old-to-new table.  Freshness of
   heap allocation is modelled by an identifier translation
   k to k + m, applied under the assumption that every identifier of
   the source fusion is below m.
   ---------------------------------------------------------------- -/

/-- Identifier translation of one axis record under cloning. -/
def shiftIterDomain (m : Nat) (d : IterDomainData) : IterDomainData :=
  { d with start := d.start + m, extent := d.extent + m }

/-- Identifier translation of one transform record under cloning. -/
def shiftTransform (m : Nat) : TransformRec → TransformRec
  | TransformRec.split inAxis factor outer inner =>
    TransformRec.split (shiftIterDomain m inAxis) (factor + m)
      (shiftIterDomain m outer) (shiftIterDomain m inner)
  | TransformRec.merge outer inner outAxis =>
    TransformRec.merge (shiftIterDomain m outer) (shiftIterDomain m inner)
      (shiftIterDomain m outAxis)

/-- Identifier translation of a Val payload under cloning: internal
references (domain starts and extents, transform records, compute-at
view) move to the clone-local nodes; names, types and constant values
are preserved, as IrCloner copies them. -/
def shiftVal (m : Nat) (n : ValNode) : ValNode :=
  { n with
    rootDomain := n.rootDomain.map (shiftIterDomain m)
    domain := n.domain.map (shiftIterDomain m)
    transforms := n.transforms.map (shiftTransform m)
    computeAtView := n.computeAtView.map (fun w => w + m) }

/-- Identifier translation of an Expr payload under cloning. -/
def shiftExpr (m : Nat) (n : ExprNode) : ExprNode :=
  { n with
    inputs := n.inputs.map (fun w => w + m)
    outputs := n.outputs.map (fun w => w + m)
    einit := n.einit.map (fun w => w + m) }

/-- Heap after cloning: identifiers at or above m hold the translated
payload of their original. -/
def copyHeap (m : Nat) (h : Heap) : Heap :=
  { hval := fun k => if k < m then h.hval k else shiftVal m (h.hval (k - m))
    hexpr := fun k => if k < m then h.hexpr k else shiftExpr m (h.hexpr (k - m))
    sameAs := h.sameAs }

/-- Fusion::Fusion(const Fusion&): every registry list, the origin and
uses maps and the input/output lists are rebuilt through the cloning
translation. -/
def copyFusion (m : Nat) (f : Fusion) : Fusion :=
  { valSet := f.valSet.map (fun w => w + m)
    valDeque := f.valDeque.map (fun w => w + m)
    exprSet := f.exprSet.map (fun w => w + m)
    origin := fun w => if m ≤ w then (f.origin (w - m)).map (fun e => e + m) else none
    uses := fun w => if m ≤ w then (f.uses (w - m)).map (fun e => e + m) else []
    inputs := f.inputs.map (fun w => w + m)
    outputs := f.outputs.map (fun w => w + m) }

/- ----------------------------------------------------------------
   Name-level rendering of the math/transform printer.  Every byte
   the printer emits is a fixed function of the fields the handlers
   read (ir_iostream.cpp); the render trees below carry exactly those
   fields, so equal render trees mean byte-identical printer output.
   ---------------------------------------------------------------- -/

/-- Option-valued map over a list, failing when any element fails
(the shape of each loop of the printer that can hit a checked
failure). -/
def optList {a b : Type} (g : a → Option b) : List a → Option (List b)
  | [] => some []
  | x :: rest =>
    match g x, optList g rest with
    | some y, some ys => some (y :: ys)
    | _, _ => none

/-- Render tree of one scalar printed inline (print_inline set): the
Bool/Float/Half/Int handlers (ir_iostream.cpp lines 181..251) expand
the origin expression in parentheses when there is one, print the
type-prefixed name when the scalar is symbolic, and the type-wrapped
constant value otherwise; NamedScalar prints its name. -/
inductive SRender
  | named (nm : Nat)
  | sym (dt : DataTy) (nm : Nat)
  | cnst (dt : DataTy) (value : Int)
  | inlineExpr (ety : ExprTy) (args : List SRender)

/-- Modelled from the spec: Val::isScalar (its definition is not under
src/), true for the Scalar and NamedScalar value kinds. -/
def isScalarVal (h : Heap) (v : Nat) : Bool :=
  decide ((h.hval v).vty = ValTy.scalar) || decide ((h.hval v).vty = ValTy.namedScalar)

/-- Modelled from the spec: Val::isZeroInt (its definition is not
under src/), true for an Int scalar whose constant value is zero. -/
def isZeroInt (h : Heap) (v : Nat) : Bool :=
  decide ((h.hval v).vty = ValTy.scalar) && decide ((h.hval v).dtype = DataTy.int) &&
    decide ((h.hval v).value = some 0)

/-- Inline render of one scalar Val (print_inline, ir_iostream.cpp
lines 181..251): a scalar with an origin prints the origin expression
in parentheses — checkInlineable (lines 12..24) demands the origin's
inputs and single output be scalars, a checked failure otherwise —
recursively rendering the origin's inputs inline; a scalar without an
origin prints its symbolic name or its constant value; a NamedScalar
prints its name.  A tensor in an inline scalar position is outside
the modelled pre-lowering dump and renders as a failure; the fuel
bounds the origin recursion. -/
def renderInline (h : Heap) (f : Fusion) : Nat → Nat → Option SRender
  | 0, _ => none
  | Nat.succ fuel, v =>
    match (h.hval v).vty with
    | ValTy.namedScalar => some (SRender.named (h.hval v).vname)
    | ValTy.scalar =>
      match f.origin v with
      | some e =>
        if ((h.hexpr e).inputs.all (fun w => isScalarVal h w)) &&
            decide ((h.hexpr e).outputs.length = 1) &&
            ((h.hexpr e).outputs.all (fun w => isScalarVal h w)) then
          match optList (renderInline h f fuel) (h.hexpr e).inputs with
          | some args => some (SRender.inlineExpr (h.hexpr e).ety args)
          | none => none
        else none
      | none =>
        match (h.hval v).value with
        | some c => some (SRender.cnst (h.hval v).dtype c)
        | none => some (SRender.sym (h.hval v).dtype (h.hval v).vname)
    | _ => none

/-- Printed content of one IterDomain axis (ir_iostream.cpp lines
131..161): kind tag, parallel tag, the inline-rendered start when it
is not the zero Int (the clause is omitted then), the inline-rendered
extent, and the rf marker. -/
structure AxisRender where
  kind : IterKind
  parallel : ParallelTy
  startR : Option SRender
  extentR : SRender
  rfactor : Bool

/-- Render one axis as handle(IterDomain) prints it. -/
def renderAxis (h : Heap) (f : Fusion) (fuel : Nat) (d : IterDomainData) :
    Option AxisRender :=
  match (if isZeroInt h d.start then some none
         else match renderInline h f fuel d.start with
           | some s => some (some s)
           | none => none),
        renderInline h f fuel d.extent with
  | some st, some ex =>
    some { kind := d.kind, parallel := d.parallel, startR := st, extentR := ex,
           rfactor := d.rfactor }
  | _, _ => none

/-- Printed content of one operand Val outside an inline context
(print_inline unset): a TensorView prints its name, its domain axes
and its compute-at clause (target name and relative axis,
ir_iostream.cpp lines 107..129); a scalar prints its type-prefixed
symbolic name or its type-wrapped constant value with no origin
expansion (lines 181..251, print_inline branch not taken); a
NamedScalar prints its name. -/
inductive ValRender
  | tv (nm : Nat) (dt : DataTy) (dom : List AxisRender) (ca : Option (Nat × Nat))
  | sym (dt : DataTy) (nm : Nat)
  | cnst (dt : DataTy) (value : Int)
  | named (nm : Nat)

/-- Render one operand Val as the non-inline handlers print it; a
TensorIndex exists only after lowering and is outside the modelled
pre-lowering dump. -/
def renderVal (h : Heap) (f : Fusion) (fuel : Nat) (v : Nat) : Option ValRender :=
  match (h.hval v).vty with
  | ValTy.tensorView =>
    match optList (renderAxis h f fuel) (h.hval v).domain with
    | some dom =>
      some (ValRender.tv (h.hval v).vname (h.hval v).dtype dom
        ((h.hval v).computeAtView.map
          (fun w => ((h.hval w).vname, (h.hval v).relComputeAtAxis))))
    | none => none
  | ValTy.scalar =>
    match (h.hval v).value with
    | some c => some (ValRender.cnst (h.hval v).dtype c)
    | none => some (ValRender.sym (h.hval v).dtype (h.hval v).vname)
  | ValTy.namedScalar => some (ValRender.named (h.hval v).vname)
  | ValTy.tensorIndex => none

/-- Printed content of one expression: the operator tag (which fixes
the operator text and layout, ir_iostream.cpp lines 265..394), the
rendered outputs and inputs, and for a ReductionOp the rendered
initial value (line 397). -/
structure ExprRender where
  ety : ExprTy
  outs : List ValRender
  ins : List ValRender
  rinit : Option ValRender

/-- Render one expression as the pre-lowering handlers print it. -/
def renderExpr (h : Heap) (f : Fusion) (fuel : Nat) (e : Nat) : Option ExprRender :=
  match optList (renderVal h f fuel) (h.hexpr e).outputs,
        optList (renderVal h f fuel) (h.hexpr e).inputs with
  | some outs, some ins =>
    match (h.hexpr e).ety with
    | ExprTy.reductionOp _ =>
      match (h.hexpr e).einit with
      | some iv =>
        match renderVal h f fuel iv with
        | some ir => some { ety := (h.hexpr e).ety, outs := outs, ins := ins,
                            rinit := some ir }
        | none => none
      | none => none
    | _ => some { ety := (h.hexpr e).ety, outs := outs, ins := ins, rinit := none }
  | _, _ => none

/-- Rendering of Fusion::printMath (fusion.cpp lines 366..370): the
expressions of exprs(true), in order, each rendered at name level. -/
def renderMath (h : Heap) (f : Fusion) (fuel : Nat) : Option (List ExprRender) :=
  match exprsModel h f true false fuel with
  | none => none
  | some es => optList (renderExpr h f fuel) es

/-- Printed content of one Split or Merge record, exactly the
operands the Split and Merge handlers print (ir_iostream.cpp lines
569..587): Split prints the input axis, the factor scalar (via the
non-inline Val printer) and the outer and inner axes; Merge prints
the outer and inner axes and the output axis. -/
inductive TransRender
  | split (inAxis : AxisRender) (factor : ValRender) (outer inner : AxisRender)
  | merge (outer inner : AxisRender) (outAxis : AxisRender)

/-- Render one transform record per the Split/Merge handlers. -/
def renderTransform (h : Heap) (f : Fusion) (fuel : Nat) :
    TransformRec → Option TransRender
  | TransformRec.split inAxis factor outer inner =>
    match renderAxis h f fuel inAxis, renderVal h f fuel factor,
          renderAxis h f fuel outer, renderAxis h f fuel inner with
    | some ia, some fr, some oa, some na => some (TransRender.split ia fr oa na)
    | _, _, _, _ => none
  | TransformRec.merge outer inner outAxis =>
    match renderAxis h f fuel outer, renderAxis h f fuel inner,
          renderAxis h f fuel outAxis with
    | some oa, some na, some ta => some (TransRender.merge oa na ta)
    | _, _, _ => none

/-- Rendering of Fusion::printTransforms (fusion.cpp lines 372..376).
Modelled from the spec: the IRTransformPrinter driver lives in
ir_iostream.h, which is not under src/; the spec describes
printTransforms as the dump of the Split/Merge transform records, so
the driver is modelled as visiting the registered TensorViews in
their deterministic registration order and dumping each one's
records; each record itself is rendered exactly as the in-src Split
and Merge handlers print it. -/
def renderTransforms (h : Heap) (f : Fusion) (fuel : Nat) :
    Option (List TransRender) :=
  optList (renderTransform h f fuel)
    ((f.valDeque.filter (fun v => decide ((h.hval v).vty = ValTy.tensorView))).flatMap
      (fun v => (h.hval v).transforms))

/-- Closure property of a handle order: each handled statement has a
successful next-list all of whose members were handled earlier. -/
def NextOk (nx : StmtRef → Option (List StmtRef)) (l : List StmtRef) : Prop :=
  ∀ (i : Nat) (hi : i < l.length),
    ∃ ns, nx (l.get ⟨i, hi⟩) = some ns ∧ ∀ t ∈ ns, t ∈ l.take i

/-- Reachability along successful next-lists from a start set. -/
inductive Reach (nx : StmtRef → Option (List StmtRef)) (srcs : List StmtRef) : StmtRef → Prop
  | base {s : StmtRef} : s ∈ srcs → Reach nx srcs s
  | step {s : StmtRef} {ns : List StmtRef} {t : StmtRef} :
      Reach nx srcs s → nx s = some ns → t ∈ ns → Reach nx srcs t

/-- Raw backward edge list of a statement: the origin of an in-fusion
Val, the inputs of an in-fusion Expr.  This is the next-relation
stripped of the compute-at reordering. -/
def stmtEdges (h : Heap) (f : Fusion) : StmtRef → List StmtRef
  | StmtRef.val v =>
    if v ∈ f.valSet then
      match f.origin v with
      | some e => [StmtRef.expr e]
      | none => []
    else []
  | StmtRef.expr e =>
    if e ∈ f.exprSet then ((h.hexpr e).inputs).map StmtRef.val else []

/-- All statement references registered in the fusion. -/
def allStmtRefs (f : Fusion) : List StmtRef :=
  f.valSet.map StmtRef.val ++ f.exprSet.map StmtRef.expr

/-- Backward reachability through the origin relation, as the spec
describes it: start at a source Val, move from a Val to its origin
expression and from an expression to each of its inputs. -/
inductive BackReach (h : Heap) (f : Fusion) (srcs : List Nat) : StmtRef → Prop
  | src {v : Nat} : v ∈ srcs → BackReach h f srcs (StmtRef.val v)
  | orig {v e : Nat} : BackReach h f srcs (StmtRef.val v) → f.origin v = some e →
      BackReach h f srcs (StmtRef.expr e)
  | inp {e v : Nat} : BackReach h f srcs (StmtRef.expr e) → v ∈ (h.hexpr e).inputs →
      BackReach h f srcs (StmtRef.val v)

/-- Well-formedness of a fusion state: the invariants that
Fusion::registerVal / registerExpr / removeExpr / removeVal maintain
for the registries and the origin and uses maps. -/
structure WF (h : Heap) (f : Fusion) : Prop where
  outputs_mem : ∀ v ∈ f.outputs, v ∈ f.valSet
  origin_mem : ∀ v ∈ f.valSet, ∀ e ∈ f.origin v, e ∈ f.exprSet
  origin_consistent : ∀ e ∈ f.exprSet, ∀ v ∈ (h.hexpr e).outputs, f.origin v = some e
  origin_outputs : ∀ v ∈ f.valSet, ∀ e ∈ f.origin v, v ∈ (h.hexpr e).outputs
  expr_inputs_mem : ∀ e ∈ f.exprSet, ∀ v ∈ (h.hexpr e).inputs, v ∈ f.valSet
  expr_outputs_mem : ∀ e ∈ f.exprSet, ∀ v ∈ (h.hexpr e).outputs, v ∈ f.valSet
  uses_mem : ∀ v ∈ f.valSet, ∀ e ∈ f.uses v, e ∈ f.exprSet
  uses_inputs : ∀ v ∈ f.valSet, ∀ e ∈ f.uses v, v ∈ (h.hexpr e).inputs
  uses_nodup : ∀ v ∈ f.valSet, (f.uses v).Nodup
  valSet_nodup : f.valSet.Nodup
  valDeque_nodup : f.valDeque.Nodup
  exprSet_nodup : f.exprSet.Nodup

/-- Registered-statement predicate. -/
def stmtIn (f : Fusion) : StmtRef → Prop
  | StmtRef.val v => v ∈ f.valSet
  | StmtRef.expr e => e ∈ f.exprSet

/-- Acyclicity certificate: a rank strictly decreasing along each
registered statement's raw backward edges. -/
def RankOk (h : Heap) (f : Fusion) (rank : StmtRef → Nat) : Prop :=
  ∀ s ∈ allStmtRefs f, ∀ t ∈ stmtEdges h f s, rank t < rank s

instance : IsAntisymm (Nat × StmtRef) (fun x y => x.1 < y.1) :=
  ⟨fun a b h1 h2 => absurd (h1.trans h2) (lt_irrefl _)⟩

/-- Claim C7 (counterexample fusion).  Two scalar Vals 0 and 1 that
are structurally equal under sameAs; Val 0 is a registered input, Val
1 is not registered as an input or output and has no origin and no
uses. -/
def exH7 : Heap :=
  { hval := fun _ =>
      { vty := ValTy.scalar, vname := 0, dtype := DataTy.int, value := none,
        rootDomain := [], domain := [], transforms := [],
        computeAtView := none, relComputeAtAxis := 0 }
    hexpr := fun _ =>
      { ety := ExprTy.binaryOp BinaryOpTy.add, ename := 0, inputs := [],
        outputs := [], einit := none }
    sameAs := fun a b =>
      a == b || (a == 0 && b == 1) || (a == 1 && b == 0) }

def exF7 : Fusion :=
  { valSet := [0, 1]
    valDeque := [0, 1]
    exprSet := []
    origin := fun _ => none
    uses := fun _ => []
    inputs := [0]
    outputs := [] }

/-- Rename every statement in a traversal state. -/
def mapState (g : StmtRef → StmtRef) (st : TravState) : TravState :=
  { visited := st.visited.map g, order := st.order.map g }

/-- Statement renaming induced by the cloning translation. -/
def shiftStmt (m : Nat) : StmtRef → StmtRef
  | StmtRef.val v => StmtRef.val (v + m)
  | StmtRef.expr e => StmtRef.expr (e + m)

/-- Concrete example heap: a two-expression chain.  Scalar Vals 0, 1,
2; Expr 0 negates Val 0 into Val 1 and Expr 1 negates Val 1 into Val
2; every other expression id maps Val 0 directly to Val 2. -/
def exH : Heap :=
  { hval := fun v =>
      { vty := ValTy.scalar, vname := v, dtype := DataTy.float, value := none,
        rootDomain := [], domain := [], transforms := [],
        computeAtView := none, relComputeAtAxis := 0 }
    hexpr := fun e =>
      match e with
      | 0 =>
        { ety := ExprTy.unaryOp UnaryOpTy.neg, ename := 0, inputs := [0],
          outputs := [1], einit := none }
      | 1 =>
        { ety := ExprTy.unaryOp UnaryOpTy.neg, ename := 1, inputs := [1],
          outputs := [2], einit := none }
      | _ =>
        { ety := ExprTy.binaryOp BinaryOpTy.add, ename := 2, inputs := [0],
          outputs := [2], einit := none }
    sameAs := fun a b => a == b }

/-- Concrete example fusion over exH: Vals 0, 1, 2 and Exprs 0, 1
registered; Val 0 is the input and Val 2 the output. -/
def exF : Fusion :=
  { valSet := [0, 1, 2]
    valDeque := [0, 1, 2]
    exprSet := [0, 1]
    origin := fun v => if v = 1 then some 0 else if v = 2 then some 1 else none
    uses := fun v => if v = 0 then [0] else if v = 1 then [1] else []
    inputs := [0]
    outputs := [2] }

/-- Topological rank certificate for exH / exF. -/
def exRank : StmtRef → Nat
  | StmtRef.val 0 => 0
  | StmtRef.expr 0 => 1
  | StmtRef.val 1 => 2
  | StmtRef.expr 1 => 3
  | StmtRef.val 2 => 4
  | _ => 0

/-- Example heap for the input registration claims: Val 0 is a
TensorView with an iteration root axis and a reduction domain axis,
Val 1 is the extent scalar. -/
def exH5 : Heap :=
  { hval := fun v =>
      if v = 0 then
        { vty := ValTy.tensorView, vname := 0, dtype := DataTy.float, value := none,
          rootDomain := [⟨IterKind.iteration, ParallelTy.serial, 1, 1, false⟩],
          domain := [⟨IterKind.reduction, ParallelTy.serial, 1, 1, false⟩],
          transforms := [], computeAtView := none, relComputeAtAxis := 0 }
      else
        { vty := ValTy.scalar, vname := v, dtype := DataTy.int, value := some 0,
          rootDomain := [], domain := [], transforms := [],
          computeAtView := none, relComputeAtAxis := 0 }
    hexpr := fun _ =>
      { ety := ExprTy.binaryOp BinaryOpTy.add, ename := 0, inputs := [],
        outputs := [], einit := none }
    sameAs := fun a b => a == b }

/-- Example fusion over exH5: both Vals registered, no expressions,
no inputs or outputs yet. -/
def exF5 : Fusion :=
  { valSet := [0, 1]
    valDeque := [0, 1]
    exprSet := []
    origin := fun _ => none
    uses := fun _ => []
    inputs := []
    outputs := [] }

/-- Example heap for the compute-at ordering claim: TensorView inputs
0 (compute-at Val 3, axis 2) and 1 (compute-at Val 3, axis 1), scalar
input 2, and TensorView output 3; the single expression combines
inputs 0, 1, 2 into output 3. -/
def exH8 : Heap :=
  { hval := fun v =>
      match v with
      | 0 =>
        { vty := ValTy.tensorView, vname := 0, dtype := DataTy.float, value := none,
          rootDomain := [], domain := [], transforms := [],
          computeAtView := some 3, relComputeAtAxis := 2 }
      | 1 =>
        { vty := ValTy.tensorView, vname := 1, dtype := DataTy.float, value := none,
          rootDomain := [], domain := [], transforms := [],
          computeAtView := some 3, relComputeAtAxis := 1 }
      | 2 =>
        { vty := ValTy.scalar, vname := 2, dtype := DataTy.float, value := none,
          rootDomain := [], domain := [], transforms := [],
          computeAtView := none, relComputeAtAxis := 0 }
      | _ =>
        { vty := ValTy.tensorView, vname := 3, dtype := DataTy.float, value := none,
          rootDomain := [], domain := [], transforms := [],
          computeAtView := none, relComputeAtAxis := 0 }
    hexpr := fun _ =>
      { ety := ExprTy.ternaryOp TernaryOpTy.clamp, ename := 0, inputs := [0, 1, 2],
        outputs := [3], einit := none }
    sameAs := fun a b => a == b }

/-- Example fusion over exH8. -/
def exF8 : Fusion :=
  { valSet := [0, 1, 2, 3]
    valDeque := [0, 1, 2, 3]
    exprSet := [0]
    origin := fun v => if v = 3 then some 0 else none
    uses := fun v => if v ≤ 2 then [0] else []
    inputs := [0, 1, 2]
    outputs := [3] }

theorem stableSortByKey_perm (key : StmtRef → Int) (l : List StmtRef) :
    (stableSortByKey key l).Perm l := by
  have h1 := (List.perm_insertionSort (keyLE key) l.enum).map Prod.snd
  rw [List.enum_map_snd l] at h1
  unfold stableSortByKey
  exact h1

theorem mem_stableSortByKey (key : StmtRef → Int) (l : List StmtRef) (s : StmtRef) :
    s ∈ stableSortByKey key l ↔ s ∈ l :=
  (stableSortByKey_perm key l).mem_iff

/- ----------------------------------------------------------------
   Generic facts about the traversal machine.
   ---------------------------------------------------------------- -/

theorem visit_nil (nx : StmtRef → Option (List StmtRef)) (fuel : Nat) (st : TravState) :
    visit nx fuel [] st = some st := by
  cases fuel <;> rfl

theorem visit_cons (nx : StmtRef → Option (List StmtRef)) (fuel : Nat)
    (s : StmtRef) (rest : List StmtRef) (st : TravState) :
    visit nx (fuel + 1) (s :: rest) st =
      match nx s with
      | none => none
      | some ns =>
        match visit nx fuel (ns.filter (fun t => decide (t ∉ st.visited))) st with
        | none => none
        | some st1 =>
          visit nx fuel rest { visited := s :: st1.visited, order := st1.order ++ [s] } := rfl

/-- The handle order only grows, and the visited set only grows. -/
theorem visit_mono (nx : StmtRef → Option (List StmtRef)) :
    ∀ (fuel : Nat) (ss : List StmtRef) (st st' : TravState),
      visit nx fuel ss st = some st' →
      (∃ tl, st'.order = st.order ++ tl) ∧ (∀ t ∈ st.visited, t ∈ st'.visited) := by
  intro fuel
  induction fuel with
  | zero =>
    intro ss st st' hv
    cases ss with
    | nil =>
      rw [visit_nil] at hv
      cases hv
      exact ⟨⟨[], by simp⟩, fun t ht => ht⟩
    | cons s rest => exact absurd hv (by simp [visit])
  | succ fuel ih =>
    intro ss st st' hv
    cases ss with
    | nil =>
      rw [visit_nil] at hv
      cases hv
      exact ⟨⟨[], by simp⟩, fun t ht => ht⟩
    | cons s rest =>
      rw [visit_cons] at hv
      cases hnx : nx s with
      | none => simp only [hnx] at hv; exact Option.noConfusion hv
      | some ns =>
        simp only [hnx] at hv
        cases hv1 : visit nx fuel (ns.filter (fun t => decide (t ∉ st.visited))) st with
        | none => simp only [hv1] at hv; exact Option.noConfusion hv
        | some st1 =>
          simp only [hv1] at hv
          obtain ⟨⟨tl1, htl1⟩, hvis1⟩ := ih _ _ _ hv1
          obtain ⟨⟨tl2, htl2⟩, hvis2⟩ := ih _ _ _ hv
          refine ⟨⟨tl1 ++ [s] ++ tl2, ?_⟩, ?_⟩
          · simp only [htl2]
            simp [htl1]
          · intro t ht
            exact hvis2 t (List.mem_cons_of_mem _ (hvis1 t ht))

/-- Every statement of the work list ends up in the handle order. -/
theorem visit_handles (nx : StmtRef → Option (List StmtRef)) :
    ∀ (fuel : Nat) (ss : List StmtRef) (st st' : TravState),
      visit nx fuel ss st = some st' → ∀ s ∈ ss, s ∈ st'.order := by
  intro fuel
  induction fuel with
  | zero =>
    intro ss st st' hv s hs
    cases ss with
    | nil => cases hs
    | cons a rest => exact absurd hv (by simp [visit])
  | succ fuel ih =>
    intro ss st st' hv s hs
    cases ss with
    | nil => cases hs
    | cons a rest =>
      rw [visit_cons] at hv
      cases hnx : nx a with
      | none => simp only [hnx] at hv; exact Option.noConfusion hv
      | some ns =>
        simp only [hnx] at hv
        cases hv1 : visit nx fuel (ns.filter (fun t => decide (t ∉ st.visited))) st with
        | none => simp only [hv1] at hv; exact Option.noConfusion hv
        | some st1 =>
          simp only [hv1] at hv
          rcases List.mem_cons.mp hs with hs | hs
          · subst hs
            obtain ⟨⟨tl2, htl2⟩, _⟩ := visit_mono nx _ _ _ _ hv
            rw [htl2]
            simp
          · exact ih _ _ _ hv s hs

/-- The visited set and the set of handled statements stay equal. -/
theorem visit_inv (nx : StmtRef → Option (List StmtRef)) :
    ∀ (fuel : Nat) (ss : List StmtRef) (st st' : TravState),
      visit nx fuel ss st = some st' →
      (∀ t, t ∈ st.visited ↔ t ∈ st.order) →
      (∀ t, t ∈ st'.visited ↔ t ∈ st'.order) := by
  intro fuel
  induction fuel with
  | zero =>
    intro ss st st' hv hinv
    cases ss with
    | nil => rw [visit_nil] at hv; cases hv; exact hinv
    | cons a rest => exact absurd hv (by simp [visit])
  | succ fuel ih =>
    intro ss st st' hv hinv
    cases ss with
    | nil => rw [visit_nil] at hv; cases hv; exact hinv
    | cons a rest =>
      rw [visit_cons] at hv
      cases hnx : nx a with
      | none => simp only [hnx] at hv; exact Option.noConfusion hv
      | some ns =>
        simp only [hnx] at hv
        cases hv1 : visit nx fuel (ns.filter (fun t => decide (t ∉ st.visited))) st with
        | none => simp only [hv1] at hv; exact Option.noConfusion hv
        | some st1 =>
          simp only [hv1] at hv
          have hinv1 := ih _ _ _ hv1 hinv
          refine ih _ _ _ hv ?_
          intro t
          constructor
          · intro ht
            rcases List.mem_cons.mp ht with ht | ht
            · simp [ht]
            · simp only [List.mem_append]
              exact Or.inl ((hinv1 t).mp ht)
          · intro ht
            rcases List.mem_append.mp ht with ht | ht
            · exact List.mem_cons_of_mem _ ((hinv1 t).mpr ht)
            · simp only [List.mem_singleton] at ht
              simp [ht]

/-- The handle order of a successful run is next-closed. -/
theorem visit_nextOk (nx : StmtRef → Option (List StmtRef)) :
    ∀ (fuel : Nat) (ss : List StmtRef) (st st' : TravState),
      visit nx fuel ss st = some st' →
      (∀ t, t ∈ st.visited ↔ t ∈ st.order) →
      NextOk nx st.order →
      NextOk nx st'.order := by
  intro fuel
  induction fuel with
  | zero =>
    intro ss st st' hv hinv hok
    cases ss with
    | nil => rw [visit_nil] at hv; cases hv; exact hok
    | cons a rest => exact absurd hv (by simp [visit])
  | succ fuel ih =>
    intro ss st st' hv hinv hok
    cases ss with
    | nil => rw [visit_nil] at hv; cases hv; exact hok
    | cons a rest =>
      rw [visit_cons] at hv
      cases hnx : nx a with
      | none => simp only [hnx] at hv; exact Option.noConfusion hv
      | some ns =>
        simp only [hnx] at hv
        cases hv1 : visit nx fuel (ns.filter (fun t => decide (t ∉ st.visited))) st with
        | none => simp only [hv1] at hv; exact Option.noConfusion hv
        | some st1 =>
          simp only [hv1] at hv
          have hinv1 := visit_inv nx _ _ _ _ hv1 hinv
          have hok1 := ih _ _ _ hv1 hinv hok
          refine ih _ _ _ hv ?_ ?_
          · intro t
            constructor
            · intro ht
              rcases List.mem_cons.mp ht with ht | ht
              · simp [ht]
              · simp only [List.mem_append]
                exact Or.inl ((hinv1 t).mp ht)
            · intro ht
              rcases List.mem_append.mp ht with ht | ht
              · exact List.mem_cons_of_mem _ ((hinv1 t).mpr ht)
              · simp only [List.mem_singleton] at ht
                simp [ht]
          · intro i hi
            simp only [List.length_append, List.length_singleton] at hi
            rcases Nat.lt_or_ge i st1.order.length with hlt | hge
            · obtain ⟨ms, hms, hmem⟩ := hok1 i hlt
              refine ⟨ms, ?_, ?_⟩
              · have : (st1.order ++ [a]).get ⟨i, by simp; omega⟩ = st1.order.get ⟨i, hlt⟩ := by
                  simp [List.get_eq_getElem, List.getElem_append_left hlt]
                rw [this]
                exact hms
              · intro t ht
                have h2 := hmem t ht
                rw [List.take_append_of_le_length (Nat.le_of_lt hlt)]
                exact h2
            · have hieq : i = st1.order.length := by omega
              subst hieq
              refine ⟨ns, ?_, ?_⟩
              · have : (st1.order ++ [a]).get ⟨st1.order.length, by simp⟩ = a := by
                  simp [List.get_eq_getElem]
                rw [this]
                exact hnx
              · intro t ht
                rw [List.take_append_of_le_length (Nat.le_refl _), List.take_length]
                by_cases hvis : t ∈ st.visited
                · have h1 : t ∈ st.order := (hinv t).mp hvis
                  obtain ⟨⟨tl1, htl1⟩, _⟩ := visit_mono nx _ _ _ _ hv1
                  rw [htl1]
                  exact List.mem_append_left _ h1
                · have h2 : t ∈ ns.filter (fun t => decide (t ∉ st.visited)) := by
                    simp [List.mem_filter, ht, hvis]
                  exact visit_handles nx _ _ _ _ hv1 t h2

/-- Soundness: every handled statement is reachable from the start
set. -/
theorem visit_sound (nx : StmtRef → Option (List StmtRef)) (srcs : List StmtRef) :
    ∀ (fuel : Nat) (ss : List StmtRef) (st st' : TravState),
      visit nx fuel ss st = some st' →
      (∀ s ∈ ss, Reach nx srcs s) →
      (∀ s ∈ st.order, Reach nx srcs s) →
      (∀ s ∈ st'.order, Reach nx srcs s) := by
  intro fuel
  induction fuel with
  | zero =>
    intro ss st st' hv hss hord
    cases ss with
    | nil => rw [visit_nil] at hv; cases hv; exact hord
    | cons a rest => exact absurd hv (by simp [visit])
  | succ fuel ih =>
    intro ss st st' hv hss hord
    cases ss with
    | nil => rw [visit_nil] at hv; cases hv; exact hord
    | cons a rest =>
      rw [visit_cons] at hv
      cases hnx : nx a with
      | none => simp only [hnx] at hv; exact Option.noConfusion hv
      | some ns =>
        simp only [hnx] at hv
        cases hv1 : visit nx fuel (ns.filter (fun t => decide (t ∉ st.visited))) st with
        | none => simp only [hv1] at hv; exact Option.noConfusion hv
        | some st1 =>
          simp only [hv1] at hv
          have hreach_a : Reach nx srcs a := hss a (List.mem_cons_self a rest)
          have hord1 : ∀ s ∈ st1.order, Reach nx srcs s := by
            refine ih _ _ _ hv1 ?_ hord
            intro t ht
            have := List.mem_filter.mp ht
            exact Reach.step hreach_a hnx this.1
          refine ih _ _ _ hv (fun s hs => hss s (List.mem_cons_of_mem _ hs)) ?_
          intro s hs
          rcases List.mem_append.mp hs with hs | hs
          · exact hord1 s hs
          · simp only [List.mem_singleton] at hs
            exact hs ▸ hreach_a

/-- Completeness: a next-closed handle order containing the start set
contains everything reachable from it. -/
theorem reach_mem_of_nextOk (nx : StmtRef → Option (List StmtRef))
    (srcs : List StmtRef) (l : List StmtRef)
    (hsub : ∀ s ∈ srcs, s ∈ l) (hok : NextOk nx l) :
    ∀ t, Reach nx srcs t → t ∈ l := by
  intro t hr
  induction hr with
  | base hs => exact hsub _ hs
  | step hr hnx hmem ih =>
    obtain ⟨n, hn⟩ := List.get_of_mem ih
    obtain ⟨ms, hms, hmem2⟩ := hok n.1 n.2
    simp only [Fin.eta] at hms
    rw [hn, hnx] at hms
    cases hms
    exact List.mem_of_mem_take (hmem2 _ hmem)

/-- Package of the three traversal facts for traverseFromModel. -/
theorem traverseFrom_spec (nx : StmtRef → Option (List StmtRef))
    (srcs : List StmtRef) (fuel : Nat) (ord : List StmtRef)
    (hv : traverseFromModel nx srcs fuel = some ord) :
    (∀ s ∈ srcs, s ∈ ord) ∧ NextOk nx ord ∧
      (∀ s ∈ ord, Reach nx srcs s) ∧ (∀ t, Reach nx srcs t → t ∈ ord) := by
  unfold traverseFromModel at hv
  cases hst : visit nx fuel srcs { visited := [], order := [] } with
  | none => rw [hst] at hv; exact absurd hv (by simp)
  | some st =>
    rw [hst] at hv
    simp only [Option.map] at hv
    cases hv
    have h1 := visit_handles nx _ _ _ _ hst
    have h2 := visit_nextOk nx _ _ _ _ hst (by intro t; simp) (by intro i hi; cases hi)
    have h3 := visit_sound nx srcs _ _ _ _ hst (fun s hs => Reach.base hs) (by intro s hs; cases hs)
    exact ⟨h1, h2, h3, reach_mem_of_nextOk nx srcs _ h1 h2⟩

/- ----------------------------------------------------------------
   Fusion-level graph structure.
   ---------------------------------------------------------------- -/

theorem nextStmt_val_inset (h : Heap) (f : Fusion) (rca : Bool) (v : Nat)
    (ns : List StmtRef) (hnx : nextStmt h f rca (StmtRef.val v) = some ns) :
    v ∈ f.valSet := by
  by_contra hc
  simp [nextStmt, nextVal, hc] at hnx

theorem nextStmt_expr_inset (h : Heap) (f : Fusion) (rca : Bool) (e : Nat)
    (ns : List StmtRef) (hnx : nextStmt h f rca (StmtRef.expr e) = some ns) :
    e ∈ f.exprSet := by
  by_contra hc
  simp [nextStmt, nextExpr, hc] at hnx

theorem nextStmt_val_eq (h : Heap) (f : Fusion) (rca : Bool) (v : Nat)
    (ns : List StmtRef) (hnx : nextStmt h f rca (StmtRef.val v) = some ns) :
    ns = (match f.origin v with
          | some e => [StmtRef.expr e]
          | none => []) := by
  have hin := nextStmt_val_inset h f rca v ns hnx
  simp only [nextStmt, nextVal, if_pos hin] at hnx
  cases horig : f.origin v <;> rw [horig] at hnx <;> exact (Option.some.inj hnx).symm

theorem nextStmt_expr_mem (h : Heap) (f : Fusion) (rca : Bool) (e : Nat)
    (ns : List StmtRef) (hnx : nextStmt h f rca (StmtRef.expr e) = some ns) (t : StmtRef) :
    t ∈ ns ↔ t ∈ ((h.hexpr e).inputs).map StmtRef.val := by
  have hin := nextStmt_expr_inset h f rca e ns hnx
  simp only [nextStmt, nextExpr, if_pos hin] at hnx
  cases rca with
  | false =>
    simp only [Bool.false_eq_true, if_neg] at hnx
    cases hnx
    exact Iff.rfl
  | true =>
    simp only [if_pos] at hnx
    cases houts : (h.hexpr e).outputs with
    | nil => simp only [houts] at hnx; exact Option.noConfusion hnx
    | cons o rest =>
      cases rest with
      | nil =>
        simp only [houts] at hnx
        by_cases htv : (h.hval o).vty = ValTy.tensorView
        · rw [if_pos htv] at hnx
          cases hnx
          exact mem_stableSortByKey _ _ t
        · rw [if_neg htv] at hnx
          cases hnx
          exact Iff.rfl
      | cons o2 rest2 => simp only [houts] at hnx; exact Option.noConfusion hnx

/-- Every element of a successful next-list is a raw edge. -/
theorem nextStmt_mem_edges (h : Heap) (f : Fusion) (rca : Bool) (s : StmtRef)
    (ns : List StmtRef) (hnx : nextStmt h f rca s = some ns) :
    ∀ t ∈ ns, t ∈ stmtEdges h f s := by
  intro t ht
  cases s with
  | val v =>
    have hin := nextStmt_val_inset h f rca v ns hnx
    have heq := nextStmt_val_eq h f rca v ns hnx
    subst heq
    simp only [stmtEdges, if_pos hin]
    exact ht
  | expr e =>
    have hin := nextStmt_expr_inset h f rca e ns hnx
    have hmem := (nextStmt_expr_mem h f rca e ns hnx t).mp ht
    simp only [stmtEdges, if_pos hin]
    exact hmem

/-- A successful next-source is a registered statement. -/
theorem nextStmt_some_allRefs (h : Heap) (f : Fusion) (rca : Bool) (s : StmtRef)
    (ns : List StmtRef) (hnx : nextStmt h f rca s = some ns) :
    s ∈ allStmtRefs f := by
  cases s with
  | val v =>
    exact List.mem_append_left _ (List.mem_map_of_mem _ (nextStmt_val_inset h f rca v ns hnx))
  | expr e =>
    exact List.mem_append_right _ (List.mem_map_of_mem _ (nextStmt_expr_inset h f rca e ns hnx))

/- ----------------------------------------------------------------
   Spec-level backward reachability and well-formedness.
   ---------------------------------------------------------------- -/

/-- Reachable statements of a well-formed fusion are registered. -/
theorem reach_stmtIn (h : Heap) (f : Fusion) (rca : Bool) (hwf : WF h f)
    (srcsS : List StmtRef) (hsrcs : ∀ s ∈ srcsS, stmtIn f s) :
    ∀ s, Reach (nextStmt h f rca) srcsS s → stmtIn f s := by
  intro s hr
  induction hr with
  | base hs => exact hsrcs _ hs
  | step hr hnx hmem ih =>
    rename_i s0 ns t
    cases s0 with
    | val v =>
      have hin := nextStmt_val_inset h f rca v ns hnx
      have heq := nextStmt_val_eq h f rca v ns hnx
      subst heq
      cases horig : f.origin v with
      | none => rw [horig] at hmem; cases hmem
      | some e =>
        rw [horig] at hmem
        simp only [List.mem_singleton] at hmem
        subst hmem
        exact hwf.origin_mem v hin e (Option.mem_def.mpr horig)
    | expr e =>
      have hin := nextStmt_expr_inset h f rca e ns hnx
      have hmem2 := (nextStmt_expr_mem h f rca e ns hnx t).mp hmem
      obtain ⟨w, hw, hweq⟩ := List.mem_map.mp hmem2
      subst hweq
      exact hwf.expr_inputs_mem e hin w hw

/-- Machine-level reachability implies spec-level backward
reachability. -/
theorem reach_to_backReach (h : Heap) (f : Fusion) (rca : Bool) (srcs : List Nat) :
    ∀ s, Reach (nextStmt h f rca) (srcs.map StmtRef.val) s → BackReach h f srcs s := by
  intro s hr
  induction hr with
  | base hs =>
    obtain ⟨v, hv, hveq⟩ := List.mem_map.mp hs
    exact hveq ▸ BackReach.src hv
  | step hr hnx hmem ih =>
    rename_i s0 ns t
    cases s0 with
    | val v =>
      have heq := nextStmt_val_eq h f rca v ns hnx
      subst heq
      cases horig : f.origin v with
      | none => rw [horig] at hmem; cases hmem
      | some e =>
        rw [horig] at hmem
        simp only [List.mem_singleton] at hmem
        subst hmem
        exact BackReach.orig ih horig
    | expr e =>
      have hmem2 := (nextStmt_expr_mem h f rca e ns hnx t).mp hmem
      obtain ⟨w, hw, hweq⟩ := List.mem_map.mp hmem2
      subst hweq
      exact BackReach.inp ih hw

/-- Spec-level backward reachability lands inside any next-closed
handle order containing the sources. -/
theorem backReach_mem (h : Heap) (f : Fusion) (rca : Bool) (srcs : List Nat)
    (l : List StmtRef) (hsub : ∀ v ∈ srcs, StmtRef.val v ∈ l)
    (hok : NextOk (nextStmt h f rca) l) :
    ∀ s, BackReach h f srcs s → s ∈ l := by
  intro s hr
  induction hr with
  | src hv => exact hsub _ hv
  | orig hr horig ih =>
    rename_i v e
    obtain ⟨n, hn⟩ := List.get_of_mem ih
    obtain ⟨ms, hms, hmem2⟩ := hok n.1 n.2
    simp only [Fin.eta] at hms
    rw [hn] at hms
    have heq := nextStmt_val_eq h f rca v ms hms
    subst heq
    rw [horig] at hmem2
    exact List.mem_of_mem_take (hmem2 _ (List.mem_singleton.mpr rfl))
  | inp hr hinp ih =>
    rename_i e v
    obtain ⟨n, hn⟩ := List.get_of_mem ih
    obtain ⟨ms, hms, hmem2⟩ := hok n.1 n.2
    simp only [Fin.eta] at hms
    rw [hn] at hms
    have hmem3 := (nextStmt_expr_mem h f rca e ms hms (StmtRef.val v)).mpr
      (List.mem_map_of_mem _ hinp)
    exact List.mem_of_mem_take (hmem2 _ hmem3)

/-- Backward reachability is monotone in the source set. -/
theorem backReach_mono (h : Heap) (f : Fusion) (srcs srcs2 : List Nat)
    (hsub : ∀ v ∈ srcs, v ∈ srcs2) :
    ∀ s, BackReach h f srcs s → BackReach h f srcs2 s := by
  intro s hr
  induction hr with
  | src hv => exact BackReach.src (hsub _ hv)
  | orig hr horig ih => exact BackReach.orig ih horig
  | inp hr hinp ih => exact BackReach.inp ih hinp

/-- Re-rooting: a path from sources all of which are themselves
backward reachable from a second source set composes. -/
theorem backReach_retarget (h : Heap) (f : Fusion) (srcs srcs2 : List Nat)
    (hcov : ∀ v ∈ srcs, BackReach h f srcs2 (StmtRef.val v)) :
    ∀ s, BackReach h f srcs s → BackReach h f srcs2 s := by
  intro s hr
  induction hr with
  | src hv => exact hcov _ hv
  | orig hr horig ih => exact BackReach.orig ih horig
  | inp hr hinp ih => exact BackReach.inp ih hinp

/-- A backward-reachable statement exists only when some source
exists. -/
theorem backReach_src_exists (h : Heap) (f : Fusion) (srcs : List Nat) :
    ∀ s, BackReach h f srcs s → ∃ v, v ∈ srcs := by
  intro s hr
  induction hr with
  | src hv => exact ⟨_, hv⟩
  | orig _ _ ih => exact ih
  | inp _ _ ih => exact ih

/-- Machine-level reachability from a source list factors through one
source. -/
theorem reach_split (nx : StmtRef → Option (List StmtRef)) (srcsS : List StmtRef) :
    ∀ t, Reach nx srcsS t → ∃ s ∈ srcsS, Reach nx [s] t := by
  intro t hr
  induction hr with
  | base hs => exact ⟨_, hs, Reach.base (List.mem_singleton.mpr rfl)⟩
  | step hr hnx hmem ih =>
    obtain ⟨s, hsmem, hsr⟩ := ih
    exact ⟨s, hsmem, Reach.step hsr hnx hmem⟩

/- ----------------------------------------------------------------
   Acyclicity, expressed by a rank function that strictly decreases
   along raw backward edges.
   ---------------------------------------------------------------- -/

/-- RankOk bounds successful next-lists. -/
theorem rankOk_next (h : Heap) (f : Fusion) (rank : StmtRef → Nat)
    (hrk : RankOk h f rank) (rca : Bool) (s : StmtRef) (ns : List StmtRef)
    (hnx : nextStmt h f rca s = some ns) :
    ∀ t ∈ ns, rank t < rank s := by
  intro t ht
  exact hrk s (nextStmt_some_allRefs h f rca s ns hnx) t (nextStmt_mem_edges h f rca s ns hnx t ht)

/-- Along machine-level reachability the rank never rises above some
source, and strictly drops unless the statement is a source. -/
theorem reach_rank (h : Heap) (f : Fusion) (rank : StmtRef → Nat)
    (hrk : RankOk h f rank) (rca : Bool) (srcsS : List StmtRef) :
    ∀ t, Reach (nextStmt h f rca) srcsS t →
      t ∈ srcsS ∨ ∃ s ∈ srcsS, rank t < rank s := by
  intro t hr
  induction hr with
  | base hs => exact Or.inl hs
  | step hr hnx hmem ih =>
    rename_i s0 ns t0
    have hlt := rankOk_next h f rank hrk rca s0 ns hnx t0 hmem
    rcases ih with hmem0 | ⟨s, hsmem, hslt⟩
    · exact Or.inr ⟨s0, hmem0, hlt⟩
    · exact Or.inr ⟨s, hsmem, hlt.trans hslt⟩

/-- Any member of a Nat list is bounded by its foldr max. -/
theorem le_foldr_max (l : List Nat) (b : Nat) : ∀ x ∈ l, x ≤ l.foldr max b := by
  induction l with
  | nil => intro x hx; cases hx
  | cons a rest ih =>
    intro x hx
    rcases List.mem_cons.mp hx with hx | hx
    · subst hx
      exact Nat.le_max_left _ _
    · exact Nat.le_trans (ih x hx) (Nat.le_max_right _ _)

/-- Membership in filterMap exprOf is membership of the Expr
reference. -/
theorem mem_filterMap_exprOf (l : List StmtRef) (e : Nat) :
    e ∈ List.filterMap exprOf l ↔ StmtRef.expr e ∈ l := by
  rw [List.mem_filterMap]
  constructor
  · rintro ⟨s, hs, hse⟩
    cases s with
    | val v => exact absurd hse (by simp [exprOf])
    | expr e2 =>
      have : e2 = e := by simpa [exprOf] using hse
      exact this ▸ hs
  · intro hs
    exact ⟨StmtRef.expr e, hs, rfl⟩

/-- Every registered output is backward reachable from the
terminating outputs computed against a sound expression list.  This
is the step that lets exprs(fromOutputsOnly = true) start from the
terminating outputs only without losing reachable expressions; it
needs acyclicity (the rank certificate). -/
theorem outputs_backReach_touts (h : Heap) (f : Fusion) (rank : StmtRef → Nat)
    (hwf : WF h f) (hrk : RankOk h f rank) (es0 : List Nat)
    (hsound0 : ∀ e ∈ es0,
      Reach (nextStmt h f false) (f.outputs.map StmtRef.val) (StmtRef.expr e))
    (touts : List Nat)
    (htouts : touts = f.outputs.filter
      (fun o => decide (o ∉ es0.flatMap (fun e => (h.hexpr e).inputs)))) :
    ∀ o ∈ f.outputs, BackReach h f touts (StmtRef.val o) := by
  have hBle : ∀ o ∈ f.outputs,
      rank (StmtRef.val o) ≤ (f.outputs.map (fun o => rank (StmtRef.val o))).foldr max 0 := by
    intro o ho
    exact le_foldr_max _ 0 _ (List.mem_map_of_mem _ ho)
  set B := (f.outputs.map (fun o => rank (StmtRef.val o))).foldr max 0 with hBdef
  suffices H : ∀ n, ∀ o ∈ f.outputs, B - rank (StmtRef.val o) < n →
      BackReach h f touts (StmtRef.val o) by
    intro o ho
    exact H (B + 1) o ho (by have := hBle o ho; omega)
  intro n
  induction n with
  | zero =>
    intro o ho hlt
    omega
  | succ n ih =>
    intro o ho hlt
    by_cases hto : o ∈ touts
    · exact BackReach.src hto
    · have hused : o ∈ es0.flatMap (fun e => (h.hexpr e).inputs) := by
        by_contra hc
        refine hto ?_
        rw [htouts]
        exact List.mem_filter.mpr ⟨ho, by simpa using hc⟩
      obtain ⟨e, he0, hoin⟩ := List.mem_flatMap.mp hused
      have hre := hsound0 e he0
      obtain ⟨s0, hs0mem, hs0r⟩ := reach_split _ _ _ hre
      obtain ⟨o2, ho2, hs0eq⟩ := List.mem_map.mp hs0mem
      subst hs0eq
      have hein : stmtIn f (StmtRef.expr e) := by
        refine reach_stmtIn h f false hwf _ ?_ _ hre
        intro s hs
        obtain ⟨w, hw, hweq⟩ := List.mem_map.mp hs
        exact hweq ▸ hwf.outputs_mem w hw
      have hedge : StmtRef.val o ∈ stmtEdges h f (StmtRef.expr e) := by
        simp only [stmtEdges, stmtIn] at hein ⊢
        rw [if_pos hein]
        exact List.mem_map_of_mem _ hoin
      have hlt1 : rank (StmtRef.val o) < rank (StmtRef.expr e) := by
        refine hrk _ ?_ _ hedge
        simp only [stmtIn] at hein
        exact List.mem_append_right _ (List.mem_map_of_mem _ hein)
      have hlt2 : rank (StmtRef.expr e) < rank (StmtRef.val o2) := by
        rcases reach_rank h f rank hrk false _ _ hs0r with hmem | ⟨s, hsmem, hslt⟩
        · simp at hmem
        · rw [List.mem_singleton] at hsmem
          exact hsmem ▸ hslt
      have ho2br : BackReach h f touts (StmtRef.val o2) := by
        refine ih o2 ho2 ?_
        have h1 := hBle o2 ho2
        omega
      have hpath : BackReach h f [o2] (StmtRef.expr e) :=
        reach_to_backReach h f false [o2] _ (by simpa using hs0r)
      have hcov2 : ∀ v ∈ [o2], BackReach h f touts (StmtRef.val v) := by
        intro v hv
        rw [List.mem_singleton] at hv
        exact hv ▸ ho2br
      exact BackReach.inp (backReach_retarget h f [o2] touts hcov2 _ hpath) hoin

/-- Core characterization of exprs(fromOutputsOnly = true): a
successful run lists an expression exactly when it is backward
reachable from the registered outputs. -/
theorem exprsTrue_mem_iff (h : Heap) (f : Fusion) (rca : Bool) (fuel : Nat)
    (es : List Nat) (rank : StmtRef → Nat)
    (hwf : WF h f) (hrk : RankOk h f rank)
    (hrun : exprsModel h f true rca fuel = some es) :
    ∀ e, e ∈ es ↔ BackReach h f f.outputs (StmtRef.expr e) := by
  intro e
  have hrun2 : (match getTerminatingOutputs h f fuel with
      | none => none
      | some touts =>
        if touts.isEmpty then some []
        else exprsFrom h f rca touts fuel) = some es := hrun
  cases hT : getTerminatingOutputs h f fuel with
  | none => simp only [hT] at hrun2; exact Option.noConfusion hrun2
  | some touts =>
    simp only [hT] at hrun2
    have hT2 : (match exprsFrom h f false f.outputs fuel with
        | none => none
        | some es0 =>
          some (f.outputs.filter
            (fun o => decide (o ∉ es0.flatMap (fun e2 => (h.hexpr e2).inputs))))) =
        some touts := hT
    cases hE0 : exprsFrom h f false f.outputs fuel with
    | none => simp only [hE0] at hT2; exact Option.noConfusion hT2
    | some es0 =>
      simp only [hE0] at hT2
      have htouts : touts = f.outputs.filter
          (fun o => decide (o ∉ es0.flatMap (fun e2 => (h.hexpr e2).inputs))) :=
        (Option.some.inj hT2).symm
      have hE0b : (traverseFromModel (nextStmt h f false) (f.outputs.map StmtRef.val) fuel).map
          (List.filterMap exprOf) = some es0 := hE0
      cases hord0 : traverseFromModel (nextStmt h f false) (f.outputs.map StmtRef.val) fuel with
      | none => rw [hord0] at hE0b; exact Option.noConfusion hE0b
      | some ord0 =>
        rw [hord0] at hE0b
        simp only [Option.map] at hE0b
        have hes0 : List.filterMap exprOf ord0 = es0 := Option.some.inj hE0b
        obtain ⟨hsub0, hok0, hsnd0, hcmp0⟩ := traverseFrom_spec _ _ _ _ hord0
        have hsound0 : ∀ e2 ∈ es0,
            Reach (nextStmt h f false) (f.outputs.map StmtRef.val) (StmtRef.expr e2) := by
          intro e2 he2
          have hmem : StmtRef.expr e2 ∈ ord0 := by
            rw [← hes0] at he2
            exact (mem_filterMap_exprOf ord0 e2).mp he2
          exact hsnd0 _ hmem
        have hcov := outputs_backReach_touts h f rank hwf hrk es0 hsound0 touts htouts
        by_cases hemp : touts.isEmpty
        · rw [if_pos hemp] at hrun2
          have hes : es = [] := (Option.some.inj hrun2).symm
          subst hes
          simp only [List.not_mem_nil, false_iff]
          intro hbr
          obtain ⟨o, ho⟩ := backReach_src_exists h f f.outputs _ hbr
          obtain ⟨w, hw⟩ := backReach_src_exists h f touts _ (hcov o ho)
          rw [List.isEmpty_iff] at hemp
          rw [hemp] at hw
          cases hw
        · rw [if_neg hemp] at hrun2
          have hrun3 : (traverseFromModel (nextStmt h f rca) (touts.map StmtRef.val) fuel).map
              (List.filterMap exprOf) = some es := hrun2
          cases hord : traverseFromModel (nextStmt h f rca) (touts.map StmtRef.val) fuel with
          | none => rw [hord] at hrun3; exact Option.noConfusion hrun3
          | some ord =>
            rw [hord] at hrun3
            simp only [Option.map] at hrun3
            have hes : List.filterMap exprOf ord = es := Option.some.inj hrun3
            obtain ⟨hsub, hok, hsnd, hcmp⟩ := traverseFrom_spec _ _ _ _ hord
            constructor
            · intro he
              have hmemord : StmtRef.expr e ∈ ord := by
                rw [← hes] at he
                exact (mem_filterMap_exprOf ord e).mp he
              have hbt := reach_to_backReach h f rca touts _ (hsnd _ hmemord)
              refine backReach_mono h f touts f.outputs ?_ _ hbt
              intro v hv
              rw [htouts] at hv
              exact (List.mem_filter.mp hv).1
            · intro hbr
              have hbt : BackReach h f touts (StmtRef.expr e) :=
                backReach_retarget h f f.outputs touts hcov _ hbr
              have hmem : StmtRef.expr e ∈ ord :=
                backReach_mem h f rca touts ord
                  (fun v hv => hsub _ (List.mem_map_of_mem _ hv)) hok _ hbt
              rw [← hes]
              exact (mem_filterMap_exprOf ord e).mpr hmem

/-- A successful exprs run is empty or comes from one traversal. -/
theorem exprsModel_run (h : Heap) (f : Fusion) (fo rca : Bool) (fuel : Nat)
    (es : List Nat) (hrun : exprsModel h f fo rca fuel = some es) :
    es = [] ∨ ∃ (srcs : List Nat) (ord : List StmtRef),
      traverseFromModel (nextStmt h f rca) (srcs.map StmtRef.val) fuel = some ord ∧
      es = List.filterMap exprOf ord := by
  cases fo with
  | true =>
    have hrun2 : (match getTerminatingOutputs h f fuel with
        | none => none
        | some touts =>
          if touts.isEmpty then some []
          else exprsFrom h f rca touts fuel) = some es := hrun
    cases hT : getTerminatingOutputs h f fuel with
    | none => simp only [hT] at hrun2; exact Option.noConfusion hrun2
    | some touts =>
      simp only [hT] at hrun2
      by_cases hemp : touts.isEmpty
      · rw [if_pos hemp] at hrun2
        exact Or.inl (Option.some.inj hrun2).symm
      · rw [if_neg hemp] at hrun2
        have hrun3 : (traverseFromModel (nextStmt h f rca) (touts.map StmtRef.val) fuel).map
            (List.filterMap exprOf) = some es := hrun2
        cases hord : traverseFromModel (nextStmt h f rca) (touts.map StmtRef.val) fuel with
        | none => rw [hord] at hrun3; exact Option.noConfusion hrun3
        | some ord =>
          rw [hord] at hrun3
          simp only [Option.map] at hrun3
          exact Or.inr ⟨touts, ord, hord, (Option.some.inj hrun3).symm⟩
  | false =>
    have hrun2 : (if f.valDeque.all (fun v => decide (v ∈ f.valSet)) then
        (if (f.valDeque.filter (fun v => (f.uses v).isEmpty)).isEmpty then some []
         else exprsFrom h f rca (f.valDeque.filter (fun v => (f.uses v).isEmpty)) fuel)
        else none) = some es := hrun
    by_cases hall : f.valDeque.all (fun v => decide (v ∈ f.valSet))
    · rw [if_pos hall] at hrun2
      by_cases hemp : (f.valDeque.filter (fun v => (f.uses v).isEmpty)).isEmpty
      · rw [if_pos hemp] at hrun2
        exact Or.inl (Option.some.inj hrun2).symm
      · rw [if_neg hemp] at hrun2
        have hrun3 : (traverseFromModel (nextStmt h f rca)
            ((f.valDeque.filter (fun v => (f.uses v).isEmpty)).map StmtRef.val) fuel).map
            (List.filterMap exprOf) = some es := hrun2
        cases hord : traverseFromModel (nextStmt h f rca)
            ((f.valDeque.filter (fun v => (f.uses v).isEmpty)).map StmtRef.val) fuel with
        | none => rw [hord] at hrun3; exact Option.noConfusion hrun3
        | some ord =>
          rw [hord] at hrun3
          simp only [Option.map] at hrun3
          exact Or.inr ⟨_, ord, hord, (Option.some.inj hrun3).symm⟩
    · rw [if_neg hall] at hrun2
      exact Option.noConfusion hrun2

/-- Split a filterMap along one produced element. -/
theorem filterMap_exprOf_split (ord : List StmtRef) (pre post : List Nat) (e2 : Nat)
    (hes : List.filterMap exprOf ord = pre ++ e2 :: post) :
    ∃ o1 o2, ord = o1 ++ StmtRef.expr e2 :: o2 ∧ List.filterMap exprOf o1 = pre := by
  obtain ⟨l1, l2, hl, h1, h2⟩ := List.filterMap_eq_append_iff.mp hes
  obtain ⟨l2a, a, l2b, hl2, hnone, ha, hrest⟩ := List.filterMap_eq_cons_iff.mp h2
  have haeq : a = StmtRef.expr e2 := by
    cases a with
    | val v => exact absurd ha (by simp [exprOf])
    | expr e => simp [exprOf] at ha; rw [ha]
  subst haeq
  refine ⟨l1 ++ l2a, l2b, ?_, ?_⟩
  · rw [hl, hl2, List.append_assoc]
  · rw [List.filterMap_append, h1]
    have : List.filterMap exprOf l2a = [] := by
      rw [List.filterMap_eq_nil_iff]
      exact hnone
    rw [this, List.append_nil]

/-- Claim C1.  For every Fusion and every pair of expressions e1 and
e2, if e1 produces a Val consumed by e2 and both appear in a result
of exprs (for any combination of the fromOutputsOnly and
respectComputeAt flags), then e1 appears strictly before e2: every
occurrence of e2 is preceded by an occurrence of e1. -/
theorem claim_C1 (h : Heap) (f : Fusion) (fromOutputsOnly rca : Bool)
    (fuel : Nat) (es : List Nat) (hwf : WF h f)
    (hrun : exprsModel h f fromOutputsOnly rca fuel = some es)
    (e1 e2 v : Nat)
    (hprod : v ∈ (h.hexpr e1).outputs)
    (hcons : v ∈ (h.hexpr e2).inputs)
    (he1 : e1 ∈ es)
    (pre post : List Nat) (hsplit : es = pre ++ e2 :: post) :
    e1 ∈ pre := by
  rcases exprsModel_run h f fromOutputsOnly rca fuel es hrun with hnil | ⟨srcs, ord, hord, hes⟩
  · rw [hnil] at hsplit
    exact absurd hsplit.symm (List.append_ne_nil_of_right_ne_nil _ (List.cons_ne_nil _ _))
  · obtain ⟨hsub, hok, hsnd, hcmp⟩ := traverseFrom_spec _ _ _ _ hord
    rw [hes] at hsplit
    obtain ⟨o1, o2, hdecomp, hpre⟩ := filterMap_exprOf_split ord pre post e2 hsplit
    subst hdecomp
    -- e1 is a registered expression
    have he1ord : StmtRef.expr e1 ∈ o1 ++ StmtRef.expr e2 :: o2 := by
      rw [hes] at he1
      exact (mem_filterMap_exprOf _ e1).mp he1
    have he1set : e1 ∈ f.exprSet := by
      obtain ⟨k, hk⟩ := List.get_of_mem he1ord
      obtain ⟨ns, hns, _⟩ := hok k.1 k.2
      simp only [Fin.eta] at hns
      rw [hk] at hns
      exact nextStmt_expr_inset h f rca e1 ns hns
    -- the handled occurrence of e2
    have hi : o1.length < (o1 ++ StmtRef.expr e2 :: o2).length := by simp
    have hgetE2 : (o1 ++ StmtRef.expr e2 :: o2).get ⟨o1.length, hi⟩ = StmtRef.expr e2 := by
      rw [List.get_eq_getElem, List.getElem_append_right (Nat.le_refl _)]
      simp
    obtain ⟨ns, hns, htake⟩ := hok o1.length hi
    rw [hgetE2] at hns
    have hvns : StmtRef.val v ∈ ns :=
      (nextStmt_expr_mem h f rca e2 ns hns (StmtRef.val v)).mpr (List.mem_map_of_mem _ hcons)
    have hvo1 : StmtRef.val v ∈ o1 := by
      have h2 := htake _ hvns
      rw [List.take_append_of_le_length (Nat.le_refl _), List.take_length] at h2
      exact h2
    -- the handled occurrence of v, strictly before e2
    obtain ⟨j, hjlen, hjget⟩ := List.mem_iff_getElem.mp hvo1
    have hj : j < (o1 ++ StmtRef.expr e2 :: o2).length := by
      simp only [List.length_append, List.length_cons]
      omega
    have hgetV : (o1 ++ StmtRef.expr e2 :: o2).get ⟨j, hj⟩ = StmtRef.val v := by
      rw [List.get_eq_getElem, List.getElem_append_left hjlen]
      exact hjget
    obtain ⟨ns2, hns2, htake2⟩ := hok j hj
    rw [hgetV] at hns2
    have hvset := nextStmt_val_inset h f rca v ns2 hns2
    have horig : f.origin v = some e1 := hwf.origin_consistent e1 he1set v hprod
    have hns2eq := nextStmt_val_eq h f rca v ns2 hns2
    rw [horig] at hns2eq
    subst hns2eq
    have he1take : StmtRef.expr e1 ∈ List.take j (o1 ++ StmtRef.expr e2 :: o2) :=
      htake2 _ (List.mem_singleton.mpr rfl)
    have he1o1 : StmtRef.expr e1 ∈ o1 := by
      rw [List.take_append_of_le_length (Nat.le_of_lt hjlen)] at he1take
      exact List.mem_of_mem_take he1take
    rw [← hpre]
    exact (mem_filterMap_exprOf o1 e1).mpr he1o1

/- ----------------------------------------------------------------
   Order properties of the stable sort.
   ---------------------------------------------------------------- -/

/-- Index-annotated lists produced by enum have strictly increasing
first components. -/
theorem pairwise_fst_lt_enum (l : List StmtRef) :
    List.Pairwise (fun x y : Nat × StmtRef => x.1 < y.1) l.enum := by
  rw [List.pairwise_iff_get]
  intro i j hij
  have hi := i.2
  have hj := j.2
  simp only [List.get_eq_getElem, List.getElem_enum]
  simpa using hij

/-- In a stable sort, an element with strictly smaller key precedes
every element with a larger key. -/
theorem stableSortByKey_lt (key : StmtRef → Int) (l : List StmtRef) (a b : StmtRef)
    (hab : key a < key b) (p q : Nat)
    (hp : p < (stableSortByKey key l).length) (hq : q < (stableSortByKey key l).length)
    (hpa : (stableSortByKey key l).get ⟨p, hp⟩ = a)
    (hqb : (stableSortByKey key l).get ⟨q, hq⟩ = b) :
    p < q := by
  have hsorted : List.Sorted (keyLE key) (List.insertionSort (keyLE key) l.enum) :=
    List.sorted_insertionSort _ _
  have hlen : (stableSortByKey key l).length = (List.insertionSort (keyLE key) l.enum).length := by
    simp [stableSortByKey]
  have hp2 : p < (List.insertionSort (keyLE key) l.enum).length := hlen ▸ hp
  have hq2 : q < (List.insertionSort (keyLE key) l.enum).length := hlen ▸ hq
  have hpa2 : ((List.insertionSort (keyLE key) l.enum).get ⟨p, hp2⟩).2 = a := by
    rw [← hpa]
    simp [stableSortByKey, List.get_eq_getElem]
  have hqb2 : ((List.insertionSort (keyLE key) l.enum).get ⟨q, hq2⟩).2 = b := by
    rw [← hqb]
    simp [stableSortByKey, List.get_eq_getElem]
  rcases Nat.lt_trichotomy p q with hlt | heq | hgt
  · exact hlt
  · exfalso
    subst heq
    rw [hqb2] at hpa2
    rw [hpa2] at hab
    exact lt_irrefl _ hab
  · exfalso
    have hrel := List.Sorted.rel_get_of_lt hsorted
      (show (⟨q, hq2⟩ : Fin _) < ⟨p, hp2⟩ from hgt)
    rcases hrel with hlt2 | ⟨heq2, _⟩
    · rw [hpa2, hqb2] at hlt2
      exact absurd (hab.trans hlt2) (lt_irrefl _)
    · rw [hpa2, hqb2] at heq2
      rw [heq2] at hab
      exact lt_irrefl _ hab

/-- Stability: restricted to any single key value, a stable sort is
the identity. -/
theorem stableSortByKey_filter_eq (key : StmtRef → Int) (l : List StmtRef) (k : Int) :
    (stableSortByKey key l).filter (fun s => decide (key s = k)) =
      l.filter (fun s => decide (key s = k)) := by
  have hLHS : (stableSortByKey key l).filter (fun s => decide (key s = k)) =
      ((List.insertionSort (keyLE key) l.enum).filter
        (fun pr => decide (key pr.2 = k))).map Prod.snd := by
    unfold stableSortByKey
    rw [List.filter_map]
    rfl
  have hRHS : l.filter (fun s => decide (key s = k)) =
      (l.enum.filter (fun pr => decide (key pr.2 = k))).map Prod.snd := by
    conv_lhs => rw [← List.enum_map_snd l]
    rw [List.filter_map]
    rfl
  rw [hLHS, hRHS]
  congr 1
  -- the two filtered pair lists are equal
  have hperm : ((List.insertionSort (keyLE key) l.enum).filter
      (fun pr => decide (key pr.2 = k))).Perm
      (l.enum.filter (fun pr => decide (key pr.2 = k))) :=
    (List.perm_insertionSort (keyLE key) l.enum).filter _
  have hsorted : List.Sorted (keyLE key) (List.insertionSort (keyLE key) l.enum) :=
    List.sorted_insertionSort _ _
  -- right side: strictly increasing indices
  have hs2 : List.Pairwise (fun x y : Nat × StmtRef => x.1 < y.1)
      (l.enum.filter (fun pr => decide (key pr.2 = k))) :=
    List.Pairwise.sublist (List.filter_sublist _) (pairwise_fst_lt_enum l)
  -- left side: keyLE holds pairwise, and all keys are k
  have hs1le : List.Pairwise (keyLE key)
      ((List.insertionSort (keyLE key) l.enum).filter (fun pr => decide (key pr.2 = k))) :=
    List.Pairwise.sublist (List.filter_sublist _) hsorted
  -- indices on the left are pairwise distinct
  have hnodup2 : (List.map Prod.fst (l.enum.filter (fun pr => decide (key pr.2 = k)))).Nodup := by
    have hsub : (l.enum.filter (fun pr => decide (key pr.2 = k))).Sublist l.enum :=
      List.filter_sublist _
    have hsubm := hsub.map Prod.fst
    refine List.Nodup.sublist hsubm ?_
    rw [List.enum_eq_zip_range, List.map_fst_zip]
    · exact List.nodup_range _
    · simp
  have hnodup1 : (List.map Prod.fst
      ((List.insertionSort (keyLE key) l.enum).filter (fun pr => decide (key pr.2 = k)))).Nodup := by
    have := (hperm.map Prod.fst).nodup_iff
    exact this.mpr hnodup2
  have hne1 : List.Pairwise (fun x y : Nat × StmtRef => x.1 ≠ y.1)
      ((List.insertionSort (keyLE key) l.enum).filter (fun pr => decide (key pr.2 = k))) :=
    List.pairwise_map.mp hnodup1
  have hallk : ∀ x ∈ (List.insertionSort (keyLE key) l.enum).filter
      (fun pr => decide (key pr.2 = k)), key x.2 = k := by
    intro x hx
    have := List.mem_filter.mp hx
    simpa using this.2
  have hs1 : List.Pairwise (fun x y : Nat × StmtRef => x.1 < y.1)
      ((List.insertionSort (keyLE key) l.enum).filter (fun pr => decide (key pr.2 = k))) := by
    have hcomb := List.Pairwise.and hs1le hne1
    refine List.Pairwise.imp_of_mem ?_ hcomb
    intro x y hx hy hxy
    rcases hxy.1 with hlt | ⟨_, hle⟩
    · rw [hallk x hx, hallk y hy] at hlt
      exact absurd hlt (lt_irrefl _)
    · exact Nat.lt_of_le_of_ne hle hxy.2
  exact List.eq_of_perm_of_sorted hperm hs1 hs2

/-- Claim C2.  For every Fusion (well formed and acyclic), a
successful exprs(fromOutputsOnly = true) run returns exactly the set
of expressions reachable backward through the origin relation from
the registered outputs: dead code is excluded and every reachable
expression is included. -/
theorem claim_C2 (h : Heap) (f : Fusion) (rca : Bool) (fuel : Nat)
    (es : List Nat) (rank : StmtRef → Nat)
    (hwf : WF h f) (hrk : RankOk h f rank)
    (hrun : exprsModel h f true rca fuel = some es) :
    ∀ e, e ∈ es ↔ BackReach h f f.outputs (StmtRef.expr e) :=
  exprsTrue_mem_iff h f rca fuel es rank hwf hrk hrun

/-- Claim C5.  For a Val registered to the fusion, addInput is a
checked failure exactly when the Val already has a producing
expression; a TensorView carrying a reduction axis with no origin is
accepted with the warning flag set and appended to the input list. -/
theorem claim_C5 (h : Heap) (f : Fusion) (v : Nat) (hmem : v ∈ f.valSet) :
    (addInputM h f v = none ↔ f.origin v ≠ none) ∧
    ((h.hval v).vty = ValTy.tensorView → tvHasReduction (h.hval v) = true →
      f.origin v = none →
      addInputM h f v = some ({ f with inputs := f.inputs ++ [v] }, true)) := by
  constructor
  · unfold addInputM
    rw [if_pos hmem]
    by_cases horig : f.origin v = none
    · rw [if_pos horig]
      simp [horig]
    · rw [if_neg horig]
      simp [horig]
  · intro htv hred horig
    unfold addInputM
    rw [if_pos hmem, if_pos horig]
    simp [htv, hred]

/-- Claim C6.  For a TensorView registered to the fusion, addOutput
is a checked failure exactly when the root domain carries a broadcast
axis; otherwise the Val is appended to the output list. -/
theorem claim_C6 (h : Heap) (f : Fusion) (v : Nat) (hmem : v ∈ f.valSet)
    (htv : (h.hval v).vty = ValTy.tensorView) :
    (addOutputM h f v = none ↔ hasBroadcastDom (h.hval v).rootDomain = true) ∧
    (hasBroadcastDom (h.hval v).rootDomain = false →
      addOutputM h f v = some { f with outputs := f.outputs ++ [v] }) := by
  constructor
  · unfold addOutputM
    rw [if_pos hmem]
    by_cases hbc : hasBroadcastDom (h.hval v).rootDomain = true
    · simp [htv, hbc]
    · simp [htv, hbc]
  · intro hbc
    unfold addOutputM
    rw [if_pos hmem]
    simp [htv, hbc]

/-- With respect_compute_at set, a single TensorView output makes the
next-list the stable sort of the inputs under the compute-at key. -/
theorem nextStmt_expr_sorted (h : Heap) (f : Fusion) (e o : Nat) (ns : List StmtRef)
    (houts : (h.hexpr e).outputs = [o])
    (htv : (h.hval o).vty = ValTy.tensorView)
    (hnx : nextStmt h f true (StmtRef.expr e) = some ns) :
    ns = stableSortByKey (caKey h o) ((h.hexpr e).inputs.map StmtRef.val) := by
  have hin := nextStmt_expr_inset h f true e ns hnx
  simp only [nextStmt, nextExpr, if_pos hin, houts, if_pos htv] at hnx
  exact (Option.some.inj hnx).symm

/-- Claim C8.  With respect_compute_at, for an expression whose
single output is a TensorView: the next-list is a permutation of the
inputs; an input TensorView computed at the output at a smaller
(outer) position is visited before one computed at a larger (inner)
position; inputs not computed at the output keep their relative
order. -/
theorem claim_C8 (h : Heap) (f : Fusion) (e o : Nat) (ns : List StmtRef)
    (houts : (h.hexpr e).outputs = [o])
    (htv : (h.hval o).vty = ValTy.tensorView)
    (hnx : nextStmt h f true (StmtRef.expr e) = some ns) :
    (∀ t, t ∈ ns ↔ t ∈ (h.hexpr e).inputs.map StmtRef.val) ∧
    (∀ v1 v2 : Nat,
      (h.hval v1).vty = ValTy.tensorView → (h.hval v1).computeAtView = some o →
      (h.hval v2).vty = ValTy.tensorView → (h.hval v2).computeAtView = some o →
      (h.hval v1).relComputeAtAxis < (h.hval v2).relComputeAtAxis →
      ∀ (p q : Nat) (hp : p < ns.length) (hq : q < ns.length),
        ns.get ⟨p, hp⟩ = StmtRef.val v1 → ns.get ⟨q, hq⟩ = StmtRef.val v2 → p < q) ∧
    ns.filter (fun s => decide (caKey h o s = -1)) =
      ((h.hexpr e).inputs.map StmtRef.val).filter (fun s => decide (caKey h o s = -1)) := by
  have hns := nextStmt_expr_sorted h f e o ns houts htv hnx
  refine ⟨fun t => nextStmt_expr_mem h f true e ns hnx t, ?_, ?_⟩
  · intro v1 v2 htv1 hca1 htv2 hca2 hrel p q hp hq hpv hqv
    have hkey : caKey h o (StmtRef.val v1) < caKey h o (StmtRef.val v2) := by
      simp only [caKey]
      rw [if_pos ⟨htv1, hca1⟩, if_pos ⟨htv2, hca2⟩]
      exact_mod_cast hrel
    subst hns
    exact stableSortByKey_lt (caKey h o) _ _ _ hkey p q hp hq hpv hqv
  · subst hns
    exact stableSortByKey_filter_eq (caKey h o) _ (-1)

/-- Claim C10.  inputsOf is a checked failure exactly when the Val is
not a registered output; on success it returns exactly the Vals
reachable backward from it that have no origin expression. -/
theorem claim_C10 (h : Heap) (f : Fusion) (v : Nat) (fuel : Nat) :
    (v ∉ f.outputs → inputsOfModel h f v fuel = none) ∧
    (∀ res, inputsOfModel h f v fuel = some res →
      v ∈ f.outputs ∧
      ∀ w, w ∈ res ↔ (BackReach h f [v] (StmtRef.val w) ∧ f.origin w = none)) := by
  constructor
  · intro hout
    unfold inputsOfModel
    rw [if_neg hout]
  · intro res hres
    by_cases hout : v ∈ f.outputs
    · refine ⟨hout, ?_⟩
      unfold inputsOfModel at hres
      rw [if_pos hout] at hres
      cases hord : traverseFromModel (nextStmt h f false) [StmtRef.val v] fuel with
      | none => rw [hord] at hres; exact Option.noConfusion hres
      | some ord =>
        rw [hord] at hres
        simp only [Option.map] at hres
        have hresEq := Option.some.inj hres
        obtain ⟨hsub, hok, hsnd, hcmp⟩ := traverseFrom_spec _ _ _ _ hord
        intro w
        constructor
        · intro hw
          rw [← hresEq] at hw
          obtain ⟨s, hs, hsw⟩ := List.mem_filterMap.mp hw
          cases s with
          | expr e2 => exact absurd hsw (by simp [inputCollect])
          | val u =>
            simp only [inputCollect] at hsw
            by_cases horig : f.origin u = none
            · rw [if_pos horig] at hsw
              have huw : u = w := Option.some.inj hsw
              subst huw
              have hreach := hsnd _ hs
              have hbr := reach_to_backReach h f false [v] _ (by simpa using hreach)
              exact ⟨hbr, horig⟩
            · rw [if_neg horig] at hsw
              exact Option.noConfusion hsw
        · rintro ⟨hbr, horig⟩
          have hmem : StmtRef.val w ∈ ord := by
            refine backReach_mem h f false [v] ord ?_ hok _ hbr
            intro u hu
            rw [List.mem_singleton] at hu
            subst hu
            exact hsub _ (List.mem_singleton.mpr rfl)
          rw [← hresEq]
          refine List.mem_filterMap.mpr ⟨StmtRef.val w, hmem, ?_⟩
          simp only [inputCollect]
          rw [if_pos horig]
    · unfold inputsOfModel at hres
      rw [if_neg hout] at hres
      exact Option.noConfusion hres

/-- Successful declaration of an appended Val list splits into the
two successful halves. -/
theorem declsOf_append (h : Heap) (l1 l2 : List Nat) (r : List KernelParam)
    (hr : declsOf h (l1 ++ l2) = some r) :
    ∃ r1 r2, declsOf h l1 = some r1 ∧ declsOf h l2 = some r2 ∧ r = r1 ++ r2 := by
  induction l1 generalizing r with
  | nil =>
    exact ⟨[], r, rfl, hr, rfl⟩
  | cons a l1 ih =>
    rw [List.cons_append] at hr
    have hr2 : (match declOf h a, declsOf h (l1 ++ l2) with
        | some d, some ds => some (d :: ds)
        | _, _ => none) = some r := hr
    cases ha : declOf h a with
    | none => simp only [ha] at hr2; exact Option.noConfusion hr2
    | some d =>
      cases hrest : declsOf h (l1 ++ l2) with
      | none => simp only [ha, hrest] at hr2; exact Option.noConfusion hr2
      | some ds =>
        simp only [ha, hrest] at hr2
        obtain ⟨r1, r2, h1, h2, h3⟩ := ih ds hrest
        refine ⟨d :: r1, r2, ?_, h2, ?_⟩
        · have heq : declsOf h (a :: l1) = (match declOf h a, declsOf h l1 with
              | some d2, some ds2 => some (d2 :: ds2)
              | _, _ => none) := rfl
          rw [heq]
          simp only [ha, h1]
        · rw [← Option.some.inj hr2, h3]
          rfl

/-- Claim C9.  The kernel-header parameter list of a successful
printHeader run is: the declarations of the registered inputs in
input-list order, then those of the registered outputs in output-list
order, then the RNG seed and offset parameters exactly when some
expression reachable from the outputs is a RandLike unary op, then
the workspace and synchronization-flag pointers exactly when some
such expression produces a TensorView with a grid reduction. -/
theorem claim_C9 (h : Heap) (f : Fusion) (fuel : Nat) (ps : List KernelParam)
    (rank : StmtRef → Nat) (hwf : WF h f) (hrk : RankOk h f rank)
    (hrun : printHeaderParams h f fuel = some ps) :
    ∃ (ins outs : List KernelParam) (brng bgrid : Bool),
      declsOf h f.inputs = some ins ∧
      declsOf h f.outputs = some outs ∧
      (brng = true ↔ ∃ e, BackReach h f f.outputs (StmtRef.expr e) ∧ isRandLike h e = true) ∧
      (bgrid = true ↔
        ∃ e, BackReach h f f.outputs (StmtRef.expr e) ∧ outHasGridReduction h e = true) ∧
      ps = ins ++ outs
        ++ (if brng then [KernelParam.rngSeed, KernelParam.rngOffset] else [])
        ++ (if bgrid then [KernelParam.workBuf, KernelParam.syncFlags] else []) := by
  unfold printHeaderParams at hrun
  cases hds : declsOf h (f.inputs ++ f.outputs) with
  | none => rw [hds] at hrun; exact Option.noConfusion hrun
  | some ds =>
    simp only [hds] at hrun
    cases hrng : hasRNGModel h f fuel with
    | none => simp only [hrng] at hrun; exact Option.noConfusion hrun
    | some brng =>
      cases hgrid : hasGridReductionModel h f fuel with
      | none => simp only [hrng, hgrid] at hrun; exact Option.noConfusion hrun
      | some bgrid =>
        simp only [hrng, hgrid] at hrun
        obtain ⟨ins, outs, hins, houts2, hdseq⟩ := declsOf_append h f.inputs f.outputs ds hds
        unfold hasRNGModel at hrng
        cases hes : exprsModel h f true false fuel with
        | none => rw [hes] at hrng; exact Option.noConfusion hrng
        | some es =>
          rw [hes] at hrng
          simp only [Option.map] at hrng
          have hbrng : es.any (isRandLike h) = brng := Option.some.inj hrng
          unfold hasGridReductionModel at hgrid
          rw [hes] at hgrid
          simp only [Option.map] at hgrid
          have hbgrid : es.any (outHasGridReduction h) = bgrid := Option.some.inj hgrid
          have hchar := exprsTrue_mem_iff h f false fuel es rank hwf hrk hes
          refine ⟨ins, outs, brng, bgrid, hins, houts2, ?_, ?_, ?_⟩
          · rw [← hbrng, List.any_eq_true]
            constructor
            · rintro ⟨e, he, hr⟩
              exact ⟨e, (hchar e).mp he, hr⟩
            · rintro ⟨e, hbr, hr⟩
              exact ⟨e, (hchar e).mpr hbr, hr⟩
          · rw [← hbgrid, List.any_eq_true]
            constructor
            · rintro ⟨e, he, hr⟩
              exact ⟨e, (hchar e).mp he, hr⟩
            · rintro ⟨e, hbr, hr⟩
              exact ⟨e, (hchar e).mpr hbr, hr⟩
          · rw [← Option.some.inj hrun, hdseq]

/- ----------------------------------------------------------------
   Facts about registerExpr and removeExpr.
   ---------------------------------------------------------------- -/

/-- Explicit form of a successful removeExpr. -/
theorem removeExprM_def (h : Heap) (f : Fusion) (e : Nat) (hmem : e ∈ f.exprSet) :
    removeExprM h f e = some
      { valSet := f.valSet
        valDeque := f.valDeque
        exprSet := f.exprSet.erase e
        origin := fun w =>
          if w ∈ (h.hexpr e).outputs ∧ f.origin w = some e then none else f.origin w
        uses := fun w =>
          if w ∈ (h.hexpr e).inputs then (f.uses w).erase e else f.uses w
        inputs := f.inputs
        outputs := f.outputs } := by
  unfold removeExprM eraseOriginFor eraseUsesFor
  rw [if_pos hmem]

/-- Full description of the input-registration loop. -/
theorem registerInputs_spec (f : Fusion) (e : Nat) (l : List Nat)
    (hmem : ∀ inp ∈ l, inp ∈ f.valSet) :
    ∃ f1, registerInputs f e l = some f1 ∧
      f1.valSet = f.valSet ∧ f1.valDeque = f.valDeque ∧ f1.exprSet = f.exprSet ∧
      (∀ w, f1.origin w = f.origin w) ∧
      f1.inputs = f.inputs ∧ f1.outputs = f.outputs ∧
      (∀ w e2, e2 ∈ f1.uses w ↔ (e2 ∈ f.uses w ∨ (e2 = e ∧ w ∈ l))) ∧
      (∀ w, f1.uses w = f.uses w ∨ (f1.uses w = f.uses w ++ [e] ∧ e ∉ f.uses w)) := by
  induction l generalizing f with
  | nil =>
    refine ⟨f, rfl, rfl, rfl, rfl, fun w => rfl, rfl, rfl, ?_, fun w => Or.inl rfl⟩
    intro w e2
    simp
  | cons inp rest ih =>
    have hstep : registerInputs f e (inp :: rest) =
        if inp ∈ f.valSet then registerInputs (addUse f e inp) e rest else none := rfl
    rw [hstep, if_pos (hmem inp (List.mem_cons_self inp rest))]
    have hmem2 : ∀ w ∈ rest, w ∈ (addUse f e inp).valSet := by
      intro w hw
      exact hmem w (List.mem_cons_of_mem _ hw)
    obtain ⟨f1, hrun, hv, hd, hx, ho, hi, hout, huse, hshape⟩ := ih (addUse f e inp) hmem2
    have haddmem : ∀ w e2, e2 ∈ (addUse f e inp).uses w ↔
        (e2 ∈ f.uses w ∨ (e2 = e ∧ w = inp)) := by
      intro w e2
      simp only [addUse]
      by_cases hw : w = inp
      · subst hw
        rw [if_pos rfl]
        by_cases he2 : e ∈ f.uses w
        · rw [if_pos he2]
          constructor
          · intro h2
            exact Or.inl h2
          · rintro (h2 | ⟨h2, _⟩)
            · exact h2
            · exact h2 ▸ he2
        · rw [if_neg he2]
          rw [List.mem_append, List.mem_singleton]
          constructor
          · rintro (h2 | h2)
            · exact Or.inl h2
            · exact Or.inr ⟨h2, rfl⟩
          · rintro (h2 | ⟨h2, _⟩)
            · exact Or.inl h2
            · exact Or.inr h2
      · rw [if_neg hw]
        constructor
        · intro h2
          exact Or.inl h2
        · rintro (h2 | ⟨_, h2⟩)
          · exact h2
          · exact absurd h2 hw
    have haddshape : ∀ w, (addUse f e inp).uses w = f.uses w ∨
        ((addUse f e inp).uses w = f.uses w ++ [e] ∧ e ∉ f.uses w) := by
      intro w
      simp only [addUse]
      by_cases hw : w = inp
      · subst hw
        rw [if_pos rfl]
        by_cases he2 : e ∈ f.uses w
        · rw [if_pos he2]
          exact Or.inl rfl
        · rw [if_neg he2]
          exact Or.inr ⟨rfl, he2⟩
      · rw [if_neg hw]
        exact Or.inl rfl
    refine ⟨f1, hrun, hv, hd, hx, ho, hi, hout, ?_, ?_⟩
    · intro w e2
      rw [huse w e2, haddmem w e2]
      constructor
      · rintro ((h2 | ⟨h2, h3⟩) | ⟨h2, h3⟩)
        · exact Or.inl h2
        · exact Or.inr ⟨h2, h3 ▸ List.mem_cons_self inp rest⟩
        · exact Or.inr ⟨h2, List.mem_cons_of_mem _ h3⟩
      · rintro (h2 | ⟨h2, h3⟩)
        · exact Or.inl (Or.inl h2)
        · rcases List.mem_cons.mp h3 with h3 | h3
          · exact Or.inl (Or.inr ⟨h2, h3⟩)
          · exact Or.inr ⟨h2, h3⟩
    · intro w
      rcases haddshape w with h3 | ⟨h3, hg3⟩
      · rcases hshape w with h2 | ⟨h2, hg2⟩
        · exact Or.inl (h2.trans h3)
        · rw [h3] at h2 hg2
          exact Or.inr ⟨h2, hg2⟩
      · rcases hshape w with h2 | ⟨h2, hg2⟩
        · rw [h3] at h2
          exact Or.inr ⟨h2, hg3⟩
        · exfalso
          rw [h3] at hg2
          exact hg2 (by simp)

/-- Pointwise facts about a successful removeExpr. -/
theorem removeExprM_facts (h : Heap) (f : Fusion) (e : Nat) (g : Fusion)
    (hmem : e ∈ f.exprSet) (hg : removeExprM h f e = some g) :
    g.valSet = f.valSet ∧ g.valDeque = f.valDeque ∧ g.inputs = f.inputs ∧
    g.outputs = f.outputs ∧ g.exprSet = f.exprSet.erase e ∧
    (∀ w, g.origin w =
      if w ∈ (h.hexpr e).outputs ∧ f.origin w = some e then none else f.origin w) ∧
    (∀ w, g.uses w =
      if w ∈ (h.hexpr e).inputs then (f.uses w).erase e else f.uses w) := by
  rw [removeExprM_def h f e hmem] at hg
  have hgeq := Option.some.inj hg
  subst hgeq
  exact ⟨rfl, rfl, rfl, rfl, rfl, fun w => rfl, fun w => rfl⟩

/-- Main induction over the output-registration loop of registerExpr:
success, output-origin installation and prior-expression removal. -/
theorem registerOutputs_main (h : Heap) (f0 : Fusion) (e : Nat) :
    ∀ (l : List Nat) (g : Fusion),
    g.valSet = f0.valSet →
    (∀ p ∈ g.exprSet, p ∈ f0.exprSet) →
    g.exprSet.Nodup →
    (∀ w ∈ f0.valSet, ∀ p, g.origin w = some p →
      p = e ∨ (p ∈ g.exprSet ∧ w ∈ (h.hexpr p).outputs)) →
    (∀ w ∈ f0.valSet, ∀ p, p ∈ g.uses w →
      p = e ∨ (p ∈ g.exprSet ∧ w ∈ (h.hexpr p).inputs)) →
    (∀ w ∈ f0.valSet, (g.uses w).Nodup) →
    (∀ out ∈ l, out ∈ f0.valSet) →
    l.Nodup →
    (∀ out ∈ l, g.origin out ≠ some e) →
    ∃ g2, registerOutputs h g e l = some g2 ∧
      g2.valSet = g.valSet ∧ g2.valDeque = g.valDeque ∧
      g2.inputs = g.inputs ∧ g2.outputs = g.outputs ∧
      (∀ p ∈ g2.exprSet, p ∈ g.exprSet) ∧ g2.exprSet.Nodup ∧
      (∀ w, g.origin w = some e → g2.origin w = some e) ∧
      (∀ out ∈ l, g2.origin out = some e) ∧
      (∀ w ∈ f0.valSet, ∀ p, g2.origin w = some p →
        p = e ∨ (p ∈ g2.exprSet ∧ w ∈ (h.hexpr p).outputs)) ∧
      (∀ w ∈ f0.valSet, ∀ p, p ∈ g2.uses w →
        p = e ∨ (p ∈ g2.exprSet ∧ w ∈ (h.hexpr p).inputs)) ∧
      (∀ w ∈ f0.valSet, (g2.uses w).Nodup) ∧
      (∀ w, e ∈ g.uses w → e ∈ g2.uses w) ∧
      (∀ out ∈ l, ∀ p, g.origin out = some p → p ≠ e → p ∉ g2.exprSet) := by
  intro l
  induction l with
  | nil =>
    intro g hval hsub hndE horig husesc husesn hl hlnd hne
    refine ⟨g, rfl, rfl, rfl, rfl, rfl, fun p hp => hp, hndE, fun w hw => hw, ?_,
      horig, husesc, husesn, fun w hw => hw, ?_⟩
    · intro out hout
      cases hout
    · intro out hout
      cases hout
  | cons out rest ih =>
    intro g hval hsub hndE horig husesc husesn hl hlnd hne
    obtain ⟨houtnin, hrestnd⟩ := List.nodup_cons.mp hlnd
    have houtval : out ∈ f0.valSet := hl out (List.mem_cons_self out rest)
    have houtg : out ∈ g.valSet := hval ▸ houtval
    have hstep : registerOutputs h g e (out :: rest) =
        (if out ∈ g.valSet then
          match g.origin out with
          | some prior =>
            match removeExprM h g prior with
            | none => none
            | some f1 => registerOutputs h (setOrigin f1 out e) e rest
          | none => registerOutputs h (setOrigin g out e) e rest
        else none) := rfl
    cases ho : g.origin out with
    | none =>
      -- simple branch: install the origin and recurse
      have hso : ∀ w, (setOrigin g out e).origin w =
          if w = out then some e else g.origin w := fun w => rfl
      have hfields : (setOrigin g out e).valSet = g.valSet ∧
          (setOrigin g out e).valDeque = g.valDeque ∧
          (setOrigin g out e).exprSet = g.exprSet ∧
          (∀ w, (setOrigin g out e).uses w = g.uses w) ∧
          (setOrigin g out e).inputs = g.inputs ∧
          (setOrigin g out e).outputs = g.outputs :=
        ⟨rfl, rfl, rfl, fun w => rfl, rfl, rfl⟩
      obtain ⟨hfv, hfd, hfx, hfu, hfi, hfo⟩ := hfields
      obtain ⟨g2, hrun, bv, bd, bi, bo, bsub, bnd, bpers, bouts, borig, busesc, busesn, buses_e, brem⟩ :=
        ih (setOrigin g out e)
          (by rw [hfv, hval])
          (by rw [hfx]; exact hsub)
          (by rw [hfx]; exact hndE)
          (by
            intro w hw p hp
            rw [hso] at hp
            by_cases hwo : w = out
            · rw [if_pos hwo] at hp
              exact Or.inl (Option.some.inj hp).symm
            · rw [if_neg hwo] at hp
              rcases horig w hw p hp with h1 | ⟨h1, h2⟩
              · exact Or.inl h1
              · exact Or.inr ⟨h1, h2⟩)
          (by
            intro w hw p hp
            rw [hfu] at hp
            rcases husesc w hw p hp with h1 | ⟨h1, h2⟩
            · exact Or.inl h1
            · exact Or.inr ⟨h1, h2⟩)
          (by intro w hw; rw [hfu]; exact husesn w hw)
          (fun o2 ho2 => hl o2 (List.mem_cons_of_mem _ ho2))
          hrestnd
          (by
            intro o2 ho2
            rw [hso]
            have : o2 ≠ out := fun hq => houtnin (hq ▸ ho2)
            rw [if_neg this]
            exact hne o2 (List.mem_cons_of_mem _ ho2))
      refine ⟨g2, ?_, ?_, ?_, ?_, ?_, ?_, bnd, ?_, ?_, borig, busesc, busesn, ?_, ?_⟩
      · rw [hstep, if_pos houtg]
        simp only [ho]
        exact hrun
      · rw [bv, hfv]
      · rw [bd, hfd]
      · rw [bi, hfi]
      · rw [bo, hfo]
      · intro p hp
        rw [hfx] at bsub
        exact bsub p hp
      · intro w hw
        refine bpers w ?_
        rw [hso]
        by_cases hwo : w = out
        · rw [if_pos hwo]
        · rw [if_neg hwo]
          exact hw
      · intro o2 ho2
        rcases List.mem_cons.mp ho2 with ho2 | ho2
        · subst ho2
          refine bpers o2 ?_
          rw [hso, if_pos rfl]
        · exact bouts o2 ho2
      · intro w hw
        refine buses_e w ?_
        rw [hfu]
        exact hw
      · intro o2 ho2 p hp hpe
        rcases List.mem_cons.mp ho2 with ho2 | ho2
        · subst ho2
          rw [ho] at hp
          exact Option.noConfusion hp
        · refine brem o2 ho2 p ?_ hpe
          rw [hso]
          have : o2 ≠ out := fun hq => houtnin (hq ▸ ho2)
          rw [if_neg this]
          exact hp
    | some prior =>
      have hpe : prior ≠ e := by
        intro hq
        exact hne out (List.mem_cons_self out rest) (hq ▸ ho)
      have hpmem : prior ∈ g.exprSet ∧ out ∈ (h.hexpr prior).outputs := by
        rcases horig out houtval prior ho with h1 | h1
        · exact absurd h1 hpe
        · exact h1
      obtain ⟨hgg, hggrun⟩ : ∃ gg, removeExprM h g prior = some gg := by
        rw [removeExprM_def h g prior hpmem.1]
        exact ⟨_, rfl⟩
      obtain ⟨ggv, ggd, ggi, ggo, ggx, ggorig, gguses⟩ :=
        removeExprM_facts h g prior hgg hpmem.1 hggrun
      have hso : ∀ w, (setOrigin hgg out e).origin w =
          if w = out then some e else hgg.origin w := fun w => rfl
      have hfu : ∀ w, (setOrigin hgg out e).uses w = hgg.uses w := fun w => rfl
      -- invariants for the recursive call
      obtain ⟨g2, hrun, bv, bd, bi, bo, bsub, bnd, bpers, bouts, borig, busesc, busesn, buses_e, brem⟩ :=
        ih (setOrigin hgg out e)
          (by show hgg.valSet = f0.valSet; rw [ggv, hval])
          (by
            intro p hp
            show p ∈ f0.exprSet
            have hp2 : p ∈ hgg.exprSet := hp
            rw [ggx] at hp2
            exact hsub p (List.erase_subset _ _ hp2))
          (by
            show hgg.exprSet.Nodup
            rw [ggx]
            exact List.Nodup.erase _ hndE)
          (by
            intro w hw p hp
            rw [hso] at hp
            by_cases hwo : w = out
            · rw [if_pos hwo] at hp
              exact Or.inl (Option.some.inj hp).symm
            · rw [if_neg hwo, ggorig] at hp
              by_cases hcond : w ∈ (h.hexpr prior).outputs ∧ g.origin w = some prior
              · rw [if_pos hcond] at hp
                exact Option.noConfusion hp
              · rw [if_neg hcond] at hp
                rcases horig w hw p hp with h1 | ⟨h1, h2⟩
                · exact Or.inl h1
                · have hppr : p ≠ prior := by
                    intro hq
                    subst hq
                    exact hcond ⟨h2, hp⟩
                  refine Or.inr ⟨?_, h2⟩
                  show p ∈ hgg.exprSet
                  rw [ggx]
                  exact (List.mem_erase_of_ne hppr).mpr h1)
          (by
            intro w hw p hp
            rw [hfu, gguses] at hp
            by_cases hcond : w ∈ (h.hexpr prior).inputs
            · rw [if_pos hcond] at hp
              have hp2 : p ∈ g.uses w := List.erase_subset _ _ hp
              rcases husesc w hw p hp2 with h1 | ⟨h1, h2⟩
              · exact Or.inl h1
              · have hppr : p ≠ prior := by
                  intro hq
                  subst hq
                  exact (List.Nodup.not_mem_erase (husesn w hw)) hp
                refine Or.inr ⟨?_, h2⟩
                show p ∈ hgg.exprSet
                rw [ggx]
                exact (List.mem_erase_of_ne hppr).mpr h1
            · rw [if_neg hcond] at hp
              rcases husesc w hw p hp with h1 | ⟨h1, h2⟩
              · exact Or.inl h1
              · have hppr : p ≠ prior := by
                  intro hq
                  subst hq
                  exact hcond h2
                refine Or.inr ⟨?_, h2⟩
                show p ∈ hgg.exprSet
                rw [ggx]
                exact (List.mem_erase_of_ne hppr).mpr h1)
          (by
            intro w hw
            rw [hfu, gguses]
            by_cases hcond : w ∈ (h.hexpr prior).inputs
            · rw [if_pos hcond]
              exact List.Nodup.erase _ (husesn w hw)
            · rw [if_neg hcond]
              exact husesn w hw)
          (fun o2 ho2 => hl o2 (List.mem_cons_of_mem _ ho2))
          hrestnd
          (by
            intro o2 ho2
            rw [hso]
            have hne2 : o2 ≠ out := fun hq => houtnin (hq ▸ ho2)
            rw [if_neg hne2, ggorig]
            by_cases hcond : o2 ∈ (h.hexpr prior).outputs ∧ g.origin o2 = some prior
            · rw [if_pos hcond]
              exact fun hq => Option.noConfusion hq
            · rw [if_neg hcond]
              exact hne o2 (List.mem_cons_of_mem _ ho2))
      have hpriorout : prior ∉ g2.exprSet := by
        intro hq
        have hq2 : prior ∈ (setOrigin hgg out e).exprSet := bsub prior hq
        have hq3 : prior ∈ hgg.exprSet := hq2
        rw [ggx] at hq3
        exact List.Nodup.not_mem_erase hndE hq3
      refine ⟨g2, ?_, ?_, ?_, ?_, ?_, ?_, bnd, ?_, ?_, borig, busesc, busesn, ?_, ?_⟩
      · rw [hstep, if_pos houtg]
        simp only [ho, hggrun]
        exact hrun
      · rw [bv]; show hgg.valSet = g.valSet; rw [ggv]
      · rw [bd]; show hgg.valDeque = g.valDeque; rw [ggd]
      · rw [bi]; show hgg.inputs = g.inputs; rw [ggi]
      · rw [bo]; show hgg.outputs = g.outputs; rw [ggo]
      · intro p hp
        have hp2 : p ∈ hgg.exprSet := bsub p hp
        rw [ggx] at hp2
        exact List.erase_subset _ _ hp2
      · intro w hw
        refine bpers w ?_
        rw [hso]
        by_cases hwo : w = out
        · rw [if_pos hwo]
        · rw [if_neg hwo, ggorig]
          have hcond : ¬(w ∈ (h.hexpr prior).outputs ∧ g.origin w = some prior) := by
            rintro ⟨_, hq⟩
            rw [hw] at hq
            exact hpe (Option.some.inj hq).symm
          rw [if_neg hcond]
          exact hw
      · intro o2 ho2
        rcases List.mem_cons.mp ho2 with ho2 | ho2
        · subst ho2
          refine bpers o2 ?_
          rw [hso, if_pos rfl]
        · exact bouts o2 ho2
      · intro w hw
        refine buses_e w ?_
        rw [hfu, gguses]
        by_cases hcond : w ∈ (h.hexpr prior).inputs
        · rw [if_pos hcond]
          exact (List.mem_erase_of_ne (Ne.symm hpe)).mpr hw
        · rw [if_neg hcond]
          exact hw
      · intro o2 ho2 p hp hpe2
        rcases List.mem_cons.mp ho2 with ho2 | ho2
        · subst ho2
          rw [ho] at hp
          have : p = prior := (Option.some.inj hp).symm
          subst this
          exact hpriorout
        · by_cases hcond : o2 ∈ (h.hexpr prior).outputs ∧ g.origin o2 = some prior
          · have : p = prior := by
              rw [hp] at hcond
              exact Option.some.inj hcond.2
            subst this
            exact hpriorout
          · refine brem o2 ho2 p ?_ hpe2
            rw [hso]
            have hne2 : o2 ≠ out := fun hq => houtnin (hq ▸ ho2)
            rw [if_neg hne2, ggorig, if_neg hcond]
            exact hp

/-- Claim C3.  Registering a fresh expression succeeds (redefinition
of an output is not an error); afterwards every input lists the
expression in its uses-set and every output has it as origin; any
prior origin expression of an output is removed from the fusion
together with all of its origin and uses entries. -/
theorem claim_C3 (h : Heap) (f : Fusion) (e : Nat)
    (hwf : WF h f) (henotin : e ∉ f.exprSet)
    (hins : ∀ v ∈ (h.hexpr e).inputs, v ∈ f.valSet)
    (houts : ∀ v ∈ (h.hexpr e).outputs, v ∈ f.valSet)
    (hond : (h.hexpr e).outputs.Nodup) :
    ∃ f2, registerExprM h f e = some f2 ∧
      e ∈ f2.exprSet ∧
      (∀ inp ∈ (h.hexpr e).inputs, e ∈ f2.uses inp) ∧
      (∀ out ∈ (h.hexpr e).outputs, f2.origin out = some e) ∧
      (∀ out ∈ (h.hexpr e).outputs, ∀ prior, f.origin out = some prior →
        prior ∉ f2.exprSet ∧ (∀ w ∈ f.valSet, f2.origin w ≠ some prior) ∧
        (∀ w ∈ f.valSet, prior ∉ f2.uses w)) := by
  obtain ⟨f1, hrun1, hv, hd, hx, ho, hi, hout, huse, hshape⟩ :=
    registerInputs_spec f e (h.hexpr e).inputs hins
  obtain ⟨g2, hrun2, bv, bd, bi, bo, bsub, bnd, bpers, bouts, borig, busesc, busesn, buses_e, brem⟩ :=
    registerOutputs_main h f e (h.hexpr e).outputs f1
      (by rw [hv])
      (by rw [hx]; exact fun p hp => hp)
      (by rw [hx]; exact hwf.exprSet_nodup)
      (by
        intro w hw p hp
        rw [ho] at hp
        refine Or.inr ⟨?_, ?_⟩
        · rw [hx]
          exact hwf.origin_mem w hw p (Option.mem_def.mpr hp)
        · exact hwf.origin_outputs w hw p (Option.mem_def.mpr hp))
      (by
        intro w hw p hp
        rcases (huse w p).mp hp with h1 | ⟨h1, h2⟩
        · refine Or.inr ⟨?_, ?_⟩
          · rw [hx]
            exact hwf.uses_mem w hw p h1
          · exact hwf.uses_inputs w hw p h1
        · exact Or.inl h1)
      (by
        intro w hw
        rcases hshape w with h1 | ⟨h1, h2⟩
        · rw [h1]
          exact hwf.uses_nodup w hw
        · rw [h1, List.nodup_append]
          refine ⟨hwf.uses_nodup w hw, List.nodup_singleton e, ?_⟩
          intro a ha hae
          rw [List.mem_singleton] at hae
          exact h2 (hae ▸ ha))
      houts
      hond
      (by
        intro out hout2
        rw [ho]
        intro hq
        exact henotin (hwf.origin_mem out (houts out hout2) e (Option.mem_def.mpr hq)))
  have hfinal : registerExprM h f e = some { g2 with exprSet := e :: g2.exprSet } := by
    unfold registerExprM
    rw [if_neg henotin]
    simp only [hrun1, hrun2]
  refine ⟨_, hfinal, ?_, ?_, ?_, ?_⟩
  · show e ∈ e :: g2.exprSet
    exact List.mem_cons_self e _
  · intro inp hinp
    show e ∈ g2.uses inp
    refine buses_e inp ?_
    exact (huse inp e).mpr (Or.inr ⟨rfl, hinp⟩)
  · intro out hout2
    show g2.origin out = some e
    exact bouts out hout2
  · intro out hout2 prior hprior
    have hpe : prior ≠ e := by
      intro hq
      subst hq
      exact henotin (hwf.origin_mem out (houts out hout2) prior (Option.mem_def.mpr hprior))
    have hprior1 : f1.origin out = some prior := by
      rw [ho]
      exact hprior
    have hnotin2 : prior ∉ g2.exprSet := brem out hout2 prior hprior1 hpe
    refine ⟨?_, ?_, ?_⟩
    · show prior ∉ e :: g2.exprSet
      intro hq
      rcases List.mem_cons.mp hq with hq | hq
      · exact hpe hq
      · exact hnotin2 hq
    · intro w hw
      show g2.origin w ≠ some prior
      intro hq
      rcases borig w hw prior hq with h1 | ⟨h1, _⟩
      · exact hpe h1
      · exact hnotin2 h1
    · intro w hw
      show prior ∉ g2.uses w
      intro hq
      rcases busesc w hw prior hq with h1 | ⟨h1, _⟩
      · exact hpe h1
      · exact hnotin2 h1

/- ----------------------------------------------------------------
   Facts about removeVal.
   ---------------------------------------------------------------- -/

/-- Folding removeExpr over a duplicate-free list of registered
expressions succeeds and removes exactly those expressions. -/
theorem foldl_removeExprM (h : Heap) :
    ∀ (L : List Nat) (g : Fusion),
    (∀ p ∈ L, p ∈ g.exprSet) → L.Nodup → g.exprSet.Nodup →
    ∃ g2, L.foldlM (fun acc e2 => removeExprM h acc e2) g = some g2 ∧
      g2.valSet = g.valSet ∧ g2.valDeque = g.valDeque ∧
      (∀ p ∈ g2.exprSet, p ∈ g.exprSet) ∧ g2.exprSet.Nodup ∧
      (∀ p ∈ L, p ∉ g2.exprSet) ∧
      (∀ p, p ∉ g.exprSet → p ∉ g2.exprSet) := by
  intro L
  induction L with
  | nil =>
    intro g hmem hnd hgnd
    exact ⟨g, rfl, rfl, rfl, fun p hp => hp, hgnd, fun p hp => absurd hp (by simp),
      fun p hp => hp⟩
  | cons a rest ih =>
    intro g hmem hnd hgnd
    obtain ⟨hanin, hrestnd⟩ := List.nodup_cons.mp hnd
    have hag : a ∈ g.exprSet := hmem a (List.mem_cons_self a rest)
    obtain ⟨ga, hga⟩ : ∃ ga, removeExprM h g a = some ga := by
      rw [removeExprM_def h g a hag]
      exact ⟨_, rfl⟩
    obtain ⟨gav, gad, gai, gao, gax, gaorig, gauses⟩ := removeExprM_facts h g a ga hag hga
    obtain ⟨g2, hrun, bv, bd, bsub, bnd, brm, babs⟩ :=
      ih ga
        (by
          intro p hp
          rw [gax]
          have hpne : p ≠ a := fun hq => hanin (hq ▸ hp)
          exact (List.mem_erase_of_ne hpne).mpr (hmem p (List.mem_cons_of_mem _ hp)))
        hrestnd
        (by rw [gax]; exact List.Nodup.erase _ hgnd)
    refine ⟨g2, ?_, ?_, ?_, ?_, bnd, ?_, ?_⟩
    · rw [List.foldlM_cons, hga]
      simpa using hrun
    · rw [bv, gav]
    · rw [bd, gad]
    · intro p hp
      have hp2 := bsub p hp
      rw [gax] at hp2
      exact List.erase_subset _ _ hp2
    · intro p hp
      rcases List.mem_cons.mp hp with hp | hp
      · subst hp
        refine babs p ?_
        rw [gax]
        exact List.Nodup.not_mem_erase hgnd
      · exact brm p hp
    · intro p hp
      refine babs p ?_
      rw [gax]
      intro hq
      exact hp (List.erase_subset _ _ hq)

/-- Claim C7 is false as stated: removeVal(1) is a checked failure
although Val 1 is neither a registered input nor a registered output
(and has no origin and no uses), because the input check compares
with the structural sameAs predicate, which identifies Val 1 with the
registered input Val 0. -/
theorem claim_C7_counterexample :
    removeValM exH7 exF7 1 = none ∧ (1 : Nat) ∈ exF7.valSet ∧
    (1 : Nat) ∉ exF7.inputs ∧ (1 : Nat) ∉ exF7.outputs ∧
    exF7.origin 1 = none ∧ exF7.uses 1 = [] :=
  ⟨rfl, by decide, by decide, by decide, rfl, rfl⟩

/-- Claim C7 as amended.  removeVal is a checked failure when the Val
sameAs-matches a registered input or output (in particular when it is
one, sameAs being reflexive).  When no registered input or output
sameAs-matches it, removeVal succeeds, removes its producing
expression first and every expression that consumes it, and erases it
from the node set and the deterministic value sequence. -/
theorem claim_C7_amended (h : Heap) (f : Fusion) (v : Nat)
    (hwf : WF h f) (hmem : v ∈ f.valSet)
    (hfailin : ∀ inp ∈ f.inputs, h.sameAs v inp = false)
    (hfailout : ∀ out ∈ f.outputs, h.sameAs v out = false) :
    (∀ v2 ∈ f.valSet, (f.inputs.any (fun inp => h.sameAs v2 inp) = true ∨
        f.outputs.any (fun out => h.sameAs v2 out) = true) →
      removeValM h f v2 = none) ∧
    ∃ f2, removeValM h f v = some f2 ∧
      (∀ e, f.origin v = some e → e ∉ f2.exprSet) ∧
      (∀ e ∈ f.uses v, e ∉ f2.exprSet) ∧
      v ∉ f2.valSet ∧ v ∉ f2.valDeque := by
  constructor
  · intro v2 hv2 hany
    unfold removeValM
    rw [if_pos hv2]
    rcases hany with hany | hany
    · rw [if_pos hany]
    · by_cases hin : f.inputs.any (fun inp => h.sameAs v2 inp) = true
      · rw [if_pos hin]
      · rw [if_neg hin, if_pos hany]
  · have hanyin : ¬(f.inputs.any (fun inp => h.sameAs v inp) = true) := by
      rw [List.any_eq_true]
      rintro ⟨inp, hinp, hq⟩
      rw [hfailin inp hinp] at hq
      exact Bool.noConfusion hq
    have hanyout : ¬(f.outputs.any (fun out => h.sameAs v out) = true) := by
      rw [List.any_eq_true]
      rintro ⟨out, hout, hq⟩
      rw [hfailout out hout] at hq
      exact Bool.noConfusion hq
    -- the origin-removal step
    have hstep : ∃ f1, (match f.origin v with
        | some e => removeExprM h f e
        | none => some f) = some f1 ∧
        f1.valSet = f.valSet ∧ f1.valDeque = f.valDeque ∧
        (∀ p ∈ f1.exprSet, p ∈ f.exprSet) ∧ f1.exprSet.Nodup ∧
        (∀ e, f.origin v = some e → e ∉ f1.exprSet) ∧
        (∀ p ∈ f1.uses v, p ∈ f1.exprSet) ∧ (f1.uses v).Nodup ∧
        (∀ p ∈ f.uses v, p ∈ f1.uses v ∨ p ∉ f1.exprSet) := by
      cases horig : f.origin v with
      | none =>
        refine ⟨f, rfl, rfl, rfl, fun p hp => hp, hwf.exprSet_nodup, ?_, ?_, ?_, ?_⟩
        · intro e he
          exact absurd he (by simp)
        · intro p hp
          exact hwf.uses_mem v hmem p hp
        · exact hwf.uses_nodup v hmem
        · intro p hp
          exact Or.inl hp
      | some e0 =>
        have he0 : e0 ∈ f.exprSet := hwf.origin_mem v hmem e0 (Option.mem_def.mpr horig)
        obtain ⟨gg, hgg⟩ : ∃ gg, removeExprM h f e0 = some gg := by
          rw [removeExprM_def h f e0 he0]
          exact ⟨_, rfl⟩
        obtain ⟨ggv, ggd, ggi, ggo, ggx, ggorig, gguses⟩ := removeExprM_facts h f e0 gg he0 hgg
        refine ⟨gg, hgg, ggv, ggd, ?_, ?_, ?_, ?_, ?_, ?_⟩
        · intro p hp
          rw [ggx] at hp
          exact List.erase_subset _ _ hp
        · rw [ggx]
          exact List.Nodup.erase _ hwf.exprSet_nodup
        · intro e he
          have heq : e = e0 := (Option.some.inj he).symm
          subst heq
          rw [ggx]
          exact List.Nodup.not_mem_erase hwf.exprSet_nodup
        · intro p hp
          rw [gguses] at hp
          rw [ggx]
          by_cases hcond : v ∈ (h.hexpr e0).inputs
          · rw [if_pos hcond] at hp
            have hp2 : p ∈ f.uses v := List.erase_subset _ _ hp
            have hpne : p ≠ e0 := by
              intro hq
              subst hq
              exact List.Nodup.not_mem_erase (hwf.uses_nodup v hmem) hp
            exact (List.mem_erase_of_ne hpne).mpr (hwf.uses_mem v hmem p hp2)
          · rw [if_neg hcond] at hp
            have hpne : p ≠ e0 := fun hq => hcond (hq ▸ hwf.uses_inputs v hmem p hp)
            exact (List.mem_erase_of_ne hpne).mpr (hwf.uses_mem v hmem p hp)
        · rw [gguses]
          by_cases hcond : v ∈ (h.hexpr e0).inputs
          · rw [if_pos hcond]
            exact List.Nodup.erase _ (hwf.uses_nodup v hmem)
          · rw [if_neg hcond]
            exact hwf.uses_nodup v hmem
        · intro p hp
          rw [gguses]
          by_cases hcond : v ∈ (h.hexpr e0).inputs
          · rw [if_pos hcond]
            by_cases hpe0 : p = e0
            · subst hpe0
              refine Or.inr ?_
              rw [ggx]
              exact List.Nodup.not_mem_erase hwf.exprSet_nodup
            · exact Or.inl ((List.mem_erase_of_ne hpe0).mpr hp)
          · rw [if_neg hcond]
            exact Or.inl hp
    obtain ⟨f1, hf1run, f1v, f1d, f1sub, f1nd, f1orig, f1uses, f1usesnd, f1cov⟩ := hstep
    obtain ⟨g2, hg2run, g2v, g2d, g2sub, g2nd, g2rm, g2abs⟩ :=
      foldl_removeExprM h (f1.uses v) f1 f1uses f1usesnd f1nd
    refine ⟨{ g2 with valSet := g2.valSet.erase v, valDeque := g2.valDeque.erase v },
      ?_, ?_, ?_, ?_, ?_⟩
    · unfold removeValM
      rw [if_pos hmem, if_neg hanyin, if_neg hanyout]
      simp only [hf1run, hg2run]
    · intro e he
      show e ∉ g2.exprSet
      exact g2abs e (f1orig e he)
    · intro e he
      show e ∉ g2.exprSet
      rcases f1cov e he with h1 | h1
      · exact g2rm e h1
      · exact g2abs e h1
    · show v ∉ g2.valSet.erase v
      rw [g2v, f1v]
      exact List.Nodup.not_mem_erase hwf.valSet_nodup
    · show v ∉ g2.valDeque.erase v
      rw [g2d, f1d]
      exact List.Nodup.not_mem_erase hwf.valDeque_nodup

/- ----------------------------------------------------------------
   The traversal commutes with an injective renaming of statements.
   ---------------------------------------------------------------- -/

/-- Push a filterMap through a final Option.map. -/
theorem filterMap_option_map {α β γ : Type} (p : α → Option β) (u : β → γ)
    (l : List α) :
    List.filterMap (fun a => (p a).map u) l = (List.filterMap p l).map u := by
  induction l with
  | nil => rfl
  | cons a rest ih =>
    cases hp : p a with
    | none => simp [List.filterMap_cons, hp, ih]
    | some b => simp [List.filterMap_cons, hp, ih]

theorem visit_map (nx1 nx2 : StmtRef → Option (List StmtRef)) (g : StmtRef → StmtRef)
    (hg : Function.Injective g)
    (hnx : ∀ s, nx2 (g s) = (nx1 s).map (List.map g)) :
    ∀ (fuel : Nat) (ss : List StmtRef) (st : TravState),
      visit nx2 fuel (ss.map g) (mapState g st) = (visit nx1 fuel ss st).map (mapState g) := by
  intro fuel
  induction fuel with
  | zero =>
    intro ss st
    cases ss with
    | nil => rfl
    | cons s rest => rfl
  | succ fuel ih =>
    intro ss st
    cases ss with
    | nil => rfl
    | cons s rest =>
      rw [List.map_cons, visit_cons, visit_cons, hnx s]
      cases hns : nx1 s with
      | none => rfl
      | some ns =>
        simp only [Option.map]
        have hfilter : (ns.map g).filter
            (fun t => decide (t ∉ (mapState g st).visited)) =
            (ns.filter (fun t => decide (t ∉ st.visited))).map g := by
          rw [List.filter_map]
          congr 1
          apply List.filter_congr
          intro t ht
          simp only [Function.comp]
          congr 1
          · simp only [mapState]
            rw [eq_iff_iff]
            constructor
            · intro hq hq2
              exact hq (List.mem_map_of_mem g hq2)
            · intro hq hq2
              obtain ⟨t2, ht2, ht2e⟩ := List.mem_map.mp hq2
              exact hq (hg ht2e ▸ ht2)
        rw [hfilter, ih]
        cases hv1 : visit nx1 fuel (ns.filter (fun t => decide (t ∉ st.visited))) st with
        | none => rfl
        | some st1 =>
          simp only [Option.map]
          have hstate : (mapState g { visited := s :: st1.visited, order := st1.order ++ [s] }) =
              { visited := g s :: (mapState g st1).visited,
                order := (mapState g st1).order ++ [g s] } := by
            simp [mapState]
          rw [← hstate, ih]
          cases visit nx1 fuel rest { visited := s :: st1.visited, order := st1.order ++ [s] } with
          | none => rfl
          | some st2 => rfl

theorem traverseFrom_map (nx1 nx2 : StmtRef → Option (List StmtRef))
    (g : StmtRef → StmtRef) (hg : Function.Injective g)
    (hnx : ∀ s, nx2 (g s) = (nx1 s).map (List.map g))
    (srcs : List StmtRef) (fuel : Nat) :
    traverseFromModel nx2 (srcs.map g) fuel =
      (traverseFromModel nx1 srcs fuel).map (List.map g) := by
  unfold traverseFromModel
  have h1 : visit nx2 fuel (srcs.map g) { visited := [], order := [] } =
      (visit nx1 fuel srcs { visited := [], order := [] }).map (mapState g) := by
    have h2 := visit_map nx1 nx2 g hg hnx fuel srcs { visited := [], order := [] }
    have hinit : (mapState g { visited := [], order := [] }) =
        { visited := ([] : List StmtRef), order := ([] : List StmtRef) } := rfl
    rw [hinit] at h2
    exact h2
  rw [h1]
  cases visit nx1 fuel srcs { visited := [], order := [] } with
  | none => rfl
  | some st =>
    simp [mapState]

/-- The stable sort commutes with a key-preserving renaming. -/
theorem stableSortByKey_map (key1 key2 : StmtRef → Int) (g : StmtRef → StmtRef)
    (l : List StmtRef) (hkey : ∀ s ∈ l, key2 (g s) = key1 s) :
    stableSortByKey key2 (l.map g) = (stableSortByKey key1 l).map g := by
  unfold stableSortByKey
  rw [List.enum_map]
  have hiff : ∀ a ∈ l.enum, ∀ b ∈ l.enum,
      keyLE key1 a b ↔ keyLE key2 (Prod.map id g a) (Prod.map id g b) := by
    intro a ha b hb
    have hka : key2 (g a.2) = key1 a.2 := hkey a.2 (List.snd_mem_of_mem_enum ha)
    have hkb : key2 (g b.2) = key1 b.2 := hkey b.2 (List.snd_mem_of_mem_enum hb)
    simp only [keyLE, Prod.map_fst, Prod.map_snd, id_eq]
    rw [hka, hkb]
  have hcomm := List.map_insertionSort (keyLE key1) (keyLE key2) (Prod.map id g) l.enum hiff
  rw [← hcomm, List.map_map, List.map_map]
  congr 1

/-- The stable sort only inspects keys of list members. -/
theorem stableSortByKey_congr (key1 key2 : StmtRef → Int) (l : List StmtRef)
    (hkey : ∀ s ∈ l, key2 s = key1 s) :
    stableSortByKey key2 l = stableSortByKey key1 l := by
  have h1 := stableSortByKey_map key1 key2 id l (by simpa using hkey)
  simpa using h1

/- ----------------------------------------------------------------
   The cloning translation commutes with the whole query pipeline.
   ---------------------------------------------------------------- -/

theorem addm_injective (m : Nat) : Function.Injective (fun w : Nat => w + m) :=
  fun a b hq => Nat.add_right_cancel hq

theorem shiftStmt_injective (m : Nat) : Function.Injective (shiftStmt m) := by
  intro a b hq
  cases a with
  | val v =>
    cases b with
    | val w =>
      simp only [shiftStmt, StmtRef.val.injEq] at hq ⊢
      omega
    | expr w => simp [shiftStmt] at hq
  | expr v =>
    cases b with
    | val w => simp [shiftStmt] at hq
    | expr w =>
      simp only [shiftStmt, StmtRef.expr.injEq] at hq ⊢
      omega

theorem mem_map_addm (m : Nat) (l : List Nat) (v : Nat) :
    v + m ∈ l.map (fun w => w + m) ↔ v ∈ l :=
  List.mem_map_of_injective (addm_injective m)

theorem copyFusion_origin (m : Nat) (f : Fusion) (v : Nat) :
    (copyFusion m f).origin (v + m) = (f.origin v).map (fun e => e + m) := by
  show (if m ≤ v + m then (f.origin (v + m - m)).map (fun e => e + m) else none) = _
  rw [if_pos (Nat.le_add_left m v), Nat.add_sub_cancel]

theorem copyHeap_hval (m : Nat) (h : Heap) (v : Nat) :
    (copyHeap m h).hval (v + m) = shiftVal m (h.hval v) := by
  show (if v + m < m then h.hval (v + m) else shiftVal m (h.hval (v + m - m))) = _
  rw [if_neg (by omega), Nat.add_sub_cancel]

theorem copyHeap_hexpr (m : Nat) (h : Heap) (e : Nat) :
    (copyHeap m h).hexpr (e + m) = shiftExpr m (h.hexpr e) := by
  show (if e + m < m then h.hexpr (e + m) else shiftExpr m (h.hexpr (e + m - m))) = _
  rw [if_neg (by omega), Nat.add_sub_cancel]

theorem caKey_copy (m : Nat) (h : Heap) (o : Nat) :
    ∀ s, caKey (copyHeap m h) (o + m) (shiftStmt m s) = caKey h o s := by
  intro s
  cases s with
  | expr e => rfl
  | val v =>
    show caKey (copyHeap m h) (o + m) (StmtRef.val (v + m)) = caKey h o (StmtRef.val v)
    simp only [caKey, copyHeap_hval]
    have hvty : (shiftVal m (h.hval v)).vty = (h.hval v).vty := rfl
    have hca : (shiftVal m (h.hval v)).computeAtView =
        ((h.hval v).computeAtView).map (fun w => w + m) := rfl
    have hrel : (shiftVal m (h.hval v)).relComputeAtAxis = (h.hval v).relComputeAtAxis := rfl
    by_cases hcond : (h.hval v).vty = ValTy.tensorView ∧ (h.hval v).computeAtView = some o
    · rw [if_pos hcond, if_pos ?_, hrel]
      refine ⟨hvty ▸ hcond.1, ?_⟩
      rw [hca, hcond.2]
      rfl
    · rw [if_neg hcond, if_neg ?_]
      intro hq
      refine hcond ⟨hvty ▸ hq.1, ?_⟩
      have hq2 := hq.2
      rw [hca] at hq2
      obtain ⟨a, ha, hae⟩ := Option.map_eq_some'.mp hq2
      have : a = o := by omega
      rw [← this]
      exact ha

theorem nextStmt_copy (m : Nat) (h : Heap) (f : Fusion) (rca : Bool) :
    ∀ s, nextStmt (copyHeap m h) (copyFusion m f) rca (shiftStmt m s) =
      (nextStmt h f rca s).map (List.map (shiftStmt m)) := by
  intro s
  cases s with
  | val v =>
    show nextVal (copyFusion m f) (v + m) = (nextVal f v).map (List.map (shiftStmt m))
    unfold nextVal
    by_cases hv : v ∈ f.valSet
    · have hv2 : v + m ∈ (copyFusion m f).valSet := (mem_map_addm m f.valSet v).mpr hv
      rw [if_pos hv2, if_pos hv, copyFusion_origin]
      cases f.origin v with
      | none => rfl
      | some e => rfl
    · have hv2 : v + m ∉ (copyFusion m f).valSet := fun hq =>
        hv ((mem_map_addm m f.valSet v).mp hq)
      rw [if_neg hv2, if_neg hv]
      rfl
  | expr e =>
    show nextExpr (copyHeap m h) (copyFusion m f) rca (e + m) =
      (nextExpr h f rca e).map (List.map (shiftStmt m))
    unfold nextExpr
    by_cases he : e ∈ f.exprSet
    · have he2 : e + m ∈ (copyFusion m f).exprSet := (mem_map_addm m f.exprSet e).mpr he
      rw [if_pos he2, if_pos he, copyHeap_hexpr]
      have hins : ((shiftExpr m (h.hexpr e)).inputs).map StmtRef.val =
          (((h.hexpr e).inputs).map StmtRef.val).map (shiftStmt m) := by
        show (((h.hexpr e).inputs).map (fun w => w + m)).map StmtRef.val = _
        rw [List.map_map, List.map_map]
        rfl
      cases rca with
      | false =>
        simp only [Bool.false_eq_true, if_neg]
        rw [hins]
        rfl
      | true =>
        simp only [if_pos]
        have houts : (shiftExpr m (h.hexpr e)).outputs =
            ((h.hexpr e).outputs).map (fun w => w + m) := rfl
        rw [houts]
        cases hcase : (h.hexpr e).outputs with
        | nil => rfl
        | cons o rest =>
          cases rest with
          | cons o2 rest2 => rfl
          | nil =>
            show (if ((copyHeap m h).hval (o + m)).vty = ValTy.tensorView then
                some (stableSortByKey (caKey (copyHeap m h) (o + m))
                  (((shiftExpr m (h.hexpr e)).inputs).map StmtRef.val))
              else some (((shiftExpr m (h.hexpr e)).inputs).map StmtRef.val)) = _
            rw [copyHeap_hval]
            have hvty : (shiftVal m (h.hval o)).vty = (h.hval o).vty := rfl
            rw [hvty, hins]
            show _ = Option.map (List.map (shiftStmt m))
              (if (h.hval o).vty = ValTy.tensorView then
                some (stableSortByKey (caKey h o) (((h.hexpr e).inputs).map StmtRef.val))
              else some (((h.hexpr e).inputs).map StmtRef.val))
            by_cases htv : (h.hval o).vty = ValTy.tensorView
            · rw [if_pos htv, if_pos htv]
              rw [stableSortByKey_map (caKey h o) (caKey (copyHeap m h) (o + m))
                (shiftStmt m) _ (fun s _ => caKey_copy m h o s)]
              rfl
            · rw [if_neg htv, if_neg htv]
              rfl
    · have he2 : e + m ∉ (copyFusion m f).exprSet := fun hq =>
        he ((mem_map_addm m f.exprSet e).mp hq)
      rw [if_neg he2, if_neg he]
      rfl

theorem exprOf_shift (m : Nat) :
    ∀ s, exprOf (shiftStmt m s) = (exprOf s).map (fun e => e + m) := by
  intro s
  cases s with
  | val v => rfl
  | expr e => rfl

theorem filterMap_exprOf_shift (m : Nat) (l : List StmtRef) :
    List.filterMap exprOf (l.map (shiftStmt m)) =
      (List.filterMap exprOf l).map (fun e => e + m) := by
  rw [List.filterMap_map]
  have hcomp : (exprOf ∘ shiftStmt m) = fun s => (exprOf s).map (fun e => e + m) := by
    funext s
    exact exprOf_shift m s
  rw [hcomp, filterMap_option_map]

theorem exprsFrom_copy (m : Nat) (h : Heap) (f : Fusion) (rca : Bool)
    (srcs : List Nat) (fuel : Nat) :
    exprsFrom (copyHeap m h) (copyFusion m f) rca (srcs.map (fun w => w + m)) fuel =
      (exprsFrom h f rca srcs fuel).map (List.map (fun w => w + m)) := by
  unfold exprsFrom
  have hsrcs : (srcs.map (fun w => w + m)).map StmtRef.val =
      (srcs.map StmtRef.val).map (shiftStmt m) := by
    rw [List.map_map, List.map_map]
    rfl
  rw [hsrcs, traverseFrom_map _ _ _ (shiftStmt_injective m) (nextStmt_copy m h f rca)]
  cases traverseFromModel (nextStmt h f rca) (srcs.map StmtRef.val) fuel with
  | none => rfl
  | some ord =>
    show some (List.filterMap exprOf (ord.map (shiftStmt m))) = _
    rw [filterMap_exprOf_shift]
    rfl

theorem getTerminatingOutputs_copy (m : Nat) (h : Heap) (f : Fusion) (fuel : Nat) :
    getTerminatingOutputs (copyHeap m h) (copyFusion m f) fuel =
      (getTerminatingOutputs h f fuel).map (List.map (fun w => w + m)) := by
  unfold getTerminatingOutputs
  have houts : (copyFusion m f).outputs = f.outputs.map (fun w => w + m) := rfl
  rw [houts, exprsFrom_copy]
  cases exprsFrom h f false f.outputs fuel with
  | none => rfl
  | some es0 =>
    show some (((f.outputs.map (fun w => w + m)).filter _)) = _
    have hused : (es0.map (fun w => w + m)).flatMap
        (fun e => ((copyHeap m h).hexpr e).inputs) =
        (es0.flatMap (fun e => (h.hexpr e).inputs)).map (fun w => w + m) := by
      rw [List.flatMap_map, List.map_flatMap]
      congr 1
      funext e
      rw [copyHeap_hexpr]
      rfl
    rw [hused]
    have hfilter : (f.outputs.map (fun w => w + m)).filter
        (fun o => decide (o ∉ (es0.flatMap (fun e => (h.hexpr e).inputs)).map (fun w => w + m))) =
        (f.outputs.filter (fun o => decide (o ∉ es0.flatMap (fun e => (h.hexpr e).inputs)))).map
          (fun w => w + m) := by
      rw [List.filter_map]
      congr 1
      apply List.filter_congr
      intro o ho
      simp only [Function.comp]
      congr 1
      rw [eq_iff_iff]
      constructor
      · intro hq hq2
        exact hq ((mem_map_addm m _ o).mpr hq2)
      · intro hq hq2
        exact hq ((mem_map_addm m _ o).mp hq2)
    rw [hfilter]
    rfl

theorem exprsModel_true_copy (m : Nat) (h : Heap) (f : Fusion) (fuel : Nat) :
    exprsModel (copyHeap m h) (copyFusion m f) true false fuel =
      (exprsModel h f true false fuel).map (List.map (fun w => w + m)) := by
  have hL : exprsModel (copyHeap m h) (copyFusion m f) true false fuel =
      (match getTerminatingOutputs (copyHeap m h) (copyFusion m f) fuel with
       | none => none
       | some touts =>
         if touts.isEmpty then some []
         else exprsFrom (copyHeap m h) (copyFusion m f) false touts fuel) := rfl
  have hR : exprsModel h f true false fuel =
      (match getTerminatingOutputs h f fuel with
       | none => none
       | some touts =>
         if touts.isEmpty then some []
         else exprsFrom h f false touts fuel) := rfl
  rw [hL, hR, getTerminatingOutputs_copy]
  cases getTerminatingOutputs h f fuel with
  | none => rfl
  | some touts =>
    show (if (touts.map (fun w => w + m)).isEmpty then some []
          else exprsFrom (copyHeap m h) (copyFusion m f) false (touts.map (fun w => w + m)) fuel) = _
    have hemp : (touts.map (fun w => w + m)).isEmpty = touts.isEmpty := by
      cases touts with
      | nil => rfl
      | cons a rest => rfl
    rw [hemp]
    show _ = Option.map (List.map (fun w => w + m))
      (if touts.isEmpty then some [] else exprsFrom h f false touts fuel)
    by_cases he : touts.isEmpty
    · rw [if_pos he, if_pos he]
      rfl
    · rw [if_neg he, if_neg he, exprsFrom_copy]

theorem optList_map {a b c : Type} (g : a → b) (r : b → Option c) (l : List a) :
    optList r (l.map g) = optList (fun x => r (g x)) l := by
  induction l with
  | nil => rfl
  | cons x rest ih =>
    show (match r (g x), optList r (rest.map g) with
          | some y, some ys => some (y :: ys)
          | _, _ => none) =
      (match r (g x), optList (fun x => r (g x)) rest with
       | some y, some ys => some (y :: ys)
       | _, _ => none)
    rw [ih]

theorem optList_congr {a b : Type} (r1 r2 : a → Option b) (l : List a)
    (hq : ∀ x ∈ l, r1 x = r2 x) : optList r1 l = optList r2 l := by
  induction l with
  | nil => rfl
  | cons x rest ih =>
    show (match r1 x, optList r1 rest with
          | some y, some ys => some (y :: ys)
          | _, _ => none) =
      (match r2 x, optList r2 rest with
       | some y, some ys => some (y :: ys)
       | _, _ => none)
    rw [hq x (List.mem_cons_self x rest),
      ih (fun y hy => hq y (List.mem_cons_of_mem x hy))]

theorem isScalarVal_copy (m : Nat) (h : Heap) (w : Nat) :
    isScalarVal (copyHeap m h) (w + m) = isScalarVal h w := by
  unfold isScalarVal
  rw [copyHeap_hval]
  rfl

theorem isZeroInt_copy (m : Nat) (h : Heap) (w : Nat) :
    isZeroInt (copyHeap m h) (w + m) = isZeroInt h w := by
  unfold isZeroInt
  rw [copyHeap_hval]
  rfl

theorem renderInline_copy (m : Nat) (h : Heap) (f : Fusion) :
    ∀ (fuel v : Nat),
      renderInline (copyHeap m h) (copyFusion m f) fuel (v + m) =
        renderInline h f fuel v := by
  intro fuel
  induction fuel with
  | zero => intro v; rfl
  | succ fuel ih =>
    intro v
    unfold renderInline
    rw [copyHeap_hval]
    cases hvty : (h.hval v).vty with
    | namedScalar =>
      have hs : (shiftVal m (h.hval v)).vty = ValTy.namedScalar := hvty
      simp only [hs, hvty]
      rfl
    | tensorView =>
      have hs : (shiftVal m (h.hval v)).vty = ValTy.tensorView := hvty
      simp only [hs, hvty]
    | tensorIndex =>
      have hs : (shiftVal m (h.hval v)).vty = ValTy.tensorIndex := hvty
      simp only [hs, hvty]
    | scalar =>
      have hs : (shiftVal m (h.hval v)).vty = ValTy.scalar := hvty
      simp only [hs, hvty]
      rw [copyFusion_origin]
      cases ho : f.origin v with
      | none =>
        simp only [ho, Option.map_none']
        cases hvv : (h.hval v).value with
        | none =>
          have hs2 : (shiftVal m (h.hval v)).value = (none : Option Int) := hvv
          simp only [hs2, hvv]
          rfl
        | some c =>
          have hs2 : (shiftVal m (h.hval v)).value = some c := hvv
          simp only [hs2, hvv]
          rfl
      | some e =>
        simp only [ho, Option.map_some']
        rw [copyHeap_hexpr]
        have hins : (shiftExpr m (h.hexpr e)).inputs =
            ((h.hexpr e).inputs).map (fun w => w + m) := rfl
        have houts : (shiftExpr m (h.hexpr e)).outputs =
            ((h.hexpr e).outputs).map (fun w => w + m) := rfl
        have het : (shiftExpr m (h.hexpr e)).ety = (h.hexpr e).ety := rfl
        rw [hins, houts, het, List.all_map, List.all_map, List.length_map]
        have ha1 : ((fun w => isScalarVal (copyHeap m h) w) ∘ (fun w => w + m)) =
            fun w => isScalarVal h w := by
          funext w
          simp only [Function.comp]
          rw [isScalarVal_copy]
        rw [ha1, optList_map]
        have ha2 : (fun w => renderInline (copyHeap m h) (copyFusion m f) fuel (w + m)) =
            renderInline h f fuel := funext ih
        rw [ha2]

theorem renderAxis_copy (m : Nat) (h : Heap) (f : Fusion) (fuel : Nat)
    (d : IterDomainData) :
    renderAxis (copyHeap m h) (copyFusion m f) fuel (shiftIterDomain m d) =
      renderAxis h f fuel d := by
  unfold renderAxis
  have hst : (shiftIterDomain m d).start = d.start + m := rfl
  have hex : (shiftIterDomain m d).extent = d.extent + m := rfl
  have hk : (shiftIterDomain m d).kind = d.kind := rfl
  have hp : (shiftIterDomain m d).parallel = d.parallel := rfl
  have hr : (shiftIterDomain m d).rfactor = d.rfactor := rfl
  rw [hst, hex, isZeroInt_copy, renderInline_copy, renderInline_copy]
  simp only [hk, hp, hr]

theorem renderVal_copy (m : Nat) (h : Heap) (f : Fusion) (fuel : Nat) (v : Nat) :
    renderVal (copyHeap m h) (copyFusion m f) fuel (v + m) = renderVal h f fuel v := by
  unfold renderVal
  rw [copyHeap_hval]
  cases hvty : (h.hval v).vty with
  | scalar =>
    have hs : (shiftVal m (h.hval v)).vty = ValTy.scalar := hvty
    simp only [hs, hvty]
    cases hvv : (h.hval v).value with
    | none =>
      have hs2 : (shiftVal m (h.hval v)).value = (none : Option Int) := hvv
      simp only [hs2, hvv]
      rfl
    | some c =>
      have hs2 : (shiftVal m (h.hval v)).value = some c := hvv
      simp only [hs2, hvv]
      rfl
  | namedScalar =>
    have hs : (shiftVal m (h.hval v)).vty = ValTy.namedScalar := hvty
    simp only [hs, hvty]
    rfl
  | tensorIndex =>
    have hs : (shiftVal m (h.hval v)).vty = ValTy.tensorIndex := hvty
    simp only [hs, hvty]
  | tensorView =>
    have hs : (shiftVal m (h.hval v)).vty = ValTy.tensorView := hvty
    simp only [hs, hvty]
    have hdom : (shiftVal m (h.hval v)).domain =
        ((h.hval v).domain).map (shiftIterDomain m) := rfl
    rw [hdom, optList_map]
    have ha : (fun d => renderAxis (copyHeap m h) (copyFusion m f) fuel
        (shiftIterDomain m d)) = renderAxis h f fuel :=
      funext (renderAxis_copy m h f fuel)
    rw [ha]
    cases optList (renderAxis h f fuel) (h.hval v).domain with
    | none => rfl
    | some dom =>
      have hca : (shiftVal m (h.hval v)).computeAtView =
          ((h.hval v).computeAtView).map (fun w => w + m) := rfl
      simp only [hca]
      cases hcv : (h.hval v).computeAtView with
      | none => rfl
      | some w =>
        simp only [hcv, Option.map_some']
        rw [copyHeap_hval]
        rfl

theorem renderExpr_copy (m : Nat) (h : Heap) (f : Fusion) (fuel : Nat) (e : Nat) :
    renderExpr (copyHeap m h) (copyFusion m f) fuel (e + m) = renderExpr h f fuel e := by
  unfold renderExpr
  rw [copyHeap_hexpr]
  have houts : (shiftExpr m (h.hexpr e)).outputs =
      ((h.hexpr e).outputs).map (fun w => w + m) := rfl
  have hins : (shiftExpr m (h.hexpr e)).inputs =
      ((h.hexpr e).inputs).map (fun w => w + m) := rfl
  have hrv : (fun w => renderVal (copyHeap m h) (copyFusion m f) fuel (w + m)) =
      renderVal h f fuel := funext (renderVal_copy m h f fuel)
  rw [houts, hins, optList_map, optList_map, hrv]
  cases optList (renderVal h f fuel) (h.hexpr e).outputs with
  | none => rfl
  | some outs =>
    cases optList (renderVal h f fuel) (h.hexpr e).inputs with
    | none => rfl
    | some ins =>
      cases hety : (h.hexpr e).ety with
      | reductionOp op =>
        have hs : (shiftExpr m (h.hexpr e)).ety = ExprTy.reductionOp op := hety
        simp only [hs, hety]
        have hei : (shiftExpr m (h.hexpr e)).einit =
            ((h.hexpr e).einit).map (fun w => w + m) := rfl
        simp only [hei]
        cases hiv : (h.hexpr e).einit with
        | none => rfl
        | some iv =>
          simp only [hiv, Option.map_some']
          rw [renderVal_copy]
      | unaryOp op =>
        have hs : (shiftExpr m (h.hexpr e)).ety = ExprTy.unaryOp op := hety
        simp only [hs, hety]
      | binaryOp op =>
        have hs : (shiftExpr m (h.hexpr e)).ety = ExprTy.binaryOp op := hety
        simp only [hs, hety]
      | ternaryOp op =>
        have hs : (shiftExpr m (h.hexpr e)).ety = ExprTy.ternaryOp op := hety
        simp only [hs, hety]
      | broadcastOp =>
        have hs : (shiftExpr m (h.hexpr e)).ety = ExprTy.broadcastOp := hety
        simp only [hs, hety]

theorem renderMath_copy (m : Nat) (h : Heap) (f : Fusion) (fuel : Nat) :
    renderMath (copyHeap m h) (copyFusion m f) fuel = renderMath h f fuel := by
  unfold renderMath
  rw [exprsModel_true_copy]
  cases hrun : exprsModel h f true false fuel with
  | none => rfl
  | some es =>
    simp only [hrun, Option.map_some']
    rw [optList_map]
    have hre : (fun e => renderExpr (copyHeap m h) (copyFusion m f) fuel (e + m)) =
        renderExpr h f fuel := funext (renderExpr_copy m h f fuel)
    rw [hre]

theorem renderTransform_copy (m : Nat) (h : Heap) (f : Fusion) (fuel : Nat) :
    ∀ t, renderTransform (copyHeap m h) (copyFusion m f) fuel (shiftTransform m t) =
      renderTransform h f fuel t := by
  intro t
  cases t with
  | split inAxis factor outer inner =>
    simp only [shiftTransform, renderTransform]
    rw [renderAxis_copy, renderVal_copy, renderAxis_copy, renderAxis_copy]
  | merge outer inner outAxis =>
    simp only [shiftTransform, renderTransform]
    rw [renderAxis_copy, renderAxis_copy, renderAxis_copy]

theorem renderTransforms_copy (m : Nat) (h : Heap) (f : Fusion) (fuel : Nat) :
    renderTransforms (copyHeap m h) (copyFusion m f) fuel =
      renderTransforms h f fuel := by
  unfold renderTransforms
  have hdq : (copyFusion m f).valDeque = f.valDeque.map (fun w => w + m) := rfl
  rw [hdq, List.filter_map]
  have hp : ((fun v => decide (((copyHeap m h).hval v).vty = ValTy.tensorView)) ∘
      (fun w => w + m)) = fun v => decide ((h.hval v).vty = ValTy.tensorView) := by
    funext w
    simp only [Function.comp]
    rw [copyHeap_hval]
    rfl
  rw [hp, List.flatMap_map]
  have hfl : (fun v => ((copyHeap m h).hval (v + m)).transforms) =
      fun v => ((h.hval v).transforms).map (shiftTransform m) := by
    funext v
    rw [copyHeap_hval]
    rfl
  rw [hfl, ← List.map_flatMap, optList_map]
  rw [funext (renderTransform_copy m h f fuel)]

/- ----------------------------------------------------------------
   Mutating the original heap does not change the clone: every heap
   read during the clone's rendering hits an identifier at or above m.
   ---------------------------------------------------------------- -/

theorem nextOk_member (nx : StmtRef → Option (List StmtRef)) (ord : List StmtRef)
    (hok : NextOk nx ord) (s : StmtRef) (hs : s ∈ ord) : ∃ ns, nx s = some ns := by
  obtain ⟨⟨i, hi⟩, hg⟩ := List.mem_iff_get.mp hs
  obtain ⟨ns, hns, _⟩ := hok i hi
  exact ⟨ns, hg ▸ hns⟩

theorem exprsFrom_mem_exprSet (h : Heap) (f : Fusion) (rca : Bool)
    (srcs : List Nat) (fuel : Nat) (es : List Nat)
    (hrun : exprsFrom h f rca srcs fuel = some es) :
    ∀ e ∈ es, e ∈ f.exprSet := by
  intro e he
  unfold exprsFrom at hrun
  cases htr : traverseFromModel (nextStmt h f rca) (srcs.map StmtRef.val) fuel with
  | none => rw [htr] at hrun; exact Option.noConfusion hrun
  | some ord =>
    rw [htr] at hrun
    simp only [Option.map] at hrun
    cases hrun
    have hmem : StmtRef.expr e ∈ ord := (mem_filterMap_exprOf ord e).mp he
    obtain ⟨_, hok, _, _⟩ := traverseFrom_spec _ _ _ _ htr
    obtain ⟨ns, hns⟩ := nextOk_member _ _ hok _ hmem
    exact nextStmt_expr_inset h f rca e ns hns

theorem exprsModelTrue_mem_exprSet (h : Heap) (f : Fusion) (fuel : Nat)
    (es : List Nat) (hrun : exprsModel h f true false fuel = some es) :
    ∀ e ∈ es, e ∈ f.exprSet := by
  have hrun2 : (match getTerminatingOutputs h f fuel with
    | none => none
    | some touts =>
      if touts.isEmpty then some []
      else exprsFrom h f false touts fuel) = some es := hrun
  cases hg : getTerminatingOutputs h f fuel with
  | none => rw [hg] at hrun2; exact Option.noConfusion hrun2
  | some touts =>
    simp only [hg] at hrun2
    by_cases hemp : touts.isEmpty
    · rw [if_pos hemp] at hrun2
      cases hrun2
      intro e he
      exact absurd he (List.not_mem_nil e)
    · rw [if_neg hemp] at hrun2
      exact exprsFrom_mem_exprSet h f false touts fuel es hrun2

theorem flatMap_congr_mem {α β : Type} (l : List α) (f1 f2 : α → List β)
    (hq : ∀ a ∈ l, f1 a = f2 a) : l.flatMap f1 = l.flatMap f2 := by
  induction l with
  | nil => rfl
  | cons a rest ih =>
    rw [List.flatMap_cons, List.flatMap_cons, hq a (List.mem_cons_self a rest),
      ih (fun b hb => hq b (List.mem_cons_of_mem a hb))]

theorem copyHeap_hval_ge (m : Nat) (h : Heap) (v : Nat) (hm : m ≤ v) :
    (copyHeap m h).hval v = shiftVal m (h.hval (v - m)) := by
  show (if v < m then h.hval v else shiftVal m (h.hval (v - m))) = _
  rw [if_neg (by omega)]

theorem copyHeap_hexpr_ge (m : Nat) (h : Heap) (e : Nat) (hm : m ≤ e) :
    (copyHeap m h).hexpr e = shiftExpr m (h.hexpr (e - m)) := by
  show (if e < m then h.hexpr e else shiftExpr m (h.hexpr (e - m))) = _
  rw [if_neg (by omega)]

theorem nextStmt_congr_copy (m : Nat) (h h2 : Heap) (f : Fusion)
    (he2 : ∀ k, m ≤ k → h2.hexpr k = (copyHeap m h).hexpr k) :
    ∀ s, nextStmt h2 (copyFusion m f) false s =
      nextStmt (copyHeap m h) (copyFusion m f) false s := by
  intro s
  cases s with
  | val v => rfl
  | expr e =>
    show nextExpr h2 (copyFusion m f) false e =
      nextExpr (copyHeap m h) (copyFusion m f) false e
    unfold nextExpr
    by_cases he : e ∈ (copyFusion m f).exprSet
    · rw [if_pos he, if_pos he]
      have he3 : e ∈ f.exprSet.map (fun w => w + m) := he
      have hm : m ≤ e := by
        obtain ⟨w, _, hw⟩ := List.mem_map.mp he3
        omega
      rw [he2 e hm]
      rfl
    · rw [if_neg he, if_neg he]

theorem exprsFrom_congr_copy (m : Nat) (h h2 : Heap) (f : Fusion)
    (he2 : ∀ k, m ≤ k → h2.hexpr k = (copyHeap m h).hexpr k)
    (srcs : List Nat) (fuel : Nat) :
    exprsFrom h2 (copyFusion m f) false srcs fuel =
      exprsFrom (copyHeap m h) (copyFusion m f) false srcs fuel := by
  unfold exprsFrom
  rw [funext (nextStmt_congr_copy m h h2 f he2)]

theorem getTerminatingOutputs_congr_copy (m : Nat) (h h2 : Heap) (f : Fusion)
    (he2 : ∀ k, m ≤ k → h2.hexpr k = (copyHeap m h).hexpr k) (fuel : Nat) :
    getTerminatingOutputs h2 (copyFusion m f) fuel =
      getTerminatingOutputs (copyHeap m h) (copyFusion m f) fuel := by
  unfold getTerminatingOutputs
  rw [exprsFrom_congr_copy m h h2 f he2]
  cases hrun : exprsFrom (copyHeap m h) (copyFusion m f) false
      (copyFusion m f).outputs fuel with
  | none => rfl
  | some es =>
    have hmem := exprsFrom_mem_exprSet _ _ _ _ _ _ hrun
    have hused : es.flatMap (fun e => (h2.hexpr e).inputs) =
        es.flatMap (fun e => ((copyHeap m h).hexpr e).inputs) := by
      apply flatMap_congr_mem
      intro e hein
      have he3 : e ∈ f.exprSet.map (fun w => w + m) := hmem e hein
      have hm : m ≤ e := by
        obtain ⟨w, _, hw⟩ := List.mem_map.mp he3
        omega
      rw [he2 e hm]
    show some ((((copyFusion m f).outputs).filter
      (fun o => decide (o ∉ es.flatMap (fun e => (h2.hexpr e).inputs))))) = _
    rw [hused]

theorem exprsModel_congr_copy (m : Nat) (h h2 : Heap) (f : Fusion)
    (he2 : ∀ k, m ≤ k → h2.hexpr k = (copyHeap m h).hexpr k) (fuel : Nat) :
    exprsModel h2 (copyFusion m f) true false fuel =
      exprsModel (copyHeap m h) (copyFusion m f) true false fuel := by
  have hL : exprsModel h2 (copyFusion m f) true false fuel =
      (match getTerminatingOutputs h2 (copyFusion m f) fuel with
       | none => none
       | some touts =>
         if touts.isEmpty then some []
         else exprsFrom h2 (copyFusion m f) false touts fuel) := rfl
  have hR : exprsModel (copyHeap m h) (copyFusion m f) true false fuel =
      (match getTerminatingOutputs (copyHeap m h) (copyFusion m f) fuel with
       | none => none
       | some touts =>
         if touts.isEmpty then some []
         else exprsFrom (copyHeap m h) (copyFusion m f) false touts fuel) := rfl
  rw [hL, hR, getTerminatingOutputs_congr_copy m h h2 f he2]
  cases getTerminatingOutputs (copyHeap m h) (copyFusion m f) fuel with
  | none => rfl
  | some touts =>
    show (if touts.isEmpty then some []
          else exprsFrom h2 (copyFusion m f) false touts fuel) =
      (if touts.isEmpty then some []
       else exprsFrom (copyHeap m h) (copyFusion m f) false touts fuel)
    by_cases hemp : touts.isEmpty
    · rw [if_pos hemp, if_pos hemp]
    · rw [if_neg hemp, if_neg hemp, exprsFrom_congr_copy m h h2 f he2]

theorem renderInline_congr_copy (m : Nat) (h h2 : Heap) (f : Fusion)
    (hv2 : ∀ k, m ≤ k → h2.hval k = (copyHeap m h).hval k)
    (he2 : ∀ k, m ≤ k → h2.hexpr k = (copyHeap m h).hexpr k) :
    ∀ (fuel v : Nat),
      renderInline h2 (copyFusion m f) fuel (v + m) =
        renderInline (copyHeap m h) (copyFusion m f) fuel (v + m) := by
  intro fuel
  induction fuel with
  | zero => intro v; rfl
  | succ fuel ih =>
    intro v
    unfold renderInline
    rw [hv2 (v + m) (Nat.le_add_left m v), copyHeap_hval]
    cases hvty : (h.hval v).vty with
    | namedScalar =>
      have hs : (shiftVal m (h.hval v)).vty = ValTy.namedScalar := hvty
      simp only [hs]
    | tensorView =>
      have hs : (shiftVal m (h.hval v)).vty = ValTy.tensorView := hvty
      simp only [hs]
    | tensorIndex =>
      have hs : (shiftVal m (h.hval v)).vty = ValTy.tensorIndex := hvty
      simp only [hs]
    | scalar =>
      have hs : (shiftVal m (h.hval v)).vty = ValTy.scalar := hvty
      simp only [hs]
      rw [copyFusion_origin]
      cases ho : f.origin v with
      | none => simp only [ho, Option.map_none']
      | some e =>
        simp only [ho, Option.map_some']
        rw [he2 (e + m) (Nat.le_add_left m e), copyHeap_hexpr]
        have hins : (shiftExpr m (h.hexpr e)).inputs =
            ((h.hexpr e).inputs).map (fun w => w + m) := rfl
        have houts : (shiftExpr m (h.hexpr e)).outputs =
            ((h.hexpr e).outputs).map (fun w => w + m) := rfl
        rw [hins, houts]
        simp only [List.all_map]
        have hscal : ((fun w => isScalarVal h2 w) ∘ (fun w => w + m)) =
            ((fun w => isScalarVal (copyHeap m h) w) ∘ (fun w => w + m)) := by
          funext w
          simp only [Function.comp_apply]
          unfold isScalarVal
          rw [hv2 (w + m) (Nat.le_add_left m w)]
        have ha : (fun w => renderInline h2 (copyFusion m f) fuel (w + m)) =
            fun w => renderInline (copyHeap m h) (copyFusion m f) fuel (w + m) :=
          funext ih
        rw [hscal, optList_map, optList_map, ha]

theorem renderAxis_congr_copy (m : Nat) (h h2 : Heap) (f : Fusion)
    (hv2 : ∀ k, m ≤ k → h2.hval k = (copyHeap m h).hval k)
    (he2 : ∀ k, m ≤ k → h2.hexpr k = (copyHeap m h).hexpr k)
    (fuel : Nat) (d : IterDomainData) :
    renderAxis h2 (copyFusion m f) fuel (shiftIterDomain m d) =
      renderAxis (copyHeap m h) (copyFusion m f) fuel (shiftIterDomain m d) := by
  unfold renderAxis
  have hst : (shiftIterDomain m d).start = d.start + m := rfl
  have hex : (shiftIterDomain m d).extent = d.extent + m := rfl
  have hz : isZeroInt h2 (d.start + m) = isZeroInt (copyHeap m h) (d.start + m) := by
    unfold isZeroInt
    rw [hv2 (d.start + m) (Nat.le_add_left m d.start)]
  rw [hst, hex, hz, renderInline_congr_copy m h h2 f hv2 he2 fuel d.start,
    renderInline_congr_copy m h h2 f hv2 he2 fuel d.extent]

theorem renderVal_congr_copy (m : Nat) (h h2 : Heap) (f : Fusion)
    (hv2 : ∀ k, m ≤ k → h2.hval k = (copyHeap m h).hval k)
    (he2 : ∀ k, m ≤ k → h2.hexpr k = (copyHeap m h).hexpr k)
    (fuel : Nat) (v : Nat) (hm : m ≤ v) :
    renderVal h2 (copyFusion m f) fuel v =
      renderVal (copyHeap m h) (copyFusion m f) fuel v := by
  obtain ⟨w, rfl⟩ : ∃ w, v = w + m := ⟨v - m, by omega⟩
  unfold renderVal
  rw [hv2 (w + m) hm, copyHeap_hval]
  cases hvty : (h.hval w).vty with
  | scalar =>
    have hs : (shiftVal m (h.hval w)).vty = ValTy.scalar := hvty
    simp only [hs]
  | namedScalar =>
    have hs : (shiftVal m (h.hval w)).vty = ValTy.namedScalar := hvty
    simp only [hs]
  | tensorIndex =>
    have hs : (shiftVal m (h.hval w)).vty = ValTy.tensorIndex := hvty
    simp only [hs]
  | tensorView =>
    have hs : (shiftVal m (h.hval w)).vty = ValTy.tensorView := hvty
    simp only [hs]
    have hdom : (shiftVal m (h.hval w)).domain =
        ((h.hval w).domain).map (shiftIterDomain m) := rfl
    rw [hdom, optList_map, optList_map]
    have ha : (fun d => renderAxis h2 (copyFusion m f) fuel (shiftIterDomain m d)) =
        fun d => renderAxis (copyHeap m h) (copyFusion m f) fuel (shiftIterDomain m d) :=
      funext (renderAxis_congr_copy m h h2 f hv2 he2 fuel)
    rw [ha]
    cases optList (fun d => renderAxis (copyHeap m h) (copyFusion m f) fuel
        (shiftIterDomain m d)) (h.hval w).domain with
    | none => rfl
    | some dom =>
      have hca : (shiftVal m (h.hval w)).computeAtView =
          ((h.hval w).computeAtView).map (fun u => u + m) := rfl
      simp only [hca]
      cases hcv : (h.hval w).computeAtView with
      | none => rfl
      | some u =>
        simp only [hcv, Option.map_some']
        rw [hv2 (u + m) (Nat.le_add_left m u)]

theorem renderExpr_congr_copy (m : Nat) (h h2 : Heap) (f : Fusion)
    (hv2 : ∀ k, m ≤ k → h2.hval k = (copyHeap m h).hval k)
    (he2 : ∀ k, m ≤ k → h2.hexpr k = (copyHeap m h).hexpr k)
    (fuel : Nat) (e : Nat) (hm : m ≤ e) :
    renderExpr h2 (copyFusion m f) fuel e =
      renderExpr (copyHeap m h) (copyFusion m f) fuel e := by
  obtain ⟨w, rfl⟩ : ∃ w, e = w + m := ⟨e - m, by omega⟩
  unfold renderExpr
  rw [he2 (w + m) hm, copyHeap_hexpr]
  have houts : (shiftExpr m (h.hexpr w)).outputs =
      ((h.hexpr w).outputs).map (fun u => u + m) := rfl
  have hins : (shiftExpr m (h.hexpr w)).inputs =
      ((h.hexpr w).inputs).map (fun u => u + m) := rfl
  have hrv : (fun u => renderVal h2 (copyFusion m f) fuel (u + m)) =
      fun u => renderVal (copyHeap m h) (copyFusion m f) fuel (u + m) :=
    funext (fun u => renderVal_congr_copy m h h2 f hv2 he2 fuel (u + m)
      (Nat.le_add_left m u))
  rw [houts, hins, optList_map, optList_map, optList_map, optList_map, hrv]
  cases optList (fun u => renderVal (copyHeap m h) (copyFusion m f) fuel (u + m))
      (h.hexpr w).outputs with
  | none =>
    cases optList (fun u => renderVal (copyHeap m h) (copyFusion m f) fuel (u + m))
        (h.hexpr w).inputs with
    | none => rfl
    | some ins => rfl
  | some outs =>
    cases optList (fun u => renderVal (copyHeap m h) (copyFusion m f) fuel (u + m))
        (h.hexpr w).inputs with
    | none => rfl
    | some ins =>
      cases hety : (h.hexpr w).ety with
      | reductionOp op =>
        have hs : (shiftExpr m (h.hexpr w)).ety = ExprTy.reductionOp op := hety
        simp only [hs]
        have hei : (shiftExpr m (h.hexpr w)).einit =
            ((h.hexpr w).einit).map (fun u => u + m) := rfl
        simp only [hei]
        cases hiv : (h.hexpr w).einit with
        | none => simp only [hiv, Option.map_none']
        | some iv =>
          simp only [hiv, Option.map_some']
          rw [renderVal_congr_copy m h h2 f hv2 he2 fuel (iv + m)
            (Nat.le_add_left m iv)]
      | unaryOp op =>
        have hs : (shiftExpr m (h.hexpr w)).ety = ExprTy.unaryOp op := hety
        simp only [hs]
      | binaryOp op =>
        have hs : (shiftExpr m (h.hexpr w)).ety = ExprTy.binaryOp op := hety
        simp only [hs]
      | ternaryOp op =>
        have hs : (shiftExpr m (h.hexpr w)).ety = ExprTy.ternaryOp op := hety
        simp only [hs]
      | broadcastOp =>
        have hs : (shiftExpr m (h.hexpr w)).ety = ExprTy.broadcastOp := hety
        simp only [hs]

theorem renderMath_congr_copy (m : Nat) (h h2 : Heap) (f : Fusion)
    (hv2 : ∀ k, m ≤ k → h2.hval k = (copyHeap m h).hval k)
    (he2 : ∀ k, m ≤ k → h2.hexpr k = (copyHeap m h).hexpr k) (fuel : Nat) :
    renderMath h2 (copyFusion m f) fuel =
      renderMath (copyHeap m h) (copyFusion m f) fuel := by
  unfold renderMath
  rw [exprsModel_congr_copy m h h2 f he2]
  cases hrun : exprsModel (copyHeap m h) (copyFusion m f) true false fuel with
  | none => rfl
  | some es =>
    have hmem := exprsModelTrue_mem_exprSet _ _ _ _ hrun
    apply optList_congr
    intro e hein
    have he3 : e ∈ f.exprSet.map (fun w => w + m) := hmem e hein
    have hm : m ≤ e := by
      obtain ⟨w, _, hw⟩ := List.mem_map.mp he3
      omega
    exact renderExpr_congr_copy m h h2 f hv2 he2 fuel e hm

theorem renderTransform_congr_copy (m : Nat) (h h2 : Heap) (f : Fusion)
    (hv2 : ∀ k, m ≤ k → h2.hval k = (copyHeap m h).hval k)
    (he2 : ∀ k, m ≤ k → h2.hexpr k = (copyHeap m h).hexpr k) (fuel : Nat) :
    ∀ t, renderTransform h2 (copyFusion m f) fuel (shiftTransform m t) =
      renderTransform (copyHeap m h) (copyFusion m f) fuel (shiftTransform m t) := by
  intro t
  cases t with
  | split inAxis factor outer inner =>
    simp only [shiftTransform, renderTransform]
    rw [renderAxis_congr_copy m h h2 f hv2 he2 fuel inAxis,
      renderVal_congr_copy m h h2 f hv2 he2 fuel (factor + m) (Nat.le_add_left m factor),
      renderAxis_congr_copy m h h2 f hv2 he2 fuel outer,
      renderAxis_congr_copy m h h2 f hv2 he2 fuel inner]
  | merge outer inner outAxis =>
    simp only [shiftTransform, renderTransform]
    rw [renderAxis_congr_copy m h h2 f hv2 he2 fuel outer,
      renderAxis_congr_copy m h h2 f hv2 he2 fuel inner,
      renderAxis_congr_copy m h h2 f hv2 he2 fuel outAxis]

theorem renderTransforms_congr_copy (m : Nat) (h h2 : Heap) (f : Fusion)
    (hv2 : ∀ k, m ≤ k → h2.hval k = (copyHeap m h).hval k)
    (he2 : ∀ k, m ≤ k → h2.hexpr k = (copyHeap m h).hexpr k) (fuel : Nat) :
    renderTransforms h2 (copyFusion m f) fuel =
      renderTransforms (copyHeap m h) (copyFusion m f) fuel := by
  unfold renderTransforms
  have hdq : (copyFusion m f).valDeque = f.valDeque.map (fun w => w + m) := rfl
  rw [hdq, List.filter_map, List.filter_map]
  have hp : ((fun v => decide ((h2.hval v).vty = ValTy.tensorView)) ∘
      (fun w => w + m)) =
      ((fun v => decide (((copyHeap m h).hval v).vty = ValTy.tensorView)) ∘
        (fun w => w + m)) := by
    funext w
    simp only [Function.comp]
    rw [hv2 (w + m) (Nat.le_add_left m w)]
  rw [hp, List.flatMap_map, List.flatMap_map]
  have hfl : (fun v => (h2.hval (v + m)).transforms) =
      fun v => (((copyHeap m h).hval (v + m)).transforms) := by
    funext v
    rw [hv2 (v + m) (Nat.le_add_left m v)]
  rw [hfl]
  have hfl2 : (fun v => (((copyHeap m h).hval (v + m)).transforms)) =
      fun v => ((h.hval v).transforms).map (shiftTransform m) := by
    funext v
    rw [copyHeap_hval]
    rfl
  rw [hfl2, ← List.map_flatMap, optList_map, optList_map]
  apply optList_congr
  intro t _
  exact renderTransform_congr_copy m h h2 f hv2 he2 fuel t

/-- C4: copy-constructing a clone through the cloning translation at
threshold m (every node of the original lives below m, every clone
node at or above m) yields (a) clone-locality: every identifier in the
clone's registries, origin map and uses map is a clone-local node, at
or above m and distinct from every node of the original; (b) the
clone's math-printer rendering and transform-printer dump are
byte-identical to the original's; and (c) mutation independence: any
later mutation of the heap that only rewrites identifiers below m —
i.e. any heap that still agrees with the post-copy heap at or above m
— leaves the clone's math rendering and transform dump byte-identical
to the original's pre-mutation ones. -/
theorem claim_C4 (m : Nat) (h : Heap) (f : Fusion) (fuel : Nat)
    (hbv : ∀ id2 ∈ f.valSet, id2 < m) (hbe : ∀ id2 ∈ f.exprSet, id2 < m) :
    ((∀ id2 ∈ (copyFusion m f).valSet, m ≤ id2 ∧ id2 ∉ f.valSet) ∧
     (∀ id2 ∈ (copyFusion m f).exprSet, m ≤ id2 ∧ id2 ∉ f.exprSet) ∧
     (∀ v e, (copyFusion m f).origin v = some e → m ≤ e ∧ e ∉ f.exprSet) ∧
     (∀ v e, e ∈ (copyFusion m f).uses v → m ≤ e ∧ e ∉ f.exprSet)) ∧
    renderMath (copyHeap m h) (copyFusion m f) fuel = renderMath h f fuel ∧
    renderTransforms (copyHeap m h) (copyFusion m f) fuel = renderTransforms h f fuel ∧
    (∀ h2 : Heap,
      (∀ k, m ≤ k → h2.hval k = (copyHeap m h).hval k) →
      (∀ k, m ≤ k → h2.hexpr k = (copyHeap m h).hexpr k) →
      renderMath h2 (copyFusion m f) fuel = renderMath h f fuel ∧
      renderTransforms h2 (copyFusion m f) fuel = renderTransforms h f fuel) := by
  refine ⟨⟨?_, ?_, ?_, ?_⟩, renderMath_copy m h f fuel,
    renderTransforms_copy m h f fuel, ?_⟩
  · intro id2 hid
    have hid2 : id2 ∈ f.valSet.map (fun w => w + m) := hid
    obtain ⟨w, hw, hwe⟩ := List.mem_map.mp hid2
    refine ⟨by omega, fun hc => ?_⟩
    have := hbv id2 hc
    omega
  · intro id2 hid
    have hid2 : id2 ∈ f.exprSet.map (fun w => w + m) := hid
    obtain ⟨w, hw, hwe⟩ := List.mem_map.mp hid2
    refine ⟨by omega, fun hc => ?_⟩
    have := hbe id2 hc
    omega
  · intro v e hor
    have hor2 : (if m ≤ v then (f.origin (v - m)).map (fun e0 => e0 + m) else none) =
        some e := hor
    by_cases hv : m ≤ v
    · rw [if_pos hv] at hor2
      cases ho : f.origin (v - m) with
      | none => rw [ho] at hor2; exact Option.noConfusion hor2
      | some e0 =>
        rw [ho] at hor2
        have he0 : e0 + m = e := Option.some.inj hor2
        refine ⟨by omega, fun hc => ?_⟩
        have := hbe e hc
        omega
    · rw [if_neg hv] at hor2
      exact Option.noConfusion hor2
  · intro v e hus
    have hus2 : e ∈ (if m ≤ v then (f.uses (v - m)).map (fun e0 => e0 + m) else []) := hus
    by_cases hv : m ≤ v
    · rw [if_pos hv] at hus2
      obtain ⟨e0, _, he0⟩ := List.mem_map.mp hus2
      refine ⟨by omega, fun hc => ?_⟩
      have := hbe e hc
      omega
    · rw [if_neg hv] at hus2
      exact absurd hus2 (List.not_mem_nil e)
  · intro h2 hv2 he2
    constructor
    · rw [renderMath_congr_copy m h h2 f hv2 he2 fuel, renderMath_copy]
    · rw [renderTransforms_congr_copy m h h2 f hv2 he2 fuel, renderTransforms_copy]

/- ----------------------------------------------------------------
   Concrete instantiations of the claim theorems.
   ---------------------------------------------------------------- -/

/-- Claim C1 instantiated on the two-expression chain. -/
theorem claim_C1_witness :
    exprsModel exH exF true false 20 = some [0, 1] ∧ (0 : Nat) ∈ [0] :=
  ⟨by decide, claim_C1 exH exF true false 20 [0, 1] (by constructor <;> decide)
    (by decide) 0 1 1 (by decide) (by decide) (by decide) [0] [] rfl⟩

/-- Claim C2 instantiated on the two-expression chain. -/
theorem claim_C2_witness :
    RankOk exH exF exRank ∧
      ((0 : Nat) ∈ [0, 1] ↔ BackReach exH exF exF.outputs (StmtRef.expr 0)) :=
  ⟨by unfold RankOk; decide, claim_C2 exH exF false 20 [0, 1] exRank
    (by constructor <;> decide) (by unfold RankOk; decide) (by decide) 0⟩

/-- Claim C3 instantiated: registering Expr 2 over the chain replaces
the prior origin Expr 1 of output Val 2. -/
theorem claim_C3_witness :
    (2 : Nat) ∉ exF.exprSet ∧
    ∃ f2, registerExprM exH exF 2 = some f2 ∧
      2 ∈ f2.exprSet ∧
      (∀ inp ∈ (exH.hexpr 2).inputs, 2 ∈ f2.uses inp) ∧
      (∀ out ∈ (exH.hexpr 2).outputs, f2.origin out = some 2) ∧
      (∀ out ∈ (exH.hexpr 2).outputs, ∀ prior, exF.origin out = some prior →
        prior ∉ f2.exprSet ∧ (∀ w ∈ exF.valSet, f2.origin w ≠ some prior) ∧
        (∀ w ∈ exF.valSet, prior ∉ f2.uses w)) :=
  ⟨by decide, claim_C3 exH exF 2 (by constructor <;> decide) (by decide)
    (by decide) (by decide) (by decide)⟩

/-- Claim C4 instantiated: cloning the chain at threshold 3 preserves
the math rendering and the transform dump. -/
theorem claim_C4_witness :
    (∀ id2 ∈ exF.valSet, id2 < 3) ∧ (∀ id2 ∈ exF.exprSet, id2 < 3) ∧
      renderMath (copyHeap 3 exH) (copyFusion 3 exF) 20 = renderMath exH exF 20 ∧
      renderTransforms (copyHeap 3 exH) (copyFusion 3 exF) 20 =
        renderTransforms exH exF 20 :=
  ⟨by decide, by decide, (claim_C4 3 exH exF 20 (by decide) (by decide)).2.1,
    (claim_C4 3 exH exF 20 (by decide) (by decide)).2.2.1⟩

/-- Claim C5 instantiated: adding the reduction TensorView Val 0 as
an input succeeds with the warning flag set. -/
theorem claim_C5_witness :
    (0 : Nat) ∈ exF5.valSet ∧
    ((addInputM exH5 exF5 0 = none ↔ exF5.origin 0 ≠ none) ∧
     ((exH5.hval 0).vty = ValTy.tensorView → tvHasReduction (exH5.hval 0) = true →
       exF5.origin 0 = none →
       addInputM exH5 exF5 0 = some ({ exF5 with inputs := exF5.inputs ++ [0] }, true))) :=
  ⟨by decide, claim_C5 exH5 exF5 0 (by decide)⟩

/-- Claim C6 instantiated: the TensorView Val 0 has no broadcast root
axis, so adding it as an output succeeds. -/
theorem claim_C6_witness :
    ((0 : Nat) ∈ exF5.valSet ∧ (exH5.hval 0).vty = ValTy.tensorView) ∧
    ((addOutputM exH5 exF5 0 = none ↔ hasBroadcastDom (exH5.hval 0).rootDomain = true) ∧
     (hasBroadcastDom (exH5.hval 0).rootDomain = false →
       addOutputM exH5 exF5 0 = some { exF5 with outputs := exF5.outputs ++ [0] })) :=
  ⟨⟨by decide, by decide⟩, claim_C6 exH5 exF5 0 (by decide) (by decide)⟩

/-- Amended claim C7 instantiated: Val 1 of the chain sameAs-matches
no registered input or output, so its removal succeeds and removes
its origin Expr 0 and its use Expr 1. -/
theorem claim_C7_amended_witness :
    (1 : Nat) ∈ exF.valSet ∧
    (∀ inp ∈ exF.inputs, exH.sameAs 1 inp = false) ∧
    (∀ out ∈ exF.outputs, exH.sameAs 1 out = false) ∧
    ((∀ v2 ∈ exF.valSet, (exF.inputs.any (fun inp => exH.sameAs v2 inp) = true ∨
        exF.outputs.any (fun out => exH.sameAs v2 out) = true) →
      removeValM exH exF v2 = none) ∧
     ∃ f2, removeValM exH exF 1 = some f2 ∧
       (∀ e, exF.origin 1 = some e → e ∉ f2.exprSet) ∧
       (∀ e ∈ exF.uses 1, e ∉ f2.exprSet) ∧
       1 ∉ f2.valSet ∧ 1 ∉ f2.valDeque) :=
  ⟨by decide, by decide, by decide, claim_C7_amended exH exF 1
    (by constructor <;> decide) (by decide) (by decide) (by decide)⟩

/-- Claim C8 instantiated: the compute-at traversal of the single
expression of exH8 visits the non-compute-at scalar first and the
compute-at inputs in increasing relative-axis order. -/
theorem claim_C8_witness :
    nextStmt exH8 exF8 true (StmtRef.expr 0) =
      some [StmtRef.val 2, StmtRef.val 1, StmtRef.val 0] ∧
    ((∀ t, t ∈ [StmtRef.val 2, StmtRef.val 1, StmtRef.val 0] ↔
        t ∈ (exH8.hexpr 0).inputs.map StmtRef.val) ∧
     (∀ v1 v2 : Nat,
       (exH8.hval v1).vty = ValTy.tensorView → (exH8.hval v1).computeAtView = some 3 →
       (exH8.hval v2).vty = ValTy.tensorView → (exH8.hval v2).computeAtView = some 3 →
       (exH8.hval v1).relComputeAtAxis < (exH8.hval v2).relComputeAtAxis →
       ∀ (p q : Nat) (hp : p < ([StmtRef.val 2, StmtRef.val 1, StmtRef.val 0] : List StmtRef).length)
         (hq : q < ([StmtRef.val 2, StmtRef.val 1, StmtRef.val 0] : List StmtRef).length),
         ([StmtRef.val 2, StmtRef.val 1, StmtRef.val 0] : List StmtRef).get ⟨p, hp⟩ = StmtRef.val v1 →
         ([StmtRef.val 2, StmtRef.val 1, StmtRef.val 0] : List StmtRef).get ⟨q, hq⟩ = StmtRef.val v2 →
         p < q) ∧
     ([StmtRef.val 2, StmtRef.val 1, StmtRef.val 0] : List StmtRef).filter
         (fun s => decide (caKey exH8 3 s = -1)) =
       ((exH8.hexpr 0).inputs.map StmtRef.val).filter
         (fun s => decide (caKey exH8 3 s = -1))) :=
  ⟨by decide, claim_C8 exH8 exF8 0 3 [StmtRef.val 2, StmtRef.val 1, StmtRef.val 0]
    (by decide) (by decide) (by decide)⟩

/-- Claim C9 instantiated on the chain: two scalar parameters, no RNG
and no grid-reduction parameters. -/
theorem claim_C9_witness :
    printHeaderParams exH exF 20 =
      some [KernelParam.scalar DataTy.float 0, KernelParam.scalar DataTy.float 2] ∧
    ∃ (ins outs : List KernelParam) (brng bgrid : Bool),
      declsOf exH exF.inputs = some ins ∧
      declsOf exH exF.outputs = some outs ∧
      (brng = true ↔
        ∃ e, BackReach exH exF exF.outputs (StmtRef.expr e) ∧ isRandLike exH e = true) ∧
      (bgrid = true ↔
        ∃ e, BackReach exH exF exF.outputs (StmtRef.expr e) ∧
          outHasGridReduction exH e = true) ∧
      [KernelParam.scalar DataTy.float 0, KernelParam.scalar DataTy.float 2] = ins ++ outs
        ++ (if brng then [KernelParam.rngSeed, KernelParam.rngOffset] else [])
        ++ (if bgrid then [KernelParam.workBuf, KernelParam.syncFlags] else []) :=
  ⟨by decide, claim_C9 exH exF 20
    [KernelParam.scalar DataTy.float 0, KernelParam.scalar DataTy.float 2] exRank
    (by constructor <;> decide) (by unfold RankOk; decide) (by decide)⟩

/-- Claim C10 instantiated: the inputs of output Val 2 of the chain
are exactly the origin-less backward-reachable Val 0. -/
theorem claim_C10_witness :
    inputsOfModel exH exF 2 20 = some [0] ∧
      ((0 : Nat) ∈ [0] ↔ (BackReach exH exF [2] (StmtRef.val 0) ∧ exF.origin 0 = none)) :=
  ⟨by decide, ((claim_C10 exH exF 2 20).2 [0] (by decide)).2 0⟩

end FuserModel
